import Mathlib

/-!
# WhisperBridge: streaming session of `NativeWhisper`

A shallow embedding of `engine/src/main/native/jni/WhisperBridge.cpp`.

* `NativeWhisper` holds the data members of the C++ struct that are read and
  written under `mutex`, together with three instrumentation counters
  (overflow warnings logged, decode passes dispatched, `whisper_full` calls).
* The member functions that only touch those members (`start`, `acceptPcm`,
  `pollPartial`, `pollFinal`, `resetSizing`, `shouldDecodeLocked`,
  `buildWindowLocked`, `infer`) are functions on `NativeWhisper`.
* The worker thread is a `WorkerPhase` next to the data (`Session`); the body
  of `loop` is split at the point where the lock is released around `infer`
  (`loop_wake` up to `lock.unlock()`, `loop_publish` from `lock.lock()` on), so
  that other calls may be interleaved while inference is in flight.

Integer conventions: `int`/`int64_t` values are `Int`, `size_t` values are
`Nat`; the conversions to `size_t` reduce modulo `2 ^ 64` (LP64 target).
`total_ingested`, `last_decode_cursor` and `partial_seq` are kept unbounded
(signed overflow is undefined behaviour in C++ and needs more than `2 ^ 31`
passes or `2 ^ 63` samples).  Samples are exact rationals: an `int16_t`
converts to `float` exactly and the division by `32768.0f` is a power-of-two
scaling, so `x / 32768` in `ℚ` is the value the code stores.
-/

namespace WhisperBridge

/-! ## Constants (lines 24-27) -/

/-- Sample rate expected by the engine: `kWhisperSampleRate`. -/
def kWhisperSampleRate : Int := 16000
/-- Step between partial decodes in milliseconds: `kStepMs`. -/
def kStepMs : Int := 500
/-- Length of the analysed trailing window in milliseconds: `kWindowMs`. -/
def kWindowMs : Int := 5000
/-- Retained context in milliseconds: `kMaxWindowMs`. -/
def kMaxWindowMs : Int := 30000

/-- One more than the largest `size_t`. -/
def sizeModulus : Nat := 18446744073709551616

/-- The conversion `static_cast<size_t>(x)` of a signed value. -/
def toSizeT (x : Int) : Nat := (x % (sizeModulus : Int)).toNat

/-- Largest value of the C++ type `int` (and of `jint`). -/
def intMax : Int := 2147483647

/-- A buffered sample (a `float` in the source, see the header). -/
abbrev Sample := ℚ

/-- Text of a transcript (`std::string`). -/
abbrev Text := List Char

/-! ## `trimCopy` (lines 50-57) -/

/-- Membership in the character set `" \t\n\r"`. -/
def isTrimChar (c : Char) : Bool :=
  c == Char.ofNat 32 || c == Char.ofNat 9 || c == Char.ofNat 10 || c == Char.ofNat 13

/-- The value `std::string::npos`. -/
def npos : Nat := sizeModulus - 1

/-- Index of the first character satisfying `p`, counted from `i`. -/
def findFrom (p : Char → Bool) : List Char → Nat → Option Nat
  | [], _ => none
  | c :: cs, i => if p c then some i else findFrom p cs (i + 1)

/-- The call `src.find_first_not_of(" \t\n\r")`. -/
def find_first_not_of (src : Text) : Nat :=
  match findFrom (fun c => !isTrimChar c) src 0 with
  | some i => i
  | none => npos

/-- The call `src.find_last_not_of(" \t\n\r")`. -/
def find_last_not_of (src : Text) : Nat :=
  match findFrom (fun c => !isTrimChar c) src.reverse 0 with
  | some i => src.length - 1 - i
  | none => npos

/-- The call `src.substr(pos, n)` for `pos ≤ src.size()`. -/
def substr (src : Text) (pos n : Nat) : Text := (src.drop pos).take n

/-- Copy of `src` without leading and trailing blanks. -/
def trimCopy (src : Text) : Text :=
  let b := find_first_not_of src
  if b = npos then []
  else
    let e := find_last_not_of src
    substr src b ((e + sizeModulus - b + 1) % sizeModulus)

/-! ## Session data (lines 184-208) -/

/-- Data members of `struct NativeWhisper` and the instrumentation counters. -/
structure NativeWhisper where
  /-- Whether `ctx` is a non-null engine handle. -/
  ctx : Bool
  pcm : List Sample
  min_samples_for_decode : Nat
  window_samples : Nat
  max_samples : Nat
  sample_rate : Int
  running : Bool
  stop_requested : Bool
  finalize_requested : Bool
  partial_available : Bool
  final_available : Bool
  overflow_notified : Bool
  partial_text : Text
  final_text : Text
  partial_seq : Int
  total_ingested : Int
  last_decode_cursor : Int
  /-- Number of overflow warnings written by `logWarn` (line 135). -/
  overflow_warnings : Nat
  /-- Number of decode passes dispatched (lines 247-248). -/
  decode_passes : Nat
  /-- Number of calls of `whisper_full` (line 304). -/
  engine_calls : Nat
deriving DecidableEq, Repr

/-- What one call of the engine leaves behind: the status returned by
`whisper_full` and the segment texts (`none` for a null pointer). -/
structure EngineResult where
  status : Int
  segments : List (Option Text)

/-- The external engine (`whisper.h`): the result of the `n`-th call of
`whisper_full` on the given audio. -/
abbrev Engine := Nat → List Sample → EngineResult

namespace NativeWhisper

/-- The local `kStepSamples` of `resetSizing` (line 215). -/
def kStepSamples (sample_rate : Int) : Nat :=
  toSizeT (Int.tdiv (sample_rate * kStepMs) 1000)

/-- The local `kWindowSamples` of `resetSizing` (line 216). -/
def kWindowSamples (sample_rate : Int) : Nat :=
  toSizeT (Int.tdiv (sample_rate * kWindowMs) 1000)

/-- The local `kMaxSamples` of `resetSizing` (line 217). -/
def kMaxSamples (sample_rate : Int) : Nat :=
  toSizeT (Int.tdiv (sample_rate * kMaxWindowMs) 1000)

/-- Sizing policy, `resetSizing` (lines 210-223). -/
def resetSizing (rate : Int) (s : NativeWhisper) : NativeWhisper :=
  let sample_rate := if rate > 0 then rate else kWhisperSampleRate
  let window_samples := max (kStepSamples sample_rate) (kWindowSamples sample_rate)
  { s with
    sample_rate := sample_rate
    min_samples_for_decode :=
      max (kStepSamples sample_rate) (toSizeT (Int.tdiv sample_rate 4))
    window_samples := window_samples
    max_samples := max window_samples (kMaxSamples sample_rate)
    overflow_notified := false }

/-- The member initialisers (lines 184-208) followed by the constructor body
(line 82). -/
def new (ctx : Bool) : NativeWhisper :=
  resetSizing kWhisperSampleRate
    { ctx := ctx, pcm := [], min_samples_for_decode := 0, window_samples := 0,
      max_samples := 0, sample_rate := kWhisperSampleRate, running := false,
      stop_requested := false, finalize_requested := false,
      partial_available := false, final_available := false,
      overflow_notified := false, partial_text := [], final_text := [],
      partial_seq := 0, total_ingested := 0, last_decode_cursor := 0,
      overflow_warnings := 0, decode_passes := 0, engine_calls := 0 }

/-- The locked body of `start` (lines 93-118) on the data members; the thread
creation of line 116 is `Session.start`. -/
def start (sample_rate : Int) (s : NativeWhisper) : Bool × NativeWhisper :=
  if !s.ctx then (false, s)
  else if s.running then (true, s)
  else
    let s1 := resetSizing sample_rate s
    (true,
      { s1 with
        running := true
        stop_requested := false
        finalize_requested := false
        partial_available := false
        final_available := false
        overflow_notified := false
        partial_text := []
        final_text := []
        partial_seq := 0
        total_ingested := 0
        last_decode_cursor := 0
        pcm := [] })

/-- The scaling of line 129. -/
def normalized (x : Int) : Sample := (x : ℚ) / 32768

/-- One iteration of the loop of `acceptPcm` (lines 129-137). -/
def acceptPcm_push (s : NativeWhisper) (x : Int) : NativeWhisper :=
  let s1 := { s with pcm := s.pcm ++ [normalized x] }
  if s1.pcm.length > s1.max_samples then
    let s2 := { s1 with pcm := s1.pcm.tail }
    if !s2.overflow_notified then
      { s2 with overflow_notified := true, overflow_warnings := s2.overflow_warnings + 1 }
    else s2
  else s1

/-- Feeding audio, `acceptPcm` (lines 120-142).  `samples` is `none` for a
null pointer and otherwise gives the value at each index. -/
def acceptPcm (samples : Option (Nat → Int)) (length : Int) (s : NativeWhisper) :
    NativeWhisper :=
  match samples with
  | none => s
  | some p =>
    if length ≤ 0 then s
    else if !s.running then s
    else
      let s1 := (List.range length.toNat).foldl (fun st i => acceptPcm_push st (p i)) s
      { s1 with total_ingested := s1.total_ingested + length }

/-- Reading the partial slot, `pollPartial` (lines 144-151). -/
def pollPartial (s : NativeWhisper) : Option Text × NativeWhisper :=
  if !s.partial_available then (none, s)
  else (some s.partial_text, { s with partial_available := false })

/-- Reading the final slot, `pollFinal` (lines 153-160). -/
def pollFinal (s : NativeWhisper) : Option Text × NativeWhisper :=
  if !s.final_available then (none, s)
  else (some s.final_text, { s with final_available := false })

/-- The local `min_step` of `shouldDecodeLocked` (line 281). -/
def min_step (sample_rate : Int) : Int := Int.tdiv (sample_rate * kStepMs) 1000

/-- Decode trigger, `shouldDecodeLocked` (lines 273-283). -/
def shouldDecodeLocked (s : NativeWhisper) : Bool :=
  if !s.running then false
  else if s.pcm.length < s.min_samples_for_decode then false
  else
    let delta := s.total_ingested - s.last_decode_cursor
    decide (delta ≥ min_step s.sample_rate)

/-- Window snapshot, `buildWindowLocked` (lines 285-296). -/
def buildWindowLocked (s : NativeWhisper) : List Sample :=
  let available := s.pcm.length
  let start_index := if available > s.window_samples then available - s.window_samples else 0
  s.pcm.drop start_index

/-- Appending the non-null segments (lines 313-318). -/
def appendSegments : List (Option Text) → Text → Text
  | [], result => result
  | none :: rest, result => appendSegments rest result
  | some segment :: rest, result => appendSegments rest (result ++ segment)

/-- Inference call-out, `infer` (lines 298-320): the transcript and the state
with the call counted. -/
def infer (engine : Engine) (audio : List Sample) (s : NativeWhisper) :
    Text × NativeWhisper :=
  if audio.isEmpty then ([], s)
  else
    let r := engine s.engine_calls audio
    let s1 := { s with engine_calls := s.engine_calls + 1 }
    if r.status ≠ 0 then ([], s1)
    else (appendSegments r.segments [], s1)

/-- How the worker leaves the locked section that starts at `cv.wait`. -/
inductive WakeOutcome where
  /-- The predicate of `cv.wait` is false: the worker stays blocked. -/
  | blocked
  /-- The `break` of line 239. -/
  | exit
  /-- The `continue` of line 244. -/
  | again
  /-- The lock is released with a window to decode (line 250). -/
  | dispatch (window : List Sample) (do_finalize : Bool)
deriving DecidableEq, Repr

/-- The statement after the loop (line 270). -/
def loop_exit (s : NativeWhisper) : NativeWhisper := { s with running := false }

/-- First half of one iteration of `loop` (lines 234-250). -/
def loop_wake (s : NativeWhisper) : NativeWhisper × WakeOutcome :=
  if !(s.stop_requested || s.finalize_requested || shouldDecodeLocked s) then
    (s, WakeOutcome.blocked)
  else if s.stop_requested && !s.finalize_requested then
    (loop_exit s, WakeOutcome.exit)
  else
    let do_finalize := s.finalize_requested
    if !do_finalize && !shouldDecodeLocked s then (s, WakeOutcome.again)
    else
      let window := buildWindowLocked s
      ({ s with last_decode_cursor := s.total_ingested
                decode_passes := s.decode_passes + 1 },
        WakeOutcome.dispatch window do_finalize)

/-- Second half of one iteration of `loop` (lines 252-270): the state and
whether the thread function returns. -/
def loop_publish (do_finalize : Bool) (transcript : Text) (s : NativeWhisper) :
    NativeWhisper × Bool :=
  let trimmed := trimCopy transcript
  let s1 :=
    if trimmed ≠ s.partial_text then
      { s with partial_text := trimmed
               partial_available := true
               partial_seq := s.partial_seq + 1 }
    else s
  if do_finalize then
    (loop_exit
      { s1 with final_text := trimmed
                final_available := true
                finalize_requested := false
                stop_requested := true
                running := false }, true)
  else (s1, false)

end NativeWhisper

/-! ## The worker thread and the control surface -/

/-- Where the thread held by the member `worker` stands. -/
inductive WorkerPhase where
  /-- No thread is held: never started, or joined (`joinable()` is false). -/
  | absent
  /-- Inside `cv.wait` (line 234). -/
  | waiting
  /-- Between `lock.unlock()` and `lock.lock()` (lines 250-252), holding the
  locals `window` and `do_finalize`. -/
  | decoding (window : List Sample) (do_finalize : Bool)
  /-- The function `loop` has returned and the thread is not joined yet. -/
  | exited
deriving DecidableEq, Repr

/-- The result of `worker.joinable()`. -/
def WorkerPhase.joinable : WorkerPhase → Bool
  | WorkerPhase.absent => false
  | _ => true

/-- A session: the data members and the worker thread. -/
structure Session where
  st : NativeWhisper
  worker : WorkerPhase
deriving DecidableEq, Repr

namespace Session

open NativeWhisper

/-- A freshly constructed object (lines 60-83). -/
def new (ctx : Bool) : Session := { st := NativeWhisper.new ctx, worker := WorkerPhase.absent }

/-- The call `start` with the thread creation of line 116.  Assigning a new
thread to a `std::thread` that is still joinable calls `std::terminate`; that
outcome is `none`. -/
def start (sample_rate : Int) (σ : Session) : Option (Bool × Session) :=
  if !σ.st.ctx then some (false, σ)
  else if σ.st.running then some (true, σ)
  else if σ.worker.joinable then none
  else some (true, { st := (NativeWhisper.start sample_rate σ.st).2, worker := WorkerPhase.waiting })

/-- One scheduling step of the worker thread: from `cv.wait` to the release of
the lock, or the inference call followed by the rest of the iteration. -/
def workerStep (engine : Engine) (σ : Session) : Session :=
  match σ.worker with
  | WorkerPhase.absent => σ
  | WorkerPhase.exited => σ
  | WorkerPhase.waiting =>
    match loop_wake σ.st with
    | (st1, WakeOutcome.blocked) => { st := st1, worker := WorkerPhase.waiting }
    | (st1, WakeOutcome.exit) => { st := st1, worker := WorkerPhase.exited }
    | (st1, WakeOutcome.again) => { st := st1, worker := WorkerPhase.waiting }
    | (st1, WakeOutcome.dispatch window do_finalize) =>
      { st := st1, worker := WorkerPhase.decoding window do_finalize }
  | WorkerPhase.decoding window do_finalize =>
    let r := infer engine window σ.st
    let q := loop_publish do_finalize r.1 r.2
    { st := q.1, worker := if q.2 then WorkerPhase.exited else WorkerPhase.waiting }

/-- The worker stepped until its thread function has returned, with at most
`fuel` steps; `none` when it has not returned by then. -/
def workerToExit (engine : Engine) : Nat → Session → Option Session
  | 0, σ => if σ.worker = WorkerPhase.exited then some σ else none
  | fuel + 1, σ =>
    if σ.worker = WorkerPhase.exited then some σ
    else workerToExit engine fuel (workerStep engine σ)

/-- Steps that always suffice for a worker to return once a stop or finalize
flag is set: the publication of a pass in flight, one wake-up and one final
pass (`workerToExit_of_flag`). -/
def joinFuel : Nat := 3

/-- Joining the worker, `stopWorker` (lines 225-229), called with no other
thread running in between; `none` when `join` does not return. -/
def stopWorker (engine : Engine) (σ : Session) : Option Session :=
  if σ.worker.joinable then
    (workerToExit engine joinFuel σ).map (fun τ => { τ with worker := WorkerPhase.absent })
  else some σ

/-- The call `requestFinalize` (lines 162-172). -/
def requestFinalize (engine : Engine) (σ : Session) : Option Session :=
  if !σ.st.running || σ.st.finalize_requested then some σ
  else stopWorker engine { σ with st := { σ.st with finalize_requested := true } }

/-- The call `stopImmediate` (lines 174-181). -/
def stopImmediate (engine : Engine) (σ : Session) : Option Session :=
  stopWorker engine { σ with st := { σ.st with stop_requested := true } }

/-- The call `acceptPcm` on a session. -/
def acceptPcm (samples : Option (Nat → Int)) (length : Int) (σ : Session) : Session :=
  { σ with st := NativeWhisper.acceptPcm samples length σ.st }

/-- The call `pollPartial` on a session. -/
def pollPartial (σ : Session) : Option Text × Session :=
  ((NativeWhisper.pollPartial σ.st).1, { σ with st := (NativeWhisper.pollPartial σ.st).2 })

/-- The call `pollFinal` on a session. -/
def pollFinal (σ : Session) : Option Text × Session :=
  ((NativeWhisper.pollFinal σ.st).1, { σ with st := (NativeWhisper.pollFinal σ.st).2 })

end Session

/-- The events of a run: calls of the control surface, each taken as a whole,
and steps of the worker thread. -/
inductive Op where
  | start (sample_rate : Int)
  | acceptPcm (samples : Option (Nat → Int)) (length : Int)
  | pollPartial
  | pollFinal
  | requestFinalize
  | stopImmediate
  | workerStep

/-- The session after one event; `none` when the process is terminated or a
call does not return. -/
def applyOp (engine : Engine) (σ : Session) : Op → Option Session
  | Op.start sample_rate => (Session.start sample_rate σ).map (fun r => r.2)
  | Op.acceptPcm samples length => some (Session.acceptPcm samples length σ)
  | Op.pollPartial => some (Session.pollPartial σ).2
  | Op.pollFinal => some (Session.pollFinal σ).2
  | Op.requestFinalize => Session.requestFinalize engine σ
  | Op.stopImmediate => Session.stopImmediate engine σ
  | Op.workerStep => some (Session.workerStep engine σ)

/-- The session after a sequence of events. -/
def runOps (engine : Engine) : List Op → Session → Option Session
  | [], σ => some σ
  | op :: ops, σ =>
    match applyOp engine σ op with
    | none => none
    | some τ => runOps engine ops τ

/-! ## Reference definitions -/

/-- The last `k` elements of a list. -/
def lastN {α : Type} (k : Nat) (l : List α) : List α := l.drop (l.length - k)

/-- The derived sizes as a tuple: rate, decode minimum, window, maximum. -/
def NativeWhisper.sizing (s : NativeWhisper) : Int × Nat × Nat × Nat :=
  (s.sample_rate, s.min_samples_for_decode, s.window_samples, s.max_samples)

/-- Whether the worker left the locked section with a window to decode. -/
def NativeWhisper.WakeOutcome.isDispatch : NativeWhisper.WakeOutcome → Bool
  | NativeWhisper.WakeOutcome.dispatch _ _ => true
  | _ => false

/-- A running session with three buffered samples for which a decode is due
(step 2, decode minimum 2, three new samples). -/
def probe : NativeWhisper :=
  { NativeWhisper.new true with
    running := true, sample_rate := 4, min_samples_for_decode := 2, window_samples := 2,
    max_samples := 4, pcm := [0, 0, 0], total_ingested := 3 }

/-- An engine that always succeeds with the one segment `" ok "`. -/
def probeEngine : Engine := fun _ _ => { status := 0, segments := [some [' ', 'o', 'k', ' ']] }

/-- The buffer together with the derived sizes: what the worker never writes. -/
def NativeWhisper.store (s : NativeWhisper) : List Sample × Int × Nat × Nat × Nat :=
  (s.pcm, s.sizing)

/-- The buffer bound of the data model. -/
def Session.bounded (σ : Session) : Prop := σ.st.pcm.length ≤ σ.st.max_samples

/-- The states a session is in between two calls when every call runs as a
whole: no thread and not running, or a live worker of a running session with
no stop or finalize request pending. -/
def Session.consistent (σ : Session) : Bool :=
  match σ.worker with
  | WorkerPhase.absent => !σ.st.running
  | WorkerPhase.waiting =>
    σ.st.running && !σ.st.stop_requested && !σ.st.finalize_requested
  | WorkerPhase.decoding _ do_finalize =>
    !do_finalize && σ.st.running && !σ.st.stop_requested && !σ.st.finalize_requested
  | WorkerPhase.exited => false

/-- A property of the data members kept by everything except `start` and
`acceptPcm`: both halves of a worker iteration, the inference call, the stop
and finalize flags and the two polls. -/
structure Stable (P : NativeWhisper → Prop) : Prop where
  wake : ∀ s, P s → P (NativeWhisper.loop_wake s).1
  inference : ∀ (engine : Engine) (w : List Sample) (s : NativeWhisper),
    P s → P (NativeWhisper.infer engine w s).2
  publish : ∀ (f : Bool) (t : Text) (s : NativeWhisper),
    P s → P (NativeWhisper.loop_publish f t s).1
  finalizeFlag : ∀ s : NativeWhisper, P s → P { s with finalize_requested := true }
  stopFlag : ∀ s : NativeWhisper, P s → P { s with stop_requested := true }
  pollP : ∀ s, P s → P (NativeWhisper.pollPartial s).2
  pollF : ∀ s, P s → P (NativeWhisper.pollFinal s).2

/-- Whether an event is a call of `start`. -/
def Op.isStart : Op → Bool
  | Op.start _ => true
  | _ => false

/-- What only `start` and `acceptPcm` write: the buffer, the derived sizes,
the ingest counter, the overflow latch and the count of overflow warnings. -/
def NativeWhisper.ledger (s : NativeWhisper) :
    List Sample × (Int × Nat × Nat × Nat) × Int × Bool × Nat :=
  (s.pcm, s.sizing, s.total_ingested, s.overflow_notified, s.overflow_warnings)

/-- The second halves of successive decode passes, each given by its
`do_finalize` and the transcript returned by `infer`. -/
def publishAll : List (Bool × Text) → NativeWhisper → NativeWhisper
  | [], s => s
  | (f, t) :: rest, s => publishAll rest (NativeWhisper.loop_publish f t s).1

/-- Number of passes whose trimmed transcript differs from the partial text
current at that pass, starting from the partial text `cur`. -/
def textChanges : List (Bool × Text) → Text → Nat
  | [], _ => 0
  | (_, t) :: rest, cur =>
    (if trimCopy t ≠ cur then 1 else 0) + textChanges rest (trimCopy t)

/-- The accounting relations of the data model: the decode cursor lies between
zero and the ingest counter, the buffer holds the most recent
`min total_ingested max_samples` samples, and the overflow latch is set
exactly when more than `max_samples` samples have been ingested. -/
def NativeWhisper.tracked (s : NativeWhisper) : Prop :=
  0 ≤ s.last_decode_cursor ∧ s.last_decode_cursor ≤ s.total_ingested ∧
  (s.pcm.length : Int) = min s.total_ingested (s.max_samples : Int) ∧
  (s.overflow_notified = true ↔ (s.max_samples : Int) < s.total_ingested)

/-- The number of samples an event adds to the session: the length of an
`acceptPcm` call that is accepted (non-null pointer, positive length, session
running), zero for everything else. -/
def acceptedLength (σ : Session) : Op → Int
  | Op.acceptPcm samples length =>
    if samples.isSome ∧ 0 < length ∧ σ.st.running = true then length else 0
  | _ => 0

/-- The sum of the lengths of the accepted `acceptPcm` calls of a run. -/
def acceptedSum (engine : Engine) : List Op → Session → Int
  | [], _ => 0
  | op :: ops, σ =>
    acceptedLength σ op +
      (match applyOp engine σ op with
        | none => 0
        | some τ => acceptedSum engine ops τ)

/-- Forty seconds of audio at 16000 Hz fed in two calls. -/
def fortySeconds : List Op :=
  [Op.acceptPcm (some (fun i => (i : Int))) 400000,
   Op.acceptPcm (some (fun i => (i : Int))) 240000]

/-- The relations between the derived sizes that the sizing policy gives for a
rate within `int`: the decode minimum is the step, and it is at most
`max_samples`. -/
def NativeWhisper.sized (s : NativeWhisper) : Prop :=
  (s.min_samples_for_decode : Int) = NativeWhisper.min_step s.sample_rate ∧
  s.min_samples_for_decode ≤ s.max_samples

/-- Whether the worker is blocked in `cv.wait` with the predicate false: no
stop or finalize request and no decode due. -/
def Session.idle (σ : Session) : Bool :=
  decide (σ.worker = WorkerPhase.waiting) &&
    !(σ.st.stop_requested || σ.st.finalize_requested || NativeWhisper.shouldDecodeLocked σ.st)

/-- The worker run until it is idle, with at most `fuel` steps; `none` when it
is not idle by then. -/
def Session.settle (engine : Engine) : Nat → Session → Option Session
  | 0, σ => if σ.idle then some σ else none
  | fuel + 1, σ =>
    if σ.idle then some σ else Session.settle engine fuel (Session.workerStep engine σ)

/-- Successive `acceptPcm` calls, the worker run until idle after each. -/
def feedAndSettle (engine : Engine) (fuel : Nat) :
    List (Option (Nat → Int) × Int) → Session → Option Session
  | [], σ => some σ
  | (samples, length) :: rest, σ =>
    match Session.settle engine fuel (Session.acceptPcm samples length σ) with
    | none => none
    | some τ => feedAndSettle engine fuel rest τ

/-- The number of samples a list of `acceptPcm` calls feeds to a running
session: the sum of the positive lengths given with a non-null pointer. -/
def callsTotal : List (Option (Nat → Int) × Int) → Int
  | [] => 0
  | (samples, length) :: rest =>
    (if samples.isSome ∧ 0 < length then length else 0) + callsTotal rest

/-- The states of the 600 ms scenario between calls: a session running at
16000 Hz with an idle worker that has ingested at most 9600 samples and has
either seen fewer than 8000 samples and not decoded since the pass count was
`p0`, or decoded once with the cursor at 8000 or later. -/
def Session.settled (p0 : Nat) (σ : Session) : Prop :=
  σ.worker = WorkerPhase.waiting ∧ σ.st.running = true ∧ σ.st.stop_requested = false ∧
  σ.st.finalize_requested = false ∧ σ.st.sample_rate = 16000 ∧
  σ.st.min_samples_for_decode = 8000 ∧ σ.st.max_samples = 480000 ∧ σ.st.tracked ∧
  σ.st.total_ingested ≤ 9600 ∧
  ((σ.st.total_ingested < 8000 ∧ σ.st.last_decode_cursor = 0 ∧ σ.st.decode_passes = p0) ∨
    (8000 ≤ σ.st.last_decode_cursor ∧ σ.st.decode_passes = p0 + 1))

/-- Reference for `trimCopy` in the words of the specification: the text
without its leading and without its trailing blanks. -/
def trimReference (src : Text) : Text :=
  (src.dropWhile isTrimChar).rdropWhile isTrimChar

/-! ## Theorems -/

section Sizing

open NativeWhisper

theorem toSizeT_of_range (x : Int) (h0 : 0 ≤ x) (h1 : x < 18446744073709551616) :
    (toSizeT x : Int) = x := by
  unfold toSizeT sizeModulus
  omega

theorem tdiv_of_nonneg (a b : Int) (ha : 0 ≤ a) (hb : 0 ≤ b) : Int.tdiv a b = a / b :=
  Int.tdiv_eq_ediv ha hb

theorem kStepSamples_eq (r : Int) (h0 : 0 < r) (h1 : r ≤ intMax) :
    (kStepSamples r : Int) = r * 500 / 1000 := by
  unfold intMax at h1
  unfold kStepSamples kStepMs
  rw [tdiv_of_nonneg _ _ (by omega) (by omega)]
  exact toSizeT_of_range _ (by omega) (by omega)

theorem kWindowSamples_eq (r : Int) (h0 : 0 < r) (h1 : r ≤ intMax) :
    (kWindowSamples r : Int) = r * 5000 / 1000 := by
  unfold intMax at h1
  unfold kWindowSamples kWindowMs
  rw [tdiv_of_nonneg _ _ (by omega) (by omega)]
  exact toSizeT_of_range _ (by omega) (by omega)

theorem kMaxSamples_eq (r : Int) (h0 : 0 < r) (h1 : r ≤ intMax) :
    (kMaxSamples r : Int) = r * 30000 / 1000 := by
  unfold intMax at h1
  unfold kMaxSamples kMaxWindowMs
  rw [tdiv_of_nonneg _ _ (by omega) (by omega)]
  exact toSizeT_of_range _ (by omega) (by omega)

theorem quarter_eq (r : Int) (h0 : 0 < r) (h1 : r ≤ intMax) :
    (toSizeT (Int.tdiv r 4) : Int) = r / 4 := by
  unfold intMax at h1
  rw [tdiv_of_nonneg _ _ (by omega) (by omega)]
  exact toSizeT_of_range _ (by omega) (by omega)

theorem min_step_eq (r : Int) (h0 : 0 < r) : min_step r = r * 500 / 1000 := by
  unfold min_step kStepMs
  exact tdiv_of_nonneg _ _ (by omega) (by omega)

end Sizing

section Trigger

open NativeWhisper

theorem start_sample_rate (rate : Int) (s : NativeWhisper) (hc : s.ctx = true)
    (hr : s.running = false) :
    (NativeWhisper.start rate s).2.sample_rate = if rate > 0 then rate else kWhisperSampleRate := by
  simp [NativeWhisper.start, hc, hr, resetSizing]

theorem shouldDecodeLocked_iff (s : NativeWhisper) :
    shouldDecodeLocked s = true ↔
      (s.running = true ∧ s.min_samples_for_decode ≤ s.pcm.length ∧
        min_step s.sample_rate ≤ s.total_ingested - s.last_decode_cursor) := by
  unfold shouldDecodeLocked
  cases hr : s.running
  · simp
  · by_cases hl : s.pcm.length < s.min_samples_for_decode
    · simp [hl]
    · simp [hl]
      intro _
      omega

/-- C3: the decode trigger `shouldDecodeLocked` is true exactly when the
session is running, the buffer holds at least `min_samples_for_decode` samples
and `total_ingested - last_decode_cursor` is at least the step; for a rate
within `int` that step is the `kStepSamples` of the sizing policy,
`sample_rate * 500 / 1000`, and a start that resets the session stores such a
rate. -/
theorem C3_decode_trigger (s : NativeWhisper) :
    (shouldDecodeLocked s = true ↔
      (s.running = true ∧ s.min_samples_for_decode ≤ s.pcm.length ∧
        min_step s.sample_rate ≤ s.total_ingested - s.last_decode_cursor)) ∧
    (0 < s.sample_rate → s.sample_rate ≤ intMax →
      min_step s.sample_rate = (kStepSamples s.sample_rate : Int) ∧
      min_step s.sample_rate = s.sample_rate * 500 / 1000) ∧
    (∀ rate : Int, rate ≤ intMax → s.ctx = true → s.running = false →
      0 < (NativeWhisper.start rate s).2.sample_rate ∧
      (NativeWhisper.start rate s).2.sample_rate ≤ intMax ∧
      min_step (NativeWhisper.start rate s).2.sample_rate
          = (kStepSamples (NativeWhisper.start rate s).2.sample_rate : Int)) := by
  refine ⟨shouldDecodeLocked_iff s, ?_, ?_⟩
  · intro h0 h1
    rw [kStepSamples_eq _ h0 h1, min_step_eq _ h0]
    exact ⟨rfl, rfl⟩
  · intro rate hmax hc hr
    rw [start_sample_rate rate s hc hr]
    by_cases h : rate > 0
    · rw [if_pos h, kStepSamples_eq rate h hmax, min_step_eq rate h]
      exact ⟨h, hmax, rfl⟩
    · rw [if_neg h]
      have h16 : (0 : Int) < kWhisperSampleRate := by decide
      rw [kStepSamples_eq _ h16 (by decide), min_step_eq _ h16]
      exact ⟨h16, by decide, rfl⟩

/-- Witness for C3 at a running session with three buffered samples, and at
the start of a fresh session at 16000 Hz. -/
theorem C3_decode_trigger_witness :
    shouldDecodeLocked probe = true ∧
    ((0 : Int) < probe.sample_rate ∧ probe.sample_rate ≤ intMax ∧
      min_step probe.sample_rate = (kStepSamples probe.sample_rate : Int)) ∧
    ((16000 : Int) ≤ intMax ∧ (NativeWhisper.new true).ctx = true ∧
      (NativeWhisper.new true).running = false ∧
      min_step (NativeWhisper.start 16000 (NativeWhisper.new true)).2.sample_rate
        = (kStepSamples (NativeWhisper.start 16000 (NativeWhisper.new true)).2.sample_rate : Int)) :=
  ⟨(C3_decode_trigger probe).1.mpr ⟨rfl, by decide, by decide⟩,
    ⟨by decide, by decide, ((C3_decode_trigger probe).2.1 (by decide) (by decide)).1⟩,
    by decide, rfl, rfl,
    ((C3_decode_trigger (NativeWhisper.new true)).2.2 16000 (by decide) rfl rfl).2.2⟩

end Trigger

section Polls

open NativeWhisper

/-- C9: `pollPartial` returns `partial_text` exactly when the partial slot is
unread and nothing otherwise, and its only effect is to clear
`partial_available`; likewise `pollFinal` with the final slot; a second poll
of the same slot right after the first returns nothing. -/
theorem C9_poll_read_and_clear (s : NativeWhisper) :
    (pollPartial s).1 = (if s.partial_available then some s.partial_text else none) ∧
    (pollPartial s).2 = { s with partial_available := false } ∧
    (pollFinal s).1 = (if s.final_available then some s.final_text else none) ∧
    (pollFinal s).2 = { s with final_available := false } ∧
    (pollPartial (pollPartial s).2).1 = none ∧
    (pollFinal (pollFinal s).2).1 = none ∧
    (pollPartial (pollFinal s).2).1 = (pollPartial s).1 ∧
    (pollFinal (pollPartial s).2).1 = (pollFinal s).1 := by
  cases s with
  | mk ctx pcm mn wn mx sr run stop fin pa fa ov pt ft seq tot cur w d e =>
    cases pa <;> cases fa <;> simp [pollPartial, pollFinal]

end Polls

section Worker

open NativeWhisper

theorem loop_wake_of_abort (s : NativeWhisper) (hs : s.stop_requested = true)
    (hf : s.finalize_requested = false) :
    loop_wake s = ({ s with running := false }, WakeOutcome.exit) := by
  simp [loop_wake, loop_exit, hs, hf]

theorem loop_wake_of_finalize (s : NativeWhisper) (hf : s.finalize_requested = true) :
    loop_wake s =
      ({ s with last_decode_cursor := s.total_ingested
                decode_passes := s.decode_passes + 1 },
        WakeOutcome.dispatch (buildWindowLocked s) true) := by
  simp [loop_wake, hf]

theorem loop_wake_of_due (s : NativeWhisper) (hs : s.stop_requested = false)
    (hf : s.finalize_requested = false) (hd : shouldDecodeLocked s = true) :
    loop_wake s =
      ({ s with last_decode_cursor := s.total_ingested
                decode_passes := s.decode_passes + 1 },
        WakeOutcome.dispatch (buildWindowLocked s) false) := by
  simp [loop_wake, hs, hf, hd]

theorem loop_wake_of_idle (s : NativeWhisper) (hs : s.stop_requested = false)
    (hf : s.finalize_requested = false) (hd : shouldDecodeLocked s = false) :
    loop_wake s = (s, WakeOutcome.blocked) := by
  simp [loop_wake, hs, hf, hd]

theorem loop_publish_final (t : Text) (s : NativeWhisper) :
    (loop_publish true t s).2 = true ∧
    (loop_publish true t s).1.final_text = trimCopy t ∧
    (loop_publish true t s).1.final_available = true ∧
    (loop_publish true t s).1.finalize_requested = false ∧
    (loop_publish true t s).1.stop_requested = true ∧
    (loop_publish true t s).1.running = false := by
  simp [loop_publish, loop_exit]

theorem infer_fields (engine : Engine) (w : List Sample) (s : NativeWhisper) :
    (infer engine w s).2 = { s with engine_calls := (infer engine w s).2.engine_calls } := by
  unfold infer
  by_cases h : w.isEmpty = true
  · simp [h]
  · by_cases h2 : (engine s.engine_calls w).status = 0 <;> simp [h, h2]

/-- C8: when `stop_requested` is set and `finalize_requested` is not, the
next wake-up of the worker leaves the loop without a decode pass: the state is
the old one with `running` false (cursor, texts, sequence number, mailbox
flags, buffer and the engine call count unchanged), the thread function
returns, and `stopImmediate` on a waiting worker ends in that same state with
the worker joined; the decode trigger plays no part. -/
theorem C8_abort_without_decode (engine : Engine) (s : NativeWhisper)
    (hs : s.stop_requested = true) (hf : s.finalize_requested = false) :
    loop_wake s = ({ s with running := false }, WakeOutcome.exit) ∧
    Session.workerStep engine { st := s, worker := WorkerPhase.waiting }
      = { st := { s with running := false }, worker := WorkerPhase.exited } ∧
    Session.stopImmediate engine { st := s, worker := WorkerPhase.waiting }
      = some { st := { s with running := false }, worker := WorkerPhase.absent } ∧
    (∀ s0 : NativeWhisper, s0.finalize_requested = false →
      Session.stopImmediate engine { st := s0, worker := WorkerPhase.waiting }
        = some { st := { s0 with stop_requested := true, running := false },
                 worker := WorkerPhase.absent }) := by
  have key : ∀ s0 : NativeWhisper, s0.finalize_requested = false →
      Session.stopImmediate engine { st := s0, worker := WorkerPhase.waiting }
        = some { st := { s0 with stop_requested := true, running := false },
                 worker := WorkerPhase.absent } := by
    intro s0 h0
    have hw := loop_wake_of_abort { s0 with stop_requested := true } rfl h0
    simp [Session.stopImmediate, Session.stopWorker, WorkerPhase.joinable, Session.joinFuel,
      Session.workerToExit, Session.workerStep, hw]
  refine ⟨loop_wake_of_abort s hs hf, ?_, ?_, key⟩
  · simp [Session.workerStep, loop_wake_of_abort s hs hf]
  · rw [key s hf]
    simp [hs]

/-- Witness for C8: an abort while a decode is due. -/
theorem C8_abort_without_decode_witness :
    shouldDecodeLocked { probe with stop_requested := true } = true ∧
    loop_wake { probe with stop_requested := true }
      = ({ probe with stop_requested := true, running := false }, WakeOutcome.exit) :=
  ⟨by decide, (C8_abort_without_decode probeEngine { probe with stop_requested := true } rfl rfl).1⟩

/-- C5: with `finalize_requested` set the worker dispatches a pass with
`do_finalize` true, and the rest of that pass, for every transcript `t` and
every state found when the lock is taken again, ends with
`final_text = trimCopy t`, the final slot unread, `finalize_requested` false,
`stop_requested` true, `running` false and the thread function returning,
whether or not `trimCopy t` equals the partial text. -/
theorem C5_finalize_pass (engine : Engine) (s : NativeWhisper)
    (hf : s.finalize_requested = true) :
    (loop_wake s).2 = WakeOutcome.dispatch (buildWindowLocked s) true ∧
    (∀ (t : Text) (s1 : NativeWhisper),
      (loop_publish true t s1).2 = true ∧
      (loop_publish true t s1).1.final_text = trimCopy t ∧
      (loop_publish true t s1).1.final_available = true ∧
      (loop_publish true t s1).1.finalize_requested = false ∧
      (loop_publish true t s1).1.stop_requested = true ∧
      (loop_publish true t s1).1.running = false) ∧
    (Session.workerStep engine
        (Session.workerStep engine { st := s, worker := WorkerPhase.waiting })).worker
      = WorkerPhase.exited ∧
    (Session.workerStep engine
        (Session.workerStep engine { st := s, worker := WorkerPhase.waiting })).st
      = (loop_publish true
          (infer engine (buildWindowLocked s)
            { s with last_decode_cursor := s.total_ingested
                     decode_passes := s.decode_passes + 1 }).1
          (infer engine (buildWindowLocked s)
            { s with last_decode_cursor := s.total_ingested
                     decode_passes := s.decode_passes + 1 }).2).1 := by
  refine ⟨by rw [loop_wake_of_finalize s hf], fun t s1 => loop_publish_final t s1, ?_, ?_⟩
  · simp [Session.workerStep, loop_wake_of_finalize s hf, (loop_publish_final _ _).1]
  · simp [Session.workerStep, loop_wake_of_finalize s hf]

/-- Witness for C5: a finalize request on the probe session; the trimmed
transcript `ok` becomes the final text. -/
theorem C5_finalize_pass_witness :
    (loop_wake { probe with finalize_requested := true }).2
      = WakeOutcome.dispatch [0, 0] true ∧
    (loop_publish true [' ', 'o', 'k', ' '] probe).1.final_text = ['o', 'k'] :=
  ⟨(C5_finalize_pass probeEngine { probe with finalize_requested := true } rfl).1,
    ((C5_finalize_pass probeEngine { probe with finalize_requested := true } rfl).2.1
      [' ', 'o', 'k', ' '] probe).2.1.trans (by decide)⟩

theorem loop_wake_isDispatch_iff (s : NativeWhisper) :
    (loop_wake s).2.isDispatch = true ↔
      (s.finalize_requested = true ∨
        (s.stop_requested = false ∧ shouldDecodeLocked s = true)) := by
  rcases Bool.eq_false_or_eq_true s.finalize_requested with hf | hf
  · simp [loop_wake_of_finalize s hf, WakeOutcome.isDispatch, hf]
  · rcases Bool.eq_false_or_eq_true s.stop_requested with hs | hs
    · simp [loop_wake_of_abort s hs hf, WakeOutcome.isDispatch, hs, hf]
    · rcases Bool.eq_false_or_eq_true (shouldDecodeLocked s) with hd | hd
      · simp [loop_wake_of_due s hs hf hd, WakeOutcome.isDispatch, hs, hd]
      · simp [loop_wake_of_idle s hs hf hd, WakeOutcome.isDispatch, hf, hd]

theorem loop_wake_dispatch_eq (s : NativeWhisper)
    (h : (loop_wake s).2.isDispatch = true) :
    loop_wake s =
      ({ s with last_decode_cursor := s.total_ingested
                decode_passes := s.decode_passes + 1 },
        WakeOutcome.dispatch (buildWindowLocked s) s.finalize_requested) := by
  rcases (loop_wake_isDispatch_iff s).1 h with hf | ⟨hs, hd⟩
  · rw [loop_wake_of_finalize s hf, hf]
  · rcases Bool.eq_false_or_eq_true s.finalize_requested with hf | hf
    · rw [loop_wake_of_finalize s hf, hf]
    · rw [loop_wake_of_due s hs hf hd, hf]

theorem loop_wake_no_dispatch (s : NativeWhisper)
    (h : (loop_wake s).2.isDispatch = false) :
    (loop_wake s).1 = s ∨ (loop_wake s).1 = { s with running := false } := by
  rcases Bool.eq_false_or_eq_true s.finalize_requested with hf | hf
  · simp [loop_wake_of_finalize s hf, WakeOutcome.isDispatch] at h
  · rcases Bool.eq_false_or_eq_true s.stop_requested with hs | hs
    · exact Or.inr (by rw [loop_wake_of_abort s hs hf])
    · rcases Bool.eq_false_or_eq_true (shouldDecodeLocked s) with hd | hd
      · simp [loop_wake_of_due s hs hf hd, WakeOutcome.isDispatch] at h
      · exact Or.inl (by rw [loop_wake_of_idle s hs hf hd])

theorem workerToExit_finalize_waiting (engine : Engine) (s : NativeWhisper)
    (hf : s.finalize_requested = true) :
    Session.workerToExit engine 2 { st := s, worker := WorkerPhase.waiting } =
      some
        { st := (loop_publish true
            (infer engine (buildWindowLocked s)
              { s with last_decode_cursor := s.total_ingested
                       decode_passes := s.decode_passes + 1 }).1
            (infer engine (buildWindowLocked s)
              { s with last_decode_cursor := s.total_ingested
                       decode_passes := s.decode_passes + 1 }).2).1
          worker := WorkerPhase.exited } := by
  simp [Session.workerToExit, Session.workerStep, loop_wake_of_finalize s hf,
    (loop_publish_final _ _).1]

theorem loop_publish_decode_passes (f : Bool) (t : Text) (s : NativeWhisper) :
    (loop_publish f t s).1.decode_passes = s.decode_passes := by
  unfold loop_publish loop_exit
  by_cases h : trimCopy t = s.partial_text <;> cases f <;> simp [h]

theorem infer_decode_passes (engine : Engine) (w : List Sample) (s : NativeWhisper) :
    (infer engine w s).2.decode_passes = s.decode_passes := by
  rw [infer_fields]

/-- C4: one wake-up of the worker dispatches a decode pass (window snapshot
taken, `last_decode_cursor` set to `total_ingested`, pass counted, `infer`
called on the snapshot in the next step) exactly when `finalize_requested`
holds, or `stop_requested` is false and the decode trigger holds; otherwise
cursor, pass count and engine call count are unchanged.  A pass dispatched
with fewer than `min_samples_for_decode` buffered samples is a finalize pass,
and with `finalize_requested` set a waiting worker runs exactly one more pass
and returns, whatever the buffer holds. -/
theorem C4_dispatch_condition (engine : Engine) (s : NativeWhisper) :
    ((loop_wake s).2.isDispatch = true ↔
      (s.finalize_requested = true ∨
        (s.stop_requested = false ∧ shouldDecodeLocked s = true))) ∧
    ((loop_wake s).2.isDispatch = true →
      loop_wake s =
        ({ s with last_decode_cursor := s.total_ingested
                  decode_passes := s.decode_passes + 1 },
          WakeOutcome.dispatch (buildWindowLocked s) s.finalize_requested) ∧
      (Session.workerStep engine
          (Session.workerStep engine { st := s, worker := WorkerPhase.waiting })).st
        = (loop_publish s.finalize_requested
            (infer engine (buildWindowLocked s) (loop_wake s).1).1
            (infer engine (buildWindowLocked s) (loop_wake s).1).2).1) ∧
    ((loop_wake s).2.isDispatch = false →
      (loop_wake s).1.last_decode_cursor = s.last_decode_cursor ∧
      (loop_wake s).1.decode_passes = s.decode_passes ∧
      (Session.workerStep engine { st := s, worker := WorkerPhase.waiting }).st.engine_calls
        = s.engine_calls ∧
      ∀ w f, (Session.workerStep engine { st := s, worker := WorkerPhase.waiting }).worker
        ≠ WorkerPhase.decoding w f) ∧
    ((loop_wake s).2.isDispatch = true → s.pcm.length < s.min_samples_for_decode →
      (loop_wake s).2 = WakeOutcome.dispatch (buildWindowLocked s) true) ∧
    (s.finalize_requested = true →
      (loop_wake s).2 = WakeOutcome.dispatch (buildWindowLocked s) true ∧
      ∃ τ, Session.workerToExit engine 2 { st := s, worker := WorkerPhase.waiting } = some τ ∧
        τ.st.decode_passes = s.decode_passes + 1 ∧ τ.st.running = false) := by
  refine ⟨loop_wake_isDispatch_iff s, ?_, ?_, ?_, ?_⟩
  · intro h
    have e := loop_wake_dispatch_eq s h
    refine ⟨e, ?_⟩
    simp [Session.workerStep, e]
  · intro h
    have hst := loop_wake_no_dispatch s h
    have hw : (Session.workerStep engine { st := s, worker := WorkerPhase.waiting }).st
        = (loop_wake s).1 := by
      simp only [Session.workerStep]
      split <;> simp_all
    have hp : ∀ w f, (Session.workerStep engine
        { st := s, worker := WorkerPhase.waiting }).worker ≠ WorkerPhase.decoding w f := by
      intro w f
      simp only [Session.workerStep]
      split <;> simp_all [WakeOutcome.isDispatch]
    rw [hw]
    rcases hst with e | e <;> rw [e] <;> exact ⟨rfl, rfl, rfl, hp⟩
  · intro h hlt
    have hd : shouldDecodeLocked s = false := by
      cases hd : shouldDecodeLocked s
      · rfl
      · have := ((shouldDecodeLocked_iff s).1 hd).2.1
        omega
    rcases (loop_wake_isDispatch_iff s).1 h with hf | ⟨_, hd2⟩
    · rw [loop_wake_of_finalize s hf]
    · rw [hd] at hd2
      cases hd2
  · intro hf
    refine ⟨by rw [loop_wake_of_finalize s hf], ?_⟩
    refine ⟨_, workerToExit_finalize_waiting engine s hf, ?_, ?_⟩
    · rw [loop_publish_decode_passes, infer_decode_passes]
    · exact (loop_publish_final _ _).2.2.2.2.2

/-- Witness for C4: the probe session, where a decode is due, and the freshly
constructed session with an empty buffer and a finalize request. -/
theorem C4_dispatch_condition_witness :
    (loop_wake probe).2.isDispatch = true ∧
    loop_wake probe =
      ({ probe with last_decode_cursor := 3, decode_passes := 1 },
        WakeOutcome.dispatch [0, 0] false) ∧
    (loop_wake { NativeWhisper.new true with running := true, finalize_requested := true }).2
      = WakeOutcome.dispatch [] true :=
  ⟨by decide, ((C4_dispatch_condition probeEngine probe).2.1 (by decide)).1,
    ((C4_dispatch_condition probeEngine
      { NativeWhisper.new true with running := true, finalize_requested := true }).2.2.2.2
        rfl).1⟩

end Worker

section Start

open NativeWhisper

theorem start_of_no_ctx (rate : Int) (s : NativeWhisper) (hc : s.ctx = false) :
    NativeWhisper.start rate s = (false, s) := by
  simp [NativeWhisper.start, hc]

theorem start_of_running (rate : Int) (s : NativeWhisper) (hc : s.ctx = true)
    (hr : s.running = true) : NativeWhisper.start rate s = (true, s) := by
  simp [NativeWhisper.start, hc, hr]

theorem start_of_stopped (rate : Int) (s : NativeWhisper) (hc : s.ctx = true)
    (hr : s.running = false) :
    NativeWhisper.start rate s =
      (true,
        { ctx := true
          pcm := []
          min_samples_for_decode :=
            max (kStepSamples (if rate > 0 then rate else kWhisperSampleRate))
              (toSizeT (Int.tdiv (if rate > 0 then rate else kWhisperSampleRate) 4))
          window_samples :=
            max (kStepSamples (if rate > 0 then rate else kWhisperSampleRate))
              (kWindowSamples (if rate > 0 then rate else kWhisperSampleRate))
          max_samples :=
            max (max (kStepSamples (if rate > 0 then rate else kWhisperSampleRate))
                (kWindowSamples (if rate > 0 then rate else kWhisperSampleRate)))
              (kMaxSamples (if rate > 0 then rate else kWhisperSampleRate))
          sample_rate := if rate > 0 then rate else kWhisperSampleRate
          running := true
          stop_requested := false
          finalize_requested := false
          partial_available := false
          final_available := false
          overflow_notified := false
          partial_text := []
          final_text := []
          partial_seq := 0
          total_ingested := 0
          last_decode_cursor := 0
          overflow_warnings := s.overflow_warnings
          decode_passes := s.decode_passes
          engine_calls := s.engine_calls }) := by
  simp [NativeWhisper.start, hc, hr, resetSizing]

end Start

section Buffer

open NativeWhisper

theorem acceptPcm_push_pcm (s : NativeWhisper) (x : Int) (hb : s.pcm.length ≤ s.max_samples) :
    (acceptPcm_push s x).pcm
      = (s.pcm ++ [normalized x]).drop (s.pcm.length + 1 - s.max_samples) := by
  unfold acceptPcm_push
  by_cases h : s.pcm.length + 1 > s.max_samples
  · have e : s.pcm.length + 1 - s.max_samples = 1 := by omega
    cases ho : s.overflow_notified <;> simp [h, ho, e]
  · have e : s.pcm.length + 1 - s.max_samples = 0 := by omega
    simp [h, e]

theorem acceptPcm_push_frame (s : NativeWhisper) (x : Int) :
    acceptPcm_push s x =
      { s with pcm := (acceptPcm_push s x).pcm
               overflow_notified := (acceptPcm_push s x).overflow_notified
               overflow_warnings := (acceptPcm_push s x).overflow_warnings } := by
  unfold acceptPcm_push
  by_cases h : s.pcm.length + 1 > s.max_samples
  · cases ho : s.overflow_notified <;> simp [h, ho]
  · simp [h]

theorem acceptPcm_push_max (s : NativeWhisper) (x : Int) :
    (acceptPcm_push s x).max_samples = s.max_samples := by
  rw [acceptPcm_push_frame]

theorem acceptPcm_push_bound (s : NativeWhisper) (x : Int) (hb : s.pcm.length ≤ s.max_samples) :
    (acceptPcm_push s x).pcm.length ≤ (acceptPcm_push s x).max_samples := by
  rw [acceptPcm_push_max, acceptPcm_push_pcm s x hb]
  simp
  omega

theorem foldl_push_pcm (xs : List Int) :
    ∀ s : NativeWhisper, s.pcm.length ≤ s.max_samples →
      (xs.foldl acceptPcm_push s).pcm
          = (s.pcm ++ xs.map normalized).drop (s.pcm.length + xs.length - s.max_samples) ∧
      (xs.foldl acceptPcm_push s).max_samples = s.max_samples := by
  induction xs with
  | nil =>
    intro s hb
    have e : s.pcm.length - s.max_samples = 0 := by omega
    simp [e]
  | cons x r ih =>
    intro s hb
    have hb1 := acceptPcm_push_bound s x hb
    have hm := acceptPcm_push_max s x
    have hp := acceptPcm_push_pcm s x hb
    obtain ⟨e1, e2⟩ := ih (acceptPcm_push s x) hb1
    rw [List.foldl_cons, e1, e2, hm]
    refine ⟨?_, rfl⟩
    have hl : (acceptPcm_push s x).pcm.length = s.pcm.length + 1 - (s.pcm.length + 1 - s.max_samples) := by
      rw [hp]; simp
    rw [hl, hp]
    have hd : s.pcm.length + 1 - s.max_samples ≤ (s.pcm ++ [normalized x]).length := by
      simp
    rw [← List.drop_append_of_le_length hd, List.drop_drop]
    simp only [List.map_cons, List.length_cons, List.append_assoc, List.singleton_append]
    congr 1
    omega

theorem foldl_push_frame (xs : List Int) :
    ∀ s : NativeWhisper,
      xs.foldl acceptPcm_push s =
        { s with pcm := (xs.foldl acceptPcm_push s).pcm
                 overflow_notified := (xs.foldl acceptPcm_push s).overflow_notified
                 overflow_warnings := (xs.foldl acceptPcm_push s).overflow_warnings } := by
  induction xs with
  | nil => intro s; rfl
  | cons x r ih =>
    intro s
    rw [List.foldl_cons]
    have h1 := ih (acceptPcm_push s x)
    have h2 := acceptPcm_push_frame s x
    generalize List.foldl acceptPcm_push (acceptPcm_push s x) r = t at h1 ⊢
    generalize acceptPcm_push s x = u at h1 h2
    cases s; cases t; cases u
    simp_all

theorem acceptPcm_loop_eq (p : Nat → Int) (n : Nat) (s : NativeWhisper) :
    (List.range n).foldl (fun st i => acceptPcm_push st (p i)) s
      = ((List.range n).map p).foldl acceptPcm_push s := by
  rw [List.foldl_map]

theorem acceptPcm_of_noop (samples : Option (Nat → Int)) (length : Int) (s : NativeWhisper)
    (h : samples = none ∨ length ≤ 0 ∨ s.running = false) :
    NativeWhisper.acceptPcm samples length s = s := by
  unfold NativeWhisper.acceptPcm
  cases samples with
  | none => rfl
  | some p =>
    rcases h with h | h | h
    · cases h
    · simp [h]
    · simp [h]

theorem acceptPcm_of_running (p : Nat → Int) (length : Int) (s : NativeWhisper)
    (hl : 0 < length) (hr : s.running = true) :
    NativeWhisper.acceptPcm (some p) length s =
      { s with
        pcm := (((List.range length.toNat).map p).foldl acceptPcm_push s).pcm
        total_ingested := s.total_ingested + length
        overflow_notified :=
          (((List.range length.toNat).map p).foldl acceptPcm_push s).overflow_notified
        overflow_warnings :=
          (((List.range length.toNat).map p).foldl acceptPcm_push s).overflow_warnings } := by
  have h : ¬ length ≤ 0 := by omega
  simp only [NativeWhisper.acceptPcm, h, hr, if_false, Bool.not_true, Bool.false_eq_true]
  rw [acceptPcm_loop_eq]
  have hfr := foldl_push_frame ((List.range length.toNat).map p) s
  generalize List.foldl acceptPcm_push s ((List.range length.toNat).map p) = t at hfr ⊢
  cases s; cases t
  simp_all

theorem acceptPcm_bound (samples : Option (Nat → Int)) (length : Int) (s : NativeWhisper)
    (hb : s.pcm.length ≤ s.max_samples) :
    (NativeWhisper.acceptPcm samples length s).pcm.length
      ≤ (NativeWhisper.acceptPcm samples length s).max_samples := by
  by_cases h : samples = none ∨ length ≤ 0 ∨ s.running = false
  · rw [acceptPcm_of_noop samples length s h]; exact hb
  · have h1 : samples ≠ none := fun e => h (Or.inl e)
    have h2 : 0 < length := by
      by_contra hc
      exact h (Or.inr (Or.inl (by omega)))
    have h3 : s.running = true := by
      cases hr : s.running
      · exact absurd (Or.inr (Or.inr hr)) h
      · rfl
    obtain ⟨p, rfl⟩ := Option.ne_none_iff_exists'.1 h1
    rw [acceptPcm_of_running p length s h2 h3]
    obtain ⟨e1, e2⟩ := foldl_push_pcm ((List.range length.toNat).map p) s hb
    simp only [e1, e2]
    simp
    omega

theorem map_normalized (xs : List Int) :
    xs.map normalized = xs.map (fun x : Int => (x : ℚ) / 32768) := rfl

/-- C2: `acceptPcm` changes nothing when the sample pointer is null, the
length is not positive or the session is not running; otherwise, for a buffer
within `max_samples`, the new buffer is the last
`min max_samples (old size + length)` elements of the old buffer followed by
the rationals `samples[i] / 32768` in order, `total_ingested` grows by
`length`, and apart from the overflow latch and its warning count nothing
else changes. -/
theorem C2_acceptPcm_reference (samples : Option (Nat → Int)) (length : Int)
    (s : NativeWhisper) :
    ((samples = none ∨ length ≤ 0 ∨ s.running = false) →
      NativeWhisper.acceptPcm samples length s = s) ∧
    (∀ p : Nat → Int, samples = some p → 0 < length → s.running = true →
      s.pcm.length ≤ s.max_samples →
      (NativeWhisper.acceptPcm samples length s).pcm
        = lastN (min s.max_samples (s.pcm.length + length.toNat))
            (s.pcm ++ (List.range length.toNat).map (fun i => ((p i : Int) : ℚ) / 32768)) ∧
      (NativeWhisper.acceptPcm samples length s).total_ingested = s.total_ingested + length ∧
      NativeWhisper.acceptPcm samples length s =
        { s with
          pcm := (NativeWhisper.acceptPcm samples length s).pcm
          total_ingested := s.total_ingested + length
          overflow_notified := (NativeWhisper.acceptPcm samples length s).overflow_notified
          overflow_warnings := (NativeWhisper.acceptPcm samples length s).overflow_warnings }) := by
  refine ⟨acceptPcm_of_noop samples length s, ?_⟩
  intro p hp hl hr hb
  subst hp
  have e := acceptPcm_of_running p length s hl hr
  obtain ⟨e1, _⟩ := foldl_push_pcm ((List.range length.toNat).map p) s hb
  rw [map_normalized] at e1
  refine ⟨?_, ?_, ?_⟩
  · rw [e]
    simp only [e1, lastN, List.map_map, List.length_append, List.length_map, List.length_range]
    congr 1
    omega
  · rw [e]
  · rw [e]

/-- Witness for C2: the probe session holds three zero samples out of at most
four; one sample of value 16384 is appended as one half, and of two such
samples the second evicts the oldest sample. -/
theorem C2_acceptPcm_reference_witness :
    (0 : Int) < 1 ∧ probe.running = true ∧ probe.pcm.length ≤ probe.max_samples ∧
    (NativeWhisper.acceptPcm (some (fun _ => (16384 : Int))) 1 probe).pcm
      = [0, 0, 0, (1 : ℚ) / 2] ∧
    (NativeWhisper.acceptPcm (some (fun _ => (16384 : Int))) 2 probe).pcm
      = [0, 0, (1 : ℚ) / 2, (1 : ℚ) / 2] ∧
    (NativeWhisper.acceptPcm (some (fun _ => (16384 : Int))) 2 probe).total_ingested = 3 + 2 :=
  ⟨by decide, rfl, by decide,
    ((C2_acceptPcm_reference (some (fun _ => (16384 : Int))) 1 probe).2 _ rfl (by decide) rfl
      (by decide)).1.trans (by norm_num [lastN, probe, List.range_succ]),
    ((C2_acceptPcm_reference (some (fun _ => (16384 : Int))) 2 probe).2 _ rfl (by decide) rfl
      (by decide)).1.trans
      (by
        have h2 : Int.toNat 2 = 2 := rfl
        rw [h2]
        norm_num [lastN, probe, List.range_succ]),
    ((C2_acceptPcm_reference (some (fun _ => (16384 : Int))) 2 probe).2 _ rfl (by decide) rfl
      (by decide)).2.1⟩

end Buffer

section Frames

open NativeWhisper

theorem loop_wake_store (s : NativeWhisper) : (loop_wake s).1.store = s.store := by
  rcases Bool.eq_false_or_eq_true ((loop_wake s).2.isDispatch) with h | h
  · rw [loop_wake_dispatch_eq s h]; rfl
  · rcases loop_wake_no_dispatch s h with e | e
    · rw [e]
    · rw [e]; rfl

theorem loop_publish_store (f : Bool) (t : Text) (s : NativeWhisper) :
    (loop_publish f t s).1.store = s.store := by
  unfold loop_publish loop_exit
  by_cases h : trimCopy t = s.partial_text <;> cases f <;>
    simp only [h, ne_eq, not_true_eq_false, not_false_eq_true, if_true, if_false] <;> rfl

theorem infer_store (engine : Engine) (w : List Sample) (s : NativeWhisper) :
    (infer engine w s).2.store = s.store := by
  rw [infer_fields]; rfl

theorem workerStep_store (engine : Engine) (σ : Session) :
    (Session.workerStep engine σ).st.store = σ.st.store := by
  unfold Session.workerStep
  split
  · rfl
  · rfl
  · have h := loop_wake_store σ.st
    split <;> simp_all
  · simp only [loop_publish_store, infer_store]

theorem workerToExit_store (engine : Engine) (n : Nat) :
    ∀ σ τ : Session, Session.workerToExit engine n σ = some τ → τ.st.store = σ.st.store := by
  induction n with
  | zero =>
    intro σ τ h
    unfold Session.workerToExit at h
    split at h
    · cases h; rfl
    · cases h
  | succ n ih =>
    intro σ τ h
    unfold Session.workerToExit at h
    split at h
    · cases h; rfl
    · rw [ih _ _ h, workerStep_store]

theorem stopWorker_store (engine : Engine) (σ τ : Session)
    (h : Session.stopWorker engine σ = some τ) : τ.st.store = σ.st.store := by
  unfold Session.stopWorker at h
  split at h
  · cases hx : Session.workerToExit engine Session.joinFuel σ with
    | none => simp [hx] at h
    | some υ =>
      simp [hx] at h
      subst h
      exact workerToExit_store engine _ σ υ hx
  · cases h; rfl

theorem requestFinalize_store (engine : Engine) (σ τ : Session)
    (h : Session.requestFinalize engine σ = some τ) : τ.st.store = σ.st.store := by
  unfold Session.requestFinalize at h
  split at h
  · cases h; rfl
  · have e := stopWorker_store engine _ τ h
    exact e

theorem stopImmediate_store (engine : Engine) (σ τ : Session)
    (h : Session.stopImmediate engine σ = some τ) : τ.st.store = σ.st.store := by
  unfold Session.stopImmediate at h
  have e := stopWorker_store engine _ τ h
  exact e

theorem pollPartial_store (s : NativeWhisper) : (pollPartial s).2.store = s.store := by
  unfold pollPartial; split <;> rfl

theorem pollFinal_store (s : NativeWhisper) : (pollFinal s).2.store = s.store := by
  unfold pollFinal; split <;> rfl

theorem acceptPcm_sizing (samples : Option (Nat → Int)) (length : Int) (s : NativeWhisper) :
    (NativeWhisper.acceptPcm samples length s).sizing = s.sizing := by
  by_cases h : samples = none ∨ length ≤ 0 ∨ s.running = false
  · rw [acceptPcm_of_noop samples length s h]
  · have h1 : samples ≠ none := fun e => h (Or.inl e)
    have h2 : 0 < length := by
      by_contra hc
      exact h (Or.inr (Or.inl (by omega)))
    have h3 : s.running = true := by
      cases hr : s.running
      · exact absurd (Or.inr (Or.inr hr)) h
      · rfl
    obtain ⟨p, rfl⟩ := Option.ne_none_iff_exists'.1 h1
    rw [acceptPcm_of_running p length s h2 h3]
    rfl

theorem store_bound (s t : NativeWhisper) (h : t.store = s.store)
    (hb : s.pcm.length ≤ s.max_samples) : t.pcm.length ≤ t.max_samples := by
  simp only [NativeWhisper.store, sizing, Prod.mk.injEq] at h
  obtain ⟨h1, _, _, _, h2⟩ := h
  rw [h1, h2]; exact hb

theorem store_sizing (s t : NativeWhisper) (h : t.store = s.store) : t.sizing = s.sizing := by
  simp only [NativeWhisper.store, Prod.mk.injEq] at h
  exact h.2

theorem start_bound (rate : Int) (s : NativeWhisper) (hb : s.pcm.length ≤ s.max_samples) :
    (NativeWhisper.start rate s).2.pcm.length ≤ (NativeWhisper.start rate s).2.max_samples := by
  rcases Bool.eq_false_or_eq_true s.ctx with hc | hc
  · rcases Bool.eq_false_or_eq_true s.running with hr | hr
    · rw [start_of_running rate s hc hr]; exact hb
    · rw [start_of_stopped rate s hc hr]; simp
  · rw [start_of_no_ctx rate s hc]; exact hb

theorem session_start_bound (rate : Int) (σ : Session) (r : Bool × Session)
    (h : Session.start rate σ = some r) (hb : σ.bounded) : r.2.bounded := by
  unfold Session.start at h
  split at h
  · cases h; exact hb
  · split at h
    · cases h; exact hb
    · split at h
      · cases h
      · cases h
        exact start_bound rate σ.st hb

theorem applyOp_bounded (engine : Engine) (σ τ : Session) (op : Op)
    (h : applyOp engine σ op = some τ) (hb : σ.bounded) : τ.bounded := by
  cases op with
  | start rate =>
    simp only [applyOp, Option.map_eq_some'] at h
    obtain ⟨r, hr, rfl⟩ := h
    exact session_start_bound rate σ r hr hb
  | acceptPcm samples length =>
    simp only [applyOp, Option.some.injEq] at h
    subst h
    exact acceptPcm_bound samples length σ.st hb
  | pollPartial =>
    simp only [applyOp, Option.some.injEq] at h
    subst h
    exact store_bound _ _ (pollPartial_store σ.st) hb
  | pollFinal =>
    simp only [applyOp, Option.some.injEq] at h
    subst h
    exact store_bound _ _ (pollFinal_store σ.st) hb
  | requestFinalize => exact store_bound _ _ (requestFinalize_store engine σ τ h) hb
  | stopImmediate => exact store_bound _ _ (stopImmediate_store engine σ τ h) hb
  | workerStep =>
    simp only [applyOp, Option.some.injEq] at h
    subst h
    exact store_bound _ _ (workerStep_store engine σ) hb

theorem runOps_bounded (engine : Engine) (ops : List Op) :
    ∀ σ τ : Session, runOps engine ops σ = some τ → σ.bounded → τ.bounded := by
  induction ops with
  | nil =>
    intro σ τ h hb
    simp only [runOps, Option.some.injEq] at h
    subst h; exact hb
  | cons op ops ih =>
    intro σ τ h hb
    unfold runOps at h
    cases hx : applyOp engine σ op with
    | none => simp [hx] at h
    | some υ =>
      simp only [hx] at h
      exact ih υ τ h (applyOp_bounded engine σ υ op hx hb)

theorem new_bounded (ctx : Bool) : (Session.new ctx).bounded := by
  simp [Session.bounded, Session.new, NativeWhisper.new, resetSizing]

end Frames

section Join

open NativeWhisper

theorem workerToExit_mono (engine : Engine) (n : Nat) :
    ∀ σ τ : Session, Session.workerToExit engine n σ = some τ →
      Session.workerToExit engine (n + 1) σ = some τ := by
  induction n with
  | zero =>
    intro σ τ h
    unfold Session.workerToExit at h
    split at h
    · rename_i he
      cases h
      simp [Session.workerToExit, he]
    · cases h
  | succ n ih =>
    intro σ τ h
    unfold Session.workerToExit at h ⊢
    split at h
    · rename_i he
      simp [he, h]
    · rename_i he
      simp only [he, if_false]
      exact ih _ _ h

theorem infer_flags (engine : Engine) (w : List Sample) (s : NativeWhisper) :
    (infer engine w s).2.running = s.running ∧
    (infer engine w s).2.stop_requested = s.stop_requested ∧
    (infer engine w s).2.finalize_requested = s.finalize_requested := by
  rw [infer_fields]; exact ⟨rfl, rfl, rfl⟩

theorem loop_publish_false_flags (t : Text) (s : NativeWhisper) :
    (loop_publish false t s).2 = false ∧
    (loop_publish false t s).1.running = s.running ∧
    (loop_publish false t s).1.stop_requested = s.stop_requested ∧
    (loop_publish false t s).1.finalize_requested = s.finalize_requested := by
  unfold loop_publish
  by_cases h : trimCopy t = s.partial_text <;> simp [h]

/-- A waiting worker that finds a stop or finalize request returns within two
steps, leaving `running` and `finalize_requested` false. -/
theorem workerToExit_waiting (engine : Engine) (s : NativeWhisper)
    (h : s.stop_requested = true ∨ s.finalize_requested = true) :
    ∃ τ, Session.workerToExit engine 2 { st := s, worker := WorkerPhase.waiting } = some τ ∧
      τ.worker = WorkerPhase.exited ∧ τ.st.running = false ∧
      τ.st.finalize_requested = false := by
  rcases Bool.eq_false_or_eq_true s.finalize_requested with hf | hf
  · refine ⟨_, workerToExit_finalize_waiting engine s hf, rfl, ?_, ?_⟩
    · exact (loop_publish_final _ _).2.2.2.2.2
    · exact (loop_publish_final _ _).2.2.2.1
  · have hs : s.stop_requested = true := by
      rcases h with h | h
      · exact h
      · rw [hf] at h; cases h
    refine ⟨{ st := { s with running := false }, worker := WorkerPhase.exited }, ?_, rfl, rfl, hf⟩
    simp [Session.workerToExit, Session.workerStep, loop_wake_of_abort s hs hf]

/-- Enough fuel: a joinable worker with a stop or finalize request pending
returns within `joinFuel` steps. -/
theorem workerToExit_of_flag (engine : Engine) (σ : Session)
    (hj : σ.worker.joinable = true)
    (h : σ.st.stop_requested = true ∨ σ.st.finalize_requested = true) :
    ∃ τ, Session.workerToExit engine Session.joinFuel σ = some τ ∧
      τ.worker = WorkerPhase.exited ∧
      (σ.worker = WorkerPhase.exited ∨ τ.st.running = false) ∧
      (σ.worker = WorkerPhase.exited → τ = σ) := by
  obtain ⟨s, w⟩ := σ
  cases w with
  | absent => simp [WorkerPhase.joinable] at hj
  | exited =>
    exact ⟨_, by simp [Session.workerToExit, Session.joinFuel], rfl, Or.inl rfl, fun _ => rfl⟩
  | waiting =>
    obtain ⟨τ, h1, h2, h3, _⟩ := workerToExit_waiting engine s h
    exact ⟨τ, workerToExit_mono engine 2 _ _ h1, h2, Or.inr h3, fun e => by cases e⟩
  | decoding window f =>
    cases f with
    | true =>
      refine ⟨{ st := (loop_publish true (infer engine window s).1 (infer engine window s).2).1,
                worker := WorkerPhase.exited }, ?_, rfl, Or.inr ?_, fun e => by cases e⟩
      · simp [Session.workerToExit, Session.joinFuel, Session.workerStep,
          (loop_publish_final _ _).1]
      · exact (loop_publish_final _ _).2.2.2.2.2
    | false =>
      have hp := loop_publish_false_flags (infer engine window s).1 (infer engine window s).2
      have hi := infer_flags engine window s
      have h' : (loop_publish false (infer engine window s).1
            (infer engine window s).2).1.stop_requested = true ∨
          (loop_publish false (infer engine window s).1
            (infer engine window s).2).1.finalize_requested = true := by
        rw [hp.2.2.1, hp.2.2.2, hi.2.1, hi.2.2]; exact h
      obtain ⟨τ, h1, h2, h3, _⟩ := workerToExit_waiting engine _ h'
      refine ⟨τ, ?_, h2, Or.inr h3, fun e => by cases e⟩
      have hstep : Session.workerStep engine { st := s, worker := WorkerPhase.decoding window false }
          = { st := (loop_publish false (infer engine window s).1 (infer engine window s).2).1,
              worker := WorkerPhase.waiting } := by
        simp [Session.workerStep, hp.1]
      unfold Session.joinFuel Session.workerToExit
      simp only [reduceCtorEq, if_false]
      rw [hstep]
      exact h1

theorem stopWorker_of_not_joinable (engine : Engine) (σ : Session)
    (h : ¬ σ.worker.joinable = true) : Session.stopWorker engine σ = some σ := by
  simp [Session.stopWorker, h]

theorem stopWorker_of_exit (engine : Engine) (σ τ : Session)
    (hj : σ.worker.joinable = true)
    (h : Session.workerToExit engine Session.joinFuel σ = some τ) :
    Session.stopWorker engine σ = some { τ with worker := WorkerPhase.absent } := by
  simp [Session.stopWorker, hj, h]

theorem requestFinalize_of_guard (engine : Engine) (σ : Session)
    (h : σ.st.running = false ∨ σ.st.finalize_requested = true) :
    Session.requestFinalize engine σ = some σ := by
  unfold Session.requestFinalize
  rcases h with h | h <;> simp [h]

theorem requestFinalize_total (engine : Engine) (σ : Session) :
    ∃ τ, Session.requestFinalize engine σ = some τ ∧
      (τ.st.running = false ∨ τ.st.finalize_requested = true) ∧
      (τ = σ ∨ σ.worker = WorkerPhase.exited ∨ σ.worker = WorkerPhase.absent ∨
        (τ.worker = WorkerPhase.absent ∧ τ.st.running = false)) := by
  by_cases hg : σ.st.running = false ∨ σ.st.finalize_requested = true
  · exact ⟨σ, requestFinalize_of_guard engine σ hg, hg, Or.inl rfl⟩
  · have hr : σ.st.running = true := by
      cases hr : σ.st.running
      · exact absurd (Or.inl hr) hg
      · rfl
    have hf : σ.st.finalize_requested = false := by
      cases hf : σ.st.finalize_requested
      · rfl
      · exact absurd (Or.inr hf) hg
    have hu : Session.requestFinalize engine σ
        = Session.stopWorker engine
            { σ with st := { σ.st with finalize_requested := true } } := by
      simp [Session.requestFinalize, hr, hf]
    rw [hu]
    by_cases hj : σ.worker.joinable = true
    · obtain ⟨τ, h1, _, h3, h4⟩ := workerToExit_of_flag engine
        { σ with st := { σ.st with finalize_requested := true } } hj (Or.inr rfl)
      refine ⟨{ τ with worker := WorkerPhase.absent },
        stopWorker_of_exit engine _ τ hj h1, ?_, ?_⟩
      · rcases h3 with h3 | h3
        · rw [h4 h3]; exact Or.inr rfl
        · exact Or.inl h3
      · rcases h3 with h3 | h3
        · exact Or.inr (Or.inl h3)
        · exact Or.inr (Or.inr (Or.inr ⟨rfl, h3⟩))
    · have ha : σ.worker = WorkerPhase.absent := by
        cases hw : σ.worker <;> simp_all [WorkerPhase.joinable]
      exact ⟨{ σ with st := { σ.st with finalize_requested := true } },
        stopWorker_of_not_joinable engine _ hj, Or.inr rfl, Or.inr (Or.inr (Or.inl ha))⟩

theorem stopImmediate_total (engine : Engine) (σ : Session) :
    ∃ τ, Session.stopImmediate engine σ = some τ ∧ τ.worker = WorkerPhase.absent ∧
      (σ.worker = WorkerPhase.exited ∨
        (σ.worker = WorkerPhase.absent ∧
          τ = { σ with st := { σ.st with stop_requested := true } }) ∨
        τ.st.running = false) := by
  unfold Session.stopImmediate
  by_cases hj : σ.worker.joinable = true
  · obtain ⟨τ, h1, _, h3, _⟩ := workerToExit_of_flag engine
      { σ with st := { σ.st with stop_requested := true } } hj (Or.inl rfl)
    refine ⟨{ τ with worker := WorkerPhase.absent },
      stopWorker_of_exit engine _ τ hj h1, rfl, ?_⟩
    rcases h3 with h3 | h3
    · exact Or.inl h3
    · exact Or.inr (Or.inr h3)
  · have ha : σ.worker = WorkerPhase.absent := by
      cases hw : σ.worker <;> simp_all [WorkerPhase.joinable]
    exact ⟨{ σ with st := { σ.st with stop_requested := true } },
      stopWorker_of_not_joinable engine _ hj, ha, Or.inr (Or.inl ⟨ha, rfl⟩)⟩

end Join

section Consistency

open NativeWhisper

theorem consistent_cases (σ : Session) (h : σ.consistent = true) :
    (σ.worker = WorkerPhase.absent ∧ σ.st.running = false) ∨
    ((σ.worker = WorkerPhase.waiting ∨ ∃ w, σ.worker = WorkerPhase.decoding w false) ∧
      σ.st.running = true ∧ σ.st.stop_requested = false ∧
      σ.st.finalize_requested = false) := by
  obtain ⟨s, w⟩ := σ
  cases w with
  | absent => left; simpa [Session.consistent] using h
  | exited => simp [Session.consistent] at h
  | waiting =>
    right
    simp [Session.consistent] at h
    exact ⟨Or.inl rfl, h.1.1, h.1.2, h.2⟩
  | decoding window f =>
    right
    simp [Session.consistent] at h
    obtain ⟨⟨⟨h1, h2⟩, h3⟩, h4⟩ := h
    subst h1
    exact ⟨Or.inr ⟨window, rfl⟩, h2, h3, h4⟩

theorem consistent_of_flags (σ τ : Session) (h : σ.consistent = true)
    (hw : τ.worker = σ.worker) (hr : τ.st.running = σ.st.running)
    (hs : τ.st.stop_requested = σ.st.stop_requested)
    (hf : τ.st.finalize_requested = σ.st.finalize_requested) : τ.consistent = true := by
  unfold Session.consistent at h ⊢
  rw [hw, hr, hs, hf]
  exact h

theorem acceptPcm_flags (samples : Option (Nat → Int)) (length : Int) (s : NativeWhisper) :
    (NativeWhisper.acceptPcm samples length s).running = s.running ∧
    (NativeWhisper.acceptPcm samples length s).stop_requested = s.stop_requested ∧
    (NativeWhisper.acceptPcm samples length s).finalize_requested = s.finalize_requested := by
  by_cases h : samples = none ∨ length ≤ 0 ∨ s.running = false
  · rw [acceptPcm_of_noop samples length s h]; exact ⟨rfl, rfl, rfl⟩
  · have h1 : samples ≠ none := fun e => h (Or.inl e)
    have h2 : 0 < length := by
      by_contra hc
      exact h (Or.inr (Or.inl (by omega)))
    have h3 : s.running = true := by
      cases hr : s.running
      · exact absurd (Or.inr (Or.inr hr)) h
      · rfl
    obtain ⟨p, rfl⟩ := Option.ne_none_iff_exists'.1 h1
    rw [acceptPcm_of_running p length s h2 h3]
    exact ⟨rfl, rfl, rfl⟩

theorem pollPartial_flags (s : NativeWhisper) :
    (pollPartial s).2.running = s.running ∧
    (pollPartial s).2.stop_requested = s.stop_requested ∧
    (pollPartial s).2.finalize_requested = s.finalize_requested := by
  unfold pollPartial; split <;> exact ⟨rfl, rfl, rfl⟩

theorem pollFinal_flags (s : NativeWhisper) :
    (pollFinal s).2.running = s.running ∧
    (pollFinal s).2.stop_requested = s.stop_requested ∧
    (pollFinal s).2.finalize_requested = s.finalize_requested := by
  unfold pollFinal; split <;> exact ⟨rfl, rfl, rfl⟩

theorem session_start_of_consistent (rate : Int) (σ : Session) (h : σ.consistent = true) :
    Session.start rate σ =
      some ((NativeWhisper.start rate σ.st).1,
        { st := (NativeWhisper.start rate σ.st).2
          worker := if σ.st.ctx && !σ.st.running then WorkerPhase.waiting else σ.worker }) := by
  rcases Bool.eq_false_or_eq_true σ.st.ctx with hc | hc
  · rcases consistent_cases σ h with ⟨hw, hr⟩ | ⟨_, hr, _, _⟩
    · simp [Session.start, hc, hr, hw, WorkerPhase.joinable, start_of_stopped rate σ.st hc hr]
    · simp [Session.start, hc, hr, start_of_running rate σ.st hc hr]
  · simp [Session.start, hc, start_of_no_ctx rate σ.st hc]

theorem session_start_consistent (rate : Int) (σ : Session) (h : σ.consistent = true) :
    ∃ r, Session.start rate σ = some r ∧ r.2.consistent = true := by
  refine ⟨_, session_start_of_consistent rate σ h, ?_⟩
  rcases Bool.eq_false_or_eq_true σ.st.ctx with hc | hc
  · rcases consistent_cases σ h with ⟨hw, hr⟩ | ⟨_, hr, _, _⟩
    · simp [hc, hr, start_of_stopped rate σ.st hc hr, Session.consistent]
    · simp only [hc, hr, start_of_running rate σ.st hc hr]
      exact consistent_of_flags σ _ h rfl rfl rfl rfl
  · simp only [hc, start_of_no_ctx rate σ.st hc]
    exact consistent_of_flags σ _ h rfl rfl rfl rfl

theorem workerStep_consistent (engine : Engine) (σ : Session) (h : σ.consistent = true) :
    (Session.workerStep engine σ).consistent = true := by
  rcases consistent_cases σ h with ⟨hw, hr⟩ | ⟨hw, hr, hs, hf⟩
  · obtain ⟨s, w⟩ := σ
    simp only at hw
    subst hw
    exact h
  · obtain ⟨s, w⟩ := σ
    simp only at hw hr hs hf
    rcases hw with hw | ⟨window, hw⟩
    · subst hw
      rcases Bool.eq_false_or_eq_true (shouldDecodeLocked s) with hd | hd
      · simp [Session.workerStep, loop_wake_of_due s hs hf hd, Session.consistent, hr, hs, hf]
      · simp [Session.workerStep, loop_wake_of_idle s hs hf hd, Session.consistent, hr, hs, hf]
    · subst hw
      have hp := loop_publish_false_flags (infer engine window s).1 (infer engine window s).2
      have hi := infer_flags engine window s
      simp [Session.workerStep, Session.consistent, hp.1, hp.2.1, hp.2.2.1, hp.2.2.2,
        hi.1, hi.2.1, hi.2.2, hr, hs, hf]

theorem applyOp_consistent (engine : Engine) (σ : Session) (op : Op)
    (h : σ.consistent = true) :
    ∃ τ, applyOp engine σ op = some τ ∧ τ.consistent = true := by
  cases op with
  | start rate =>
    obtain ⟨r, h1, h2⟩ := session_start_consistent rate σ h
    exact ⟨r.2, by simp [applyOp, h1], h2⟩
  | acceptPcm samples length =>
    have hfl := acceptPcm_flags samples length σ.st
    exact ⟨_, rfl, consistent_of_flags σ _ h rfl hfl.1 hfl.2.1 hfl.2.2⟩
  | pollPartial =>
    have hfl := pollPartial_flags σ.st
    exact ⟨_, rfl, consistent_of_flags σ _ h rfl hfl.1 hfl.2.1 hfl.2.2⟩
  | pollFinal =>
    have hfl := pollFinal_flags σ.st
    exact ⟨_, rfl, consistent_of_flags σ _ h rfl hfl.1 hfl.2.1 hfl.2.2⟩
  | requestFinalize =>
    obtain ⟨τ, h1, _, h3⟩ := requestFinalize_total engine σ
    refine ⟨τ, h1, ?_⟩
    rcases h3 with h3 | h3 | h3 | ⟨h3, h4⟩
    · rw [h3]; exact h
    · rcases consistent_cases σ h with ⟨hw, _⟩ | ⟨hw, _⟩
      · rw [hw] at h3; cases h3
      · rcases hw with hw | ⟨w, hw⟩ <;> (rw [hw] at h3; cases h3)
    · rcases consistent_cases σ h with ⟨_, hr⟩ | ⟨hw, _⟩
      · rw [requestFinalize_of_guard engine σ (Or.inl hr)] at h1
        cases h1
        exact h
      · rcases hw with hw | ⟨w, hw⟩ <;> (rw [hw] at h3; cases h3)
    · simp [Session.consistent, h3, h4]
  | stopImmediate =>
    obtain ⟨τ, h1, h2, h3⟩ := stopImmediate_total engine σ
    refine ⟨τ, h1, ?_⟩
    rcases h3 with h3 | ⟨h3, h4⟩ | h3
    · rcases consistent_cases σ h with ⟨hw, _⟩ | ⟨hw, _⟩
      · rw [hw] at h3; cases h3
      · rcases hw with hw | ⟨w, hw⟩ <;> (rw [hw] at h3; cases h3)
    · rcases consistent_cases σ h with ⟨_, hr⟩ | ⟨hw, _⟩
      · rw [h4]
        simp [Session.consistent, h3, hr]
      · rcases hw with hw | ⟨w, hw⟩ <;> (rw [hw] at h3; cases h3)
    · simp [Session.consistent, h2, h3]
  | workerStep => exact ⟨_, rfl, workerStep_consistent engine σ h⟩

/-- Every sequence of events runs to the end from a consistent session: no
call blocks for ever and `std::terminate` is never reached. -/
theorem runOps_consistent (engine : Engine) (ops : List Op) :
    ∀ σ : Session, σ.consistent = true →
      ∃ τ, runOps engine ops σ = some τ ∧ τ.consistent = true := by
  induction ops with
  | nil => intro σ h; exact ⟨σ, rfl, h⟩
  | cons op ops ih =>
    intro σ h
    obtain ⟨υ, h1, h2⟩ := applyOp_consistent engine σ op h
    obtain ⟨τ, h3, h4⟩ := ih υ h2
    exact ⟨τ, by simp [runOps, h1, h3], h4⟩

theorem new_consistent (ctx : Bool) : (Session.new ctx).consistent = true := by
  simp [Session.consistent, Session.new, NativeWhisper.new, resetSizing]

end Consistency

section Runs

open NativeWhisper

theorem runOps_keeps_consistent (engine : Engine) (ops : List Op) (σ τ : Session)
    (h : runOps engine ops σ = some τ) (hc : σ.consistent = true) : τ.consistent = true := by
  obtain ⟨υ, h1, h2⟩ := runOps_consistent engine ops σ hc
  rw [h1] at h
  cases h
  exact h2

/-- C1: from a freshly constructed session, after any events, a `start` at
any rate and any further events (`acceptPcm` with any samples and lengths,
worker steps, polls, `requestFinalize`, `stopImmediate`, further starts), the
run exists and the buffer holds at most `max_samples` samples. -/
theorem C1_buffer_within_max (engine : Engine) (ctx : Bool) (pre : List Op) (rate : Int)
    (ops : List Op) :
    ∃ σ0 r σ2, runOps engine pre (Session.new ctx) = some σ0 ∧
      Session.start rate σ0 = some r ∧ (r.1 = true ↔ σ0.st.ctx = true) ∧
      runOps engine ops r.2 = some σ2 ∧
      σ2.st.pcm.length ≤ σ2.st.max_samples := by
  obtain ⟨σ0, h0, c0⟩ := runOps_consistent engine pre (Session.new ctx) (new_consistent ctx)
  obtain ⟨r, h1, c1⟩ := session_start_consistent rate σ0 c0
  obtain ⟨σ2, h2, _⟩ := runOps_consistent engine ops r.2 c1
  have b0 := runOps_bounded engine pre _ _ h0 (new_bounded ctx)
  have b1 := session_start_bound rate σ0 r h1 b0
  have b2 := runOps_bounded engine ops _ _ h2 b1
  refine ⟨σ0, r, σ2, h0, h1, ?_, h2, b2⟩
  rw [session_start_of_consistent rate σ0 c0] at h1
  cases h1
  rcases Bool.eq_false_or_eq_true σ0.st.ctx with hc | hc
  · rcases Bool.eq_false_or_eq_true σ0.st.running with hr | hr
    · simp [hc, start_of_running rate σ0.st hc hr]
    · simp [hc, start_of_stopped rate σ0.st hc hr]
  · simp [hc, start_of_no_ctx rate σ0.st hc]

theorem applyOp_sizing (engine : Engine) (σ τ : Session) (op : Op)
    (hop : ∀ rate, op ≠ Op.start rate) (h : applyOp engine σ op = some τ) :
    τ.st.sizing = σ.st.sizing := by
  cases op with
  | start rate => exact absurd rfl (hop rate)
  | acceptPcm samples length =>
    simp only [applyOp, Option.some.injEq] at h
    subst h
    exact acceptPcm_sizing samples length σ.st
  | pollPartial =>
    simp only [applyOp, Option.some.injEq] at h
    subst h
    exact store_sizing _ _ (pollPartial_store σ.st)
  | pollFinal =>
    simp only [applyOp, Option.some.injEq] at h
    subst h
    exact store_sizing _ _ (pollFinal_store σ.st)
  | requestFinalize => exact store_sizing _ _ (requestFinalize_store engine σ τ h)
  | stopImmediate => exact store_sizing _ _ (stopImmediate_store engine σ τ h)
  | workerStep =>
    simp only [applyOp, Option.some.injEq] at h
    subst h
    exact store_sizing _ _ (workerStep_store engine σ)

/-- C6: a `start` at a positive rate `r` (within `int`) that resets the
session sets, with `step = r * 500 / 1000` rounded down,
`window_samples = max step (r * 5000 / 1000)`,
`max_samples = max window_samples (r * 30000 / 1000)` and
`min_samples_for_decode = max step (r / 4)`; and no event other than a start
changes the rate or these sizes. -/
theorem C6_sizing_policy (engine : Engine) (r : Int) (s : NativeWhisper)
    (h0 : 0 < r) (h1 : r ≤ intMax) (hc : s.ctx = true) (hr : s.running = false) :
    (kStepSamples (NativeWhisper.start r s).2.sample_rate : Int) = r * 500 / 1000 ∧
    ((NativeWhisper.start r s).2.window_samples : Int)
      = max (r * 500 / 1000) (r * 5000 / 1000) ∧
    ((NativeWhisper.start r s).2.max_samples : Int)
      = max ((NativeWhisper.start r s).2.window_samples : Int) (r * 30000 / 1000) ∧
    ((NativeWhisper.start r s).2.min_samples_for_decode : Int)
      = max (r * 500 / 1000) (r / 4) ∧
    (∀ (σ τ : Session) (op : Op), (∀ rate, op ≠ Op.start rate) →
      applyOp engine σ op = some τ → τ.st.sizing = σ.st.sizing) := by
  have hpos : (if r > 0 then r else kWhisperSampleRate) = r := by simp [h0]
  rw [start_of_stopped r s hc hr]
  simp only [hpos]
  refine ⟨kStepSamples_eq r h0 h1, ?_, ?_, ?_, applyOp_sizing engine⟩
  · rw [Nat.cast_max, kStepSamples_eq r h0 h1, kWindowSamples_eq r h0 h1]
  · rw [Nat.cast_max, kMaxSamples_eq r h0 h1]
  · rw [Nat.cast_max, kStepSamples_eq r h0 h1, quarter_eq r h0 h1]

/-- Witness for C6: a fresh session started at 16000 Hz. -/
theorem C6_sizing_policy_witness :
    (0 : Int) < 16000 ∧ (16000 : Int) ≤ intMax ∧ (NativeWhisper.new true).ctx = true ∧
    (NativeWhisper.new true).running = false ∧
    ((NativeWhisper.start 16000 (NativeWhisper.new true)).2.window_samples : Int)
      = max (16000 * 500 / 1000) (16000 * 5000 / 1000) :=
  ⟨by decide, by decide, rfl, rfl,
    (C6_sizing_policy probeEngine 16000 (NativeWhisper.new true) (by decide) (by decide)
      rfl rfl).2.1⟩

/-- C7: `start` without an engine handle returns false and changes nothing;
on a running session it returns true and changes nothing; otherwise it
returns true and the state is the one listed: running, no stop or finalize
request, overflow latch clear, both slots read (both polls return nothing),
empty texts, zero sequence number and counters, empty buffer, sizes computed
from the given rate (16000 when the rate is not positive), and the engine
handle and instrumentation counters kept.  A second `start` right after a
first changes nothing more, and in every session reached from construction
the call with its thread creation returns that result, with a worker created
exactly when the state was reset. -/
theorem C7_start_reference (engine : Engine) (rate rate2 : Int) (s : NativeWhisper) :
    (s.ctx = false → NativeWhisper.start rate s = (false, s)) ∧
    (s.ctx = true → s.running = true → NativeWhisper.start rate s = (true, s)) ∧
    (s.ctx = true → s.running = false →
      NativeWhisper.start rate s =
        (true,
          { ctx := true
            pcm := []
            min_samples_for_decode :=
              max (kStepSamples (if rate > 0 then rate else kWhisperSampleRate))
                (toSizeT (Int.tdiv (if rate > 0 then rate else kWhisperSampleRate) 4))
            window_samples :=
              max (kStepSamples (if rate > 0 then rate else kWhisperSampleRate))
                (kWindowSamples (if rate > 0 then rate else kWhisperSampleRate))
            max_samples :=
              max (max (kStepSamples (if rate > 0 then rate else kWhisperSampleRate))
                  (kWindowSamples (if rate > 0 then rate else kWhisperSampleRate)))
                (kMaxSamples (if rate > 0 then rate else kWhisperSampleRate))
            sample_rate := if rate > 0 then rate else kWhisperSampleRate
            running := true
            stop_requested := false
            finalize_requested := false
            partial_available := false
            final_available := false
            overflow_notified := false
            partial_text := []
            final_text := []
            partial_seq := 0
            total_ingested := 0
            last_decode_cursor := 0
            overflow_warnings := s.overflow_warnings
            decode_passes := s.decode_passes
            engine_calls := s.engine_calls }) ∧
      (pollPartial (NativeWhisper.start rate s).2).1 = none ∧
      (pollFinal (NativeWhisper.start rate s).2).1 = none) ∧
    NativeWhisper.start rate2 (NativeWhisper.start rate s).2 = NativeWhisper.start rate s ∧
    (∀ (ctx : Bool) (ops : List Op) (σ : Session),
      runOps engine ops (Session.new ctx) = some σ →
      Session.start rate σ =
        some ((NativeWhisper.start rate σ.st).1,
          { st := (NativeWhisper.start rate σ.st).2
            worker :=
              if σ.st.ctx && !σ.st.running then WorkerPhase.waiting else σ.worker })) := by
  refine ⟨start_of_no_ctx rate s, start_of_running rate s, ?_, ?_, fun ctx ops σ h =>
    session_start_of_consistent rate σ
      (runOps_keeps_consistent engine ops _ σ h (new_consistent ctx))⟩
  · intro hc hr
    refine ⟨start_of_stopped rate s hc hr, ?_, ?_⟩ <;>
      simp [start_of_stopped rate s hc hr, pollPartial, pollFinal]
  · rcases Bool.eq_false_or_eq_true s.ctx with hc | hc
    · rcases Bool.eq_false_or_eq_true s.running with hr | hr
      · rw [start_of_running rate s hc hr, start_of_running rate2 s hc hr]
      · rw [start_of_stopped rate s hc hr]
        exact start_of_running _ _ rfl rfl
    · rw [start_of_no_ctx rate s hc, start_of_no_ctx rate2 s hc]

/-- Witness for C7: the first start of a fresh session at 16000 Hz keeps
thirty seconds of audio. -/
theorem C7_start_reference_witness :
    (NativeWhisper.new true).ctx = true ∧ (NativeWhisper.new true).running = false ∧
    (NativeWhisper.start 16000 (NativeWhisper.new true)).2.max_samples = 480000 ∧
    (NativeWhisper.start 16000 (NativeWhisper.new true)).2.running = true :=
  ⟨rfl, rfl,
    (congrArg (fun r => r.2.max_samples)
      ((C7_start_reference probeEngine 16000 8000 (NativeWhisper.new true)).2.2.1 rfl rfl).1).trans
      (by decide),
    congrArg (fun r => r.2.running)
      ((C7_start_reference probeEngine 16000 8000 (NativeWhisper.new true)).2.2.1 rfl rfl).1⟩

end Runs

section Finalize

open NativeWhisper

theorem finalize_exit_waiting (engine : Engine) (s : NativeWhisper)
    (hf : s.finalize_requested = true) :
    ∃ τ, Session.workerToExit engine 2 { st := s, worker := WorkerPhase.waiting } = some τ ∧
      τ.st.running = false ∧ τ.st.final_available = true ∧
      τ.st.decode_passes = s.decode_passes + 1 := by
  refine ⟨_, workerToExit_finalize_waiting engine s hf, ?_, ?_, ?_⟩
  · exact (loop_publish_final _ _).2.2.2.2.2
  · exact (loop_publish_final _ _).2.2.1
  · rw [loop_publish_decode_passes, infer_decode_passes]

theorem requestFinalize_unfold (engine : Engine) (σ : Session) (hr : σ.st.running = true)
    (hf : σ.st.finalize_requested = false) :
    Session.requestFinalize engine σ
      = Session.stopWorker engine
          { σ with st := { σ.st with finalize_requested := true } } := by
  simp [Session.requestFinalize, hr, hf]

/-- On a running session between calls, `requestFinalize` returns after
exactly one more decode pass with the final slot unread, `running` false and
the worker joined. -/
theorem requestFinalize_effect (engine : Engine) (σ : Session)
    (hc : σ.consistent = true) (hr : σ.st.running = true) :
    ∃ τ, Session.requestFinalize engine σ = some τ ∧ τ.worker = WorkerPhase.absent ∧
      τ.st.running = false ∧ τ.st.final_available = true ∧
      τ.st.decode_passes = σ.st.decode_passes + 1 := by
  rcases consistent_cases σ hc with ⟨_, hr'⟩ | ⟨hw, _, _, hf⟩
  · rw [hr] at hr'; cases hr'
  · rw [requestFinalize_unfold engine σ hr hf]
    obtain ⟨s, w⟩ := σ
    simp only at hw hr hf
    rcases hw with hw | ⟨window, hw⟩
    · subst hw
      obtain ⟨τ, h1, h2, h3, h4⟩ :=
        finalize_exit_waiting engine { s with finalize_requested := true } rfl
      exact ⟨{ τ with worker := WorkerPhase.absent },
        stopWorker_of_exit engine _ τ rfl (workerToExit_mono engine 2 _ _ h1), rfl, h2, h3, h4⟩
    · subst hw
      have hp := loop_publish_false_flags
        (infer engine window { s with finalize_requested := true }).1
        (infer engine window { s with finalize_requested := true }).2
      have hi := infer_flags engine window { s with finalize_requested := true }
      have hfin : (loop_publish false
          (infer engine window { s with finalize_requested := true }).1
          (infer engine window { s with finalize_requested := true }).2).1.finalize_requested
            = true := by
        rw [hp.2.2.2, hi.2.2]
      obtain ⟨τ, h1, h2, h3, h4⟩ := finalize_exit_waiting engine _ hfin
      have hstep : Session.workerStep engine
          { st := { s with finalize_requested := true },
            worker := WorkerPhase.decoding window false }
          = { st := (loop_publish false
                (infer engine window { s with finalize_requested := true }).1
                (infer engine window { s with finalize_requested := true }).2).1,
              worker := WorkerPhase.waiting } := by
        simp [Session.workerStep, hp.1]
      have hexit : Session.workerToExit engine Session.joinFuel
          { st := { s with finalize_requested := true },
            worker := WorkerPhase.decoding window false } = some τ := by
        unfold Session.joinFuel Session.workerToExit
        simp only [reduceCtorEq, if_false]
        rw [hstep]
        exact h1
      refine ⟨{ τ with worker := WorkerPhase.absent },
        stopWorker_of_exit engine _ τ rfl hexit, rfl, h2, h3, ?_⟩
      rw [h4, loop_publish_decode_passes, infer_decode_passes]

theorem pollFinal_drained (s : NativeWhisper) : (pollFinal (pollFinal s).2).1 = none := by
  cases s with
  | mk ctx pcm mn wn mx sr run stop fin pa fa ov pt ft seq tot cur w d e =>
    cases fa <;> simp [pollFinal]

/-- C10: `requestFinalize` always returns, and a second `requestFinalize`
after it returns the state it finds, so no decode pass is dispatched and
nothing is published; this still holds after a `pollFinal` in between, and the
`pollFinal` after the second call returns nothing.  On a running session
between calls the first call runs exactly one more decode pass and publishes
the final text once. -/
theorem C10_requestFinalize_idempotent (engine : Engine) (σ : Session) :
    ∃ τ, Session.requestFinalize engine σ = some τ ∧
      Session.requestFinalize engine τ = some τ ∧
      Session.requestFinalize engine (Session.pollFinal τ).2 = some (Session.pollFinal τ).2 ∧
      (Session.pollFinal (Session.pollFinal τ).2).1 = none ∧
      (σ.consistent = true → σ.st.running = true →
        τ.worker = WorkerPhase.absent ∧ τ.st.running = false ∧
        τ.st.final_available = true ∧
        τ.st.decode_passes = σ.st.decode_passes + 1 ∧
        (Session.pollFinal τ).1 = some τ.st.final_text) := by
  obtain ⟨τ, h1, h2, _⟩ := requestFinalize_total engine σ
  refine ⟨τ, h1, requestFinalize_of_guard engine τ h2, ?_, ?_, ?_⟩
  · apply requestFinalize_of_guard
    have hfl := pollFinal_flags τ.st
    simp only [Session.pollFinal]
    rw [hfl.1, hfl.2.2]
    exact h2
  · exact pollFinal_drained τ.st
  · intro hc hr
    obtain ⟨υ, e1, e2, e3, e4, e5⟩ := requestFinalize_effect engine σ hc hr
    rw [e1] at h1
    cases h1
    refine ⟨e2, e3, e4, e5, ?_⟩
    simp [Session.pollFinal, pollFinal, e4]

/-- Witness for C10: a fresh session started at 16000 Hz and finalized: the
call returns with the final slot unread, and a second call changes nothing. -/
theorem C10_requestFinalize_idempotent_witness :
    ∃ τ, Session.requestFinalize probeEngine
        { st := (NativeWhisper.start 16000 (NativeWhisper.new true)).2,
          worker := WorkerPhase.waiting } = some τ ∧
      Session.requestFinalize probeEngine τ = some τ ∧
      τ.st.final_available = true :=
  (C10_requestFinalize_idempotent probeEngine
    { st := (NativeWhisper.start 16000 (NativeWhisper.new true)).2,
      worker := WorkerPhase.waiting }).imp
    (fun _ h => ⟨h.1, h.2.1, (h.2.2.2.2 (by decide) rfl).2.2.1⟩)

end Finalize

section Window

open NativeWhisper

theorem buildWindowLocked_eq_drop (s : NativeWhisper) :
    buildWindowLocked s = s.pcm.drop (s.pcm.length - s.window_samples) := by
  unfold buildWindowLocked
  by_cases h : s.pcm.length > s.window_samples
  · simp [h]
  · have e : s.pcm.length - s.window_samples = 0 := by omega
    simp [h, e]

/-- C11: `buildWindowLocked` returns the last `min |pcm| window_samples`
samples of the buffer in their order: the buffer is some front part followed
by the window, the window is the whole buffer when it holds at most
`window_samples` samples and empty when the buffer is empty; taking the
snapshot in the worker leaves the buffer as it was. -/
theorem C11_window_is_tail (s : NativeWhisper) :
    buildWindowLocked s = lastN (min s.pcm.length s.window_samples) s.pcm ∧
    (buildWindowLocked s).length = min s.pcm.length s.window_samples ∧
    s.pcm = s.pcm.take (s.pcm.length - s.window_samples) ++ buildWindowLocked s ∧
    (s.pcm.length ≤ s.window_samples → buildWindowLocked s = s.pcm) ∧
    (s.pcm = [] → buildWindowLocked s = []) ∧
    (loop_wake s).1.pcm = s.pcm := by
  have e := buildWindowLocked_eq_drop s
  refine ⟨?_, ?_, ?_, ?_, ?_, ?_⟩
  · rw [e, lastN]
    congr 1
    omega
  · rw [e, List.length_drop]
    omega
  · rw [e, List.take_append_drop]
  · intro h
    have z : s.pcm.length - s.window_samples = 0 := by omega
    rw [e, z, List.drop_zero]
  · intro h
    rw [e, h]
    exact List.drop_nil
  · have h := loop_wake_store s
    simp only [NativeWhisper.store, Prod.mk.injEq] at h
    exact h.1

/-- Witness for C11: the probe session holds three samples and the window is
two samples long; a buffer of one sample is taken whole. -/
theorem C11_window_is_tail_witness :
    buildWindowLocked probe = lastN (min 3 2) probe.pcm ∧
    ({ probe with pcm := [0] }.pcm.length ≤ { probe with pcm := [0] }.window_samples ∧
      buildWindowLocked { probe with pcm := [0] } = [0]) :=
  ⟨(C11_window_is_tail probe).1,
    by decide, (C11_window_is_tail { probe with pcm := [0] }).2.2.2.1 (by decide)⟩

end Window

section Scenario16k

open NativeWhisper

theorem start_16000 (s : NativeWhisper) (hc : s.ctx = true) (hr : s.running = false) :
    (NativeWhisper.start 16000 s).2.sample_rate = 16000 ∧
    (NativeWhisper.start 16000 s).2.min_samples_for_decode = 8000 ∧
    (NativeWhisper.start 16000 s).2.window_samples = 80000 ∧
    (NativeWhisper.start 16000 s).2.max_samples = 480000 := by
  rw [start_of_stopped 16000 s hc hr]
  dsimp only
  exact ⟨by decide, by decide, by decide, by decide⟩

/-- C13, as stated, fails: a fresh session started at 16000 Hz does not have
`min_samples_for_decode = 4000` together with a step of 8000. -/
theorem C13_min_samples_not_4000 :
    ¬ ((NativeWhisper.start 16000 (NativeWhisper.new true)).2.min_samples_for_decode = 4000 ∧
      kStepSamples (NativeWhisper.start 16000 (NativeWhisper.new true)).2.sample_rate = 8000) := by
  decide

/-- C13, amended: after a start at 16000 Hz that resets the session,
`min_samples_for_decode` is 8000 (the larger of the step 8000 and the quarter
second 4000) and the step, both as `kStepSamples` of the sizing policy and as
`min_step` of the decode trigger, is 8000. -/
theorem C13_thresholds_at_16000 (s : NativeWhisper) (hc : s.ctx = true)
    (hr : s.running = false) :
    (NativeWhisper.start 16000 s).2.min_samples_for_decode = 8000 ∧
    kStepSamples (NativeWhisper.start 16000 s).2.sample_rate = 8000 ∧
    min_step (NativeWhisper.start 16000 s).2.sample_rate = 8000 ∧
    toSizeT (Int.tdiv (NativeWhisper.start 16000 s).2.sample_rate 4) = 4000 := by
  obtain ⟨h1, h2, _, _⟩ := start_16000 s hc hr
  rw [h1]
  exact ⟨h2, by decide, by decide, by decide⟩

/-- Witness for C13 (amended) at a fresh session. -/
theorem C13_thresholds_at_16000_witness :
    (NativeWhisper.new true).ctx = true ∧ (NativeWhisper.new true).running = false ∧
    (NativeWhisper.start 16000 (NativeWhisper.new true)).2.min_samples_for_decode = 8000 :=
  ⟨rfl, rfl, (C13_thresholds_at_16000 (NativeWhisper.new true) rfl rfl).1⟩

end Scenario16k

section Stability

open NativeWhisper

theorem workerStep_stable {P : NativeWhisper → Prop} (hP : Stable P) (engine : Engine)
    (σ : Session) (h : P σ.st) : P (Session.workerStep engine σ).st := by
  unfold Session.workerStep
  split
  · exact h
  · exact h
  · have hw := hP.wake σ.st h
    split <;> simp_all
  · exact hP.publish _ _ _ (hP.inference engine _ _ h)

theorem workerToExit_stable {P : NativeWhisper → Prop} (hP : Stable P) (engine : Engine)
    (n : Nat) : ∀ σ τ : Session, Session.workerToExit engine n σ = some τ → P σ.st → P τ.st := by
  induction n with
  | zero =>
    intro σ τ h hp
    unfold Session.workerToExit at h
    split at h
    · cases h; exact hp
    · cases h
  | succ n ih =>
    intro σ τ h hp
    unfold Session.workerToExit at h
    split at h
    · cases h; exact hp
    · exact ih _ _ h (workerStep_stable hP engine σ hp)

theorem stopWorker_stable {P : NativeWhisper → Prop} (hP : Stable P) (engine : Engine)
    (σ τ : Session) (h : Session.stopWorker engine σ = some τ) (hp : P σ.st) : P τ.st := by
  unfold Session.stopWorker at h
  split at h
  · cases hx : Session.workerToExit engine Session.joinFuel σ with
    | none => simp [hx] at h
    | some υ =>
      simp [hx] at h
      subst h
      exact workerToExit_stable hP engine _ σ υ hx hp
  · cases h; exact hp

theorem requestFinalize_stable {P : NativeWhisper → Prop} (hP : Stable P) (engine : Engine)
    (σ τ : Session) (h : Session.requestFinalize engine σ = some τ) (hp : P σ.st) :
    P τ.st := by
  unfold Session.requestFinalize at h
  split at h
  · cases h; exact hp
  · exact stopWorker_stable hP engine _ τ h (hP.finalizeFlag σ.st hp)

theorem stopImmediate_stable {P : NativeWhisper → Prop} (hP : Stable P) (engine : Engine)
    (σ τ : Session) (h : Session.stopImmediate engine σ = some τ) (hp : P σ.st) :
    P τ.st := by
  unfold Session.stopImmediate at h
  exact stopWorker_stable hP engine _ τ h (hP.stopFlag σ.st hp)

theorem applyOp_stable {P : NativeWhisper → Prop} (hP : Stable P) (engine : Engine)
    (σ τ : Session) (op : Op) (hop : op.isStart = false)
    (hacc : ∀ samples length, op = Op.acceptPcm samples length →
      P (NativeWhisper.acceptPcm samples length σ.st))
    (h : applyOp engine σ op = some τ) (hp : P σ.st) : P τ.st := by
  cases op with
  | start rate => simp [Op.isStart] at hop
  | acceptPcm samples length =>
    simp only [applyOp, Option.some.injEq] at h
    subst h
    exact hacc samples length rfl
  | pollPartial =>
    simp only [applyOp, Option.some.injEq] at h
    subst h
    exact hP.pollP _ hp
  | pollFinal =>
    simp only [applyOp, Option.some.injEq] at h
    subst h
    exact hP.pollF _ hp
  | requestFinalize => exact requestFinalize_stable hP engine σ τ h hp
  | stopImmediate => exact stopImmediate_stable hP engine σ τ h hp
  | workerStep =>
    simp only [applyOp, Option.some.injEq] at h
    subst h
    exact workerStep_stable hP engine σ hp

theorem runOps_stable {P : NativeWhisper → Prop} (hP : Stable P) (engine : Engine)
    (hacc : ∀ samples length s, P s → P (NativeWhisper.acceptPcm samples length s))
    (ops : List Op) :
    ∀ σ τ : Session, (∀ op ∈ ops, op.isStart = false) →
      runOps engine ops σ = some τ → P σ.st → P τ.st := by
  induction ops with
  | nil =>
    intro σ τ _ h hp
    simp only [runOps, Option.some.injEq] at h
    subst h; exact hp
  | cons op ops ih =>
    intro σ τ hops h hp
    unfold runOps at h
    cases hx : applyOp engine σ op with
    | none => simp [hx] at h
    | some υ =>
      simp only [hx] at h
      exact ih υ τ (fun o ho => hops o (List.mem_cons_of_mem _ ho)) h
        (applyOp_stable hP engine σ υ op (hops op (List.mem_cons_self _ _))
          (fun samples length _ => hacc samples length σ.st hp) hx hp)

end Stability

section Ledger

open NativeWhisper

theorem loop_wake_ledger (s : NativeWhisper) : (loop_wake s).1.ledger = s.ledger := by
  rcases Bool.eq_false_or_eq_true ((loop_wake s).2.isDispatch) with h | h
  · rw [loop_wake_dispatch_eq s h]; rfl
  · rcases loop_wake_no_dispatch s h with e | e
    · rw [e]
    · rw [e]; rfl

theorem loop_wake_cursor (s : NativeWhisper) :
    (loop_wake s).1.last_decode_cursor = s.last_decode_cursor ∨
    (loop_wake s).1.last_decode_cursor = s.total_ingested := by
  rcases Bool.eq_false_or_eq_true ((loop_wake s).2.isDispatch) with h | h
  · rw [loop_wake_dispatch_eq s h]; exact Or.inr rfl
  · rcases loop_wake_no_dispatch s h with e | e
    · rw [e]; exact Or.inl rfl
    · rw [e]; exact Or.inl rfl

theorem loop_wake_texts (s : NativeWhisper) :
    (loop_wake s).1.partial_text = s.partial_text ∧
    (loop_wake s).1.partial_seq = s.partial_seq ∧
    (loop_wake s).1.partial_available = s.partial_available := by
  rcases Bool.eq_false_or_eq_true ((loop_wake s).2.isDispatch) with h | h
  · rw [loop_wake_dispatch_eq s h]; exact ⟨rfl, rfl, rfl⟩
  · rcases loop_wake_no_dispatch s h with e | e
    · rw [e]; exact ⟨rfl, rfl, rfl⟩
    · rw [e]; exact ⟨rfl, rfl, rfl⟩

theorem loop_publish_frame (f : Bool) (t : Text) (s : NativeWhisper) :
    (loop_publish f t s).1 =
      { s with
        partial_text := (loop_publish f t s).1.partial_text
        partial_available := (loop_publish f t s).1.partial_available
        partial_seq := (loop_publish f t s).1.partial_seq
        final_text := (loop_publish f t s).1.final_text
        final_available := (loop_publish f t s).1.final_available
        finalize_requested := (loop_publish f t s).1.finalize_requested
        stop_requested := (loop_publish f t s).1.stop_requested
        running := (loop_publish f t s).1.running } := by
  unfold loop_publish loop_exit
  by_cases h : trimCopy t = s.partial_text <;> cases f <;>
    simp only [h, ne_eq, not_true_eq_false, not_false_eq_true, if_true, if_false] <;> rfl

theorem loop_publish_ledger (f : Bool) (t : Text) (s : NativeWhisper) :
    (loop_publish f t s).1.ledger = s.ledger ∧
    (loop_publish f t s).1.last_decode_cursor = s.last_decode_cursor := by
  rw [loop_publish_frame]; exact ⟨rfl, rfl⟩

theorem infer_ledger (engine : Engine) (w : List Sample) (s : NativeWhisper) :
    (infer engine w s).2.ledger = s.ledger ∧
    (infer engine w s).2.last_decode_cursor = s.last_decode_cursor ∧
    (infer engine w s).2.partial_text = s.partial_text ∧
    (infer engine w s).2.partial_seq = s.partial_seq ∧
    (infer engine w s).2.partial_available = s.partial_available := by
  rw [infer_fields]; exact ⟨rfl, rfl, rfl, rfl, rfl⟩

theorem pollPartial_frame (s : NativeWhisper) :
    (pollPartial s).2 = { s with partial_available := (pollPartial s).2.partial_available } := by
  unfold pollPartial; split <;> rfl

theorem pollFinal_frame (s : NativeWhisper) :
    (pollFinal s).2 = { s with final_available := (pollFinal s).2.final_available } := by
  unfold pollFinal; split <;> rfl

/-- Every property of the ledger alone is stable. -/
theorem stable_of_ledger {α : Type} (f : NativeWhisper → α)
    (hf : ∀ s t : NativeWhisper, t.ledger = s.ledger → f t = f s) (Q : α → Prop) :
    Stable (fun s => Q (f s)) where
  wake s h := by
    show Q (f (loop_wake s).1)
    rw [hf _ _ (loop_wake_ledger s)]; exact h
  inference engine w s h := by
    show Q (f (infer engine w s).2)
    rw [hf _ _ (infer_ledger engine w s).1]; exact h
  publish fl t s h := by
    show Q (f (loop_publish fl t s).1)
    rw [hf _ _ (loop_publish_ledger fl t s).1]; exact h
  finalizeFlag s h := by
    have e := hf s { s with finalize_requested := true } rfl
    rw [e]; exact h
  stopFlag s h := by
    have e := hf s { s with stop_requested := true } rfl
    rw [e]; exact h
  pollP s h := by
    show Q (f (pollPartial s).2)
    have e : (pollPartial s).2.ledger = s.ledger := by rw [pollPartial_frame]; rfl
    rw [hf _ _ e]; exact h
  pollF s h := by
    show Q (f (pollFinal s).2)
    have e : (pollFinal s).2.ledger = s.ledger := by rw [pollFinal_frame]; rfl
    rw [hf _ _ e]; exact h

end Ledger

section Partials

open NativeWhisper

theorem loop_publish_changed (f : Bool) (t : Text) (s : NativeWhisper)
    (h : trimCopy t ≠ s.partial_text) :
    (loop_publish f t s).1.partial_text = trimCopy t ∧
    (loop_publish f t s).1.partial_available = true ∧
    (loop_publish f t s).1.partial_seq = s.partial_seq + 1 := by
  unfold loop_publish loop_exit
  cases f <;> simp [h]

theorem loop_publish_same (f : Bool) (t : Text) (s : NativeWhisper)
    (h : trimCopy t = s.partial_text) :
    (loop_publish f t s).1.partial_text = s.partial_text ∧
    (loop_publish f t s).1.partial_available = s.partial_available ∧
    (loop_publish f t s).1.partial_seq = s.partial_seq := by
  unfold loop_publish loop_exit
  cases f <;> simp [h]

theorem loop_publish_text (f : Bool) (t : Text) (s : NativeWhisper) :
    (loop_publish f t s).1.partial_text = trimCopy t := by
  by_cases h : trimCopy t = s.partial_text
  · rw [(loop_publish_same f t s h).1, h]
  · exact (loop_publish_changed f t s h).1

theorem loop_publish_seq (f : Bool) (t : Text) (s : NativeWhisper) :
    (loop_publish f t s).1.partial_seq
      = s.partial_seq + (if trimCopy t ≠ s.partial_text then 1 else 0) := by
  by_cases h : trimCopy t = s.partial_text
  · rw [(loop_publish_same f t s h).2.2]; simp [h]
  · rw [(loop_publish_changed f t s h).2.2]; simp [h]

theorem publishAll_seq (passes : List (Bool × Text)) :
    ∀ s : NativeWhisper,
      (publishAll passes s).partial_seq
        = s.partial_seq + (textChanges passes s.partial_text : Nat) := by
  induction passes with
  | nil => intro s; simp [publishAll, textChanges]
  | cons p rest ih =>
    intro s
    obtain ⟨f, t⟩ := p
    simp only [publishAll, textChanges]
    rw [ih, loop_publish_text, loop_publish_seq]
    by_cases h : trimCopy t = s.partial_text
    · simp [h]
    · simp [h]; omega

theorem acceptPcm_frame (samples : Option (Nat → Int)) (length : Int) (s : NativeWhisper) :
    NativeWhisper.acceptPcm samples length s =
      { s with
        pcm := (NativeWhisper.acceptPcm samples length s).pcm
        total_ingested := (NativeWhisper.acceptPcm samples length s).total_ingested
        overflow_notified := (NativeWhisper.acceptPcm samples length s).overflow_notified
        overflow_warnings := (NativeWhisper.acceptPcm samples length s).overflow_warnings } := by
  by_cases h : samples = none ∨ length ≤ 0 ∨ s.running = false
  · rw [acceptPcm_of_noop samples length s h]
  · have h1 : samples ≠ none := fun e => h (Or.inl e)
    have h2 : 0 < length := by
      by_contra hc
      exact h (Or.inr (Or.inl (by omega)))
    have h3 : s.running = true := by
      cases hr : s.running
      · exact absurd (Or.inr (Or.inr hr)) h
      · rfl
    obtain ⟨p, rfl⟩ := Option.ne_none_iff_exists'.1 h1
    rw [acceptPcm_of_running p length s h2 h3]

theorem stable_seq_ge (k : Int) : Stable (fun s => k ≤ s.partial_seq) where
  wake s h := by rw [(loop_wake_texts s).2.1]; exact h
  inference engine w s h := by rw [(infer_ledger engine w s).2.2.2.1]; exact h
  publish f t s h := by
    rw [loop_publish_seq]
    split <;> omega
  finalizeFlag s h := h
  stopFlag s h := h
  pollP s h := by rw [pollPartial_frame]; exact h
  pollF s h := by rw [pollFinal_frame]; exact h

theorem applyOp_seq_mono (engine : Engine) (σ τ : Session) (op : Op)
    (hop : op.isStart = false) (h : applyOp engine σ op = some τ) :
    σ.st.partial_seq ≤ τ.st.partial_seq :=
  applyOp_stable (stable_seq_ge σ.st.partial_seq) engine σ τ op hop
    (fun samples length _ => by rw [acceptPcm_frame]) h (le_refl _)

/-- C18: in the second half of every decode pass, finalize or not, with
transcript `t`: if `trimCopy t` differs from `partial_text` then
`partial_text` becomes `trimCopy t`, the partial slot is marked unread and
`partial_seq` grows by one; if it is equal, all three are unchanged.  Over any
succession of passes `partial_seq` grows by the number of changes of
`partial_text`; the first half of a pass, the inference call, `acceptPcm` and
the polls leave text and sequence number alone, and no event other than a
start lowers `partial_seq`. -/
theorem C18_partial_publication (engine : Engine) (f : Bool) (t : Text)
    (s : NativeWhisper) :
    (trimCopy t ≠ s.partial_text →
      (loop_publish f t s).1.partial_text = trimCopy t ∧
      (loop_publish f t s).1.partial_available = true ∧
      (loop_publish f t s).1.partial_seq = s.partial_seq + 1) ∧
    (trimCopy t = s.partial_text →
      (loop_publish f t s).1.partial_text = s.partial_text ∧
      (loop_publish f t s).1.partial_available = s.partial_available ∧
      (loop_publish f t s).1.partial_seq = s.partial_seq) ∧
    (∀ passes : List (Bool × Text),
      (publishAll passes s).partial_seq
        = s.partial_seq + (textChanges passes s.partial_text : Nat)) ∧
    ((loop_wake s).1.partial_text = s.partial_text ∧
      (loop_wake s).1.partial_seq = s.partial_seq) ∧
    (∀ w, (infer engine w s).2.partial_text = s.partial_text ∧
      (infer engine w s).2.partial_seq = s.partial_seq) ∧
    (∀ samples length,
      (NativeWhisper.acceptPcm samples length s).partial_text = s.partial_text ∧
      (NativeWhisper.acceptPcm samples length s).partial_seq = s.partial_seq) ∧
    ((pollPartial s).2.partial_text = s.partial_text ∧
      (pollPartial s).2.partial_seq = s.partial_seq ∧
      (pollFinal s).2.partial_text = s.partial_text ∧
      (pollFinal s).2.partial_seq = s.partial_seq) ∧
    (∀ (σ τ : Session) (op : Op), op.isStart = false → applyOp engine σ op = some τ →
      σ.st.partial_seq ≤ τ.st.partial_seq) := by
  refine ⟨loop_publish_changed f t s, loop_publish_same f t s,
    fun passes => publishAll_seq passes s,
    ⟨(loop_wake_texts s).1, (loop_wake_texts s).2.1⟩,
    fun w => ⟨(infer_ledger engine w s).2.2.1, (infer_ledger engine w s).2.2.2.1⟩,
    fun samples length => ?_, ?_, applyOp_seq_mono engine⟩
  · rw [acceptPcm_frame]; exact ⟨rfl, rfl⟩
  · refine ⟨?_, ?_, ?_, ?_⟩
    · rw [pollPartial_frame]
    · rw [pollPartial_frame]
    · rw [pollFinal_frame]
    · rw [pollFinal_frame]

/-- Witness for C18: on the probe session, whose partial text is empty, the
transcript `" ok "` is published as `ok` with sequence number one, and the
empty transcript changes nothing. -/
theorem C18_partial_publication_witness :
    (trimCopy [' ', 'o', 'k', ' '] ≠ probe.partial_text ∧
      (loop_publish false [' ', 'o', 'k', ' '] probe).1.partial_seq = probe.partial_seq + 1) ∧
    (trimCopy [] = probe.partial_text ∧
      (loop_publish false [] probe).1.partial_seq = probe.partial_seq) :=
  ⟨⟨by decide,
      ((C18_partial_publication probeEngine false [' ', 'o', 'k', ' '] probe).1
        (by decide)).2.2⟩,
    ⟨by decide, ((C18_partial_publication probeEngine false [] probe).2.1 (by decide)).2.2⟩⟩

end Partials

section EmptyFinalize

open NativeWhisper

theorem trimCopy_nil : trimCopy [] = [] := by decide

theorem infer_nil (engine : Engine) (s : NativeWhisper) : infer engine [] s = ([], s) := by
  simp [infer]

theorem buildWindowLocked_nil (s : NativeWhisper) (h : s.pcm = []) :
    buildWindowLocked s = [] := by
  rw [buildWindowLocked_eq_drop, h]; exact List.drop_nil

/-- The state in which a finalize pass over no audio leaves a session whose
texts are empty: only the stop flag, `running`, the final slot, the cursor and
the pass count are written. -/
theorem requestFinalize_empty (engine : Engine) (s : NativeWhisper)
    (hr : s.running = true) (hf : s.finalize_requested = false) (hp : s.pcm = [])
    (hpt : s.partial_text = []) :
    Session.requestFinalize engine { st := s, worker := WorkerPhase.waiting } =
      some
        { st :=
            { s with
              last_decode_cursor := s.total_ingested
              decode_passes := s.decode_passes + 1
              final_text := []
              final_available := true
              finalize_requested := false
              stop_requested := true
              running := false }
          worker := WorkerPhase.absent } := by
  rw [requestFinalize_unfold engine _ hr hf]
  have hexit := workerToExit_mono engine 2 _ _
    (workerToExit_finalize_waiting engine { s with finalize_requested := true } rfl)
  rw [stopWorker_of_exit engine
    { st := { s with finalize_requested := true }, worker := WorkerPhase.waiting } _ rfl hexit]
  have hw : buildWindowLocked { s with finalize_requested := true } = [] :=
    buildWindowLocked_nil _ hp
  simp only [hw, infer_nil]
  simp [loop_publish, loop_exit, trimCopy_nil, hpt]

/-- With no wake-up of the worker in between, `start` at any rate on a stopped
session with an engine followed by `requestFinalize` with nothing fed runs
exactly one decode pass, over the empty window, without calling the engine and
with the same outcome for every engine: the final text is empty, `running` is
false, the worker is joined, `pollFinal` returns the empty text once and then
nothing, and `pollPartial` returns nothing.  For a rate of at least 2 a wake-up
of the worker after the start changes nothing. -/
theorem finalize_right_after_start (engine : Engine) (rate : Int) (σ0 : Session)
    (hc : σ0.st.ctx = true) (hr : σ0.st.running = false)
    (hw : σ0.worker = WorkerPhase.absent) :
    ∃ σ1 σ2, Session.start rate σ0 = some (true, σ1) ∧
      buildWindowLocked σ1.st = [] ∧
      (∀ engine2 : Engine, Session.requestFinalize engine2 σ1 = some σ2) ∧
      σ2.st.decode_passes = σ0.st.decode_passes + 1 ∧
      σ2.st.engine_calls = σ0.st.engine_calls ∧
      σ2.st.final_text = [] ∧ σ2.st.running = false ∧ σ2.worker = WorkerPhase.absent ∧
      (Session.pollFinal σ2).1 = some [] ∧
      (Session.pollFinal (Session.pollFinal σ2).2).1 = none ∧
      (Session.pollPartial σ2).1 = none ∧
      (2 ≤ rate → rate ≤ intMax → Session.workerStep engine σ1 = σ1) := by
  have hs := start_of_stopped rate σ0.st hc hr
  have hstart : Session.start rate σ0 =
      some (true, { st := (NativeWhisper.start rate σ0.st).2, worker := WorkerPhase.waiting }) := by
    simp [Session.start, hc, hr, hw, WorkerPhase.joinable]
  have hfin := fun e : Engine =>
    requestFinalize_empty e (NativeWhisper.start rate σ0.st).2
      (by rw [hs]) (by rw [hs]) (by rw [hs]) (by rw [hs])
  refine ⟨_, _, hstart, buildWindowLocked_nil _ (by rw [hs]), hfin, ?_, ?_, rfl, rfl, rfl,
    ?_, ?_, ?_, ?_⟩
  · simp [hs]
  · simp [hs]
  · simp [Session.pollFinal, pollFinal]
  · simp [Session.pollFinal, pollFinal]
  · simp [Session.pollPartial, pollPartial, hs]
  · intro h2 hmax
    have hidle : shouldDecodeLocked (NativeWhisper.start rate σ0.st).2 = false := by
      cases hd : shouldDecodeLocked (NativeWhisper.start rate σ0.st).2
      · rfl
      · have h1 := ((shouldDecodeLocked_iff _).1 hd).2.1
        have hpos : rate > 0 := by omega
        rw [hs] at h1
        simp only [hpos, if_true, List.length_nil] at h1
        have hk := kStepSamples_eq rate hpos hmax
        have : (kStepSamples rate : Int) ≥ 1 := by rw [hk]; omega
        have h3 : kStepSamples rate ≤ 0 := le_trans (le_max_left _ _) h1
        omega
    simp [Session.workerStep,
      loop_wake_of_idle (NativeWhisper.start rate σ0.st).2 (by rw [hs]) (by rw [hs]) hidle]

end EmptyFinalize

section Accounting

open NativeWhisper

theorem acceptPcm_push_latch (s : NativeWhisper) (x : Int) :
    (acceptPcm_push s x).overflow_notified
      = (s.overflow_notified || decide (s.pcm.length + 1 > s.max_samples)) ∧
    (acceptPcm_push s x).overflow_warnings
      = s.overflow_warnings +
        (if (!s.overflow_notified && decide (s.pcm.length + 1 > s.max_samples)) = true
          then 1 else 0) := by
  unfold acceptPcm_push
  by_cases h : s.pcm.length + 1 > s.max_samples
  · cases ho : s.overflow_notified <;> simp [h, ho]
  · simp [h]

theorem foldl_push_latch (xs : List Int) :
    ∀ s : NativeWhisper, s.pcm.length ≤ s.max_samples →
      (xs.foldl acceptPcm_push s).overflow_notified
        = (s.overflow_notified || decide (s.pcm.length + xs.length > s.max_samples)) ∧
      (xs.foldl acceptPcm_push s).overflow_warnings
        = s.overflow_warnings +
          (if (!s.overflow_notified &&
              decide (s.pcm.length + xs.length > s.max_samples)) = true then 1 else 0) := by
  induction xs with
  | nil =>
    intro s hb
    have h : ¬ s.pcm.length > s.max_samples := by omega
    simp [h]
  | cons x r ih =>
    intro s hb
    have hb1 := acceptPcm_push_bound s x hb
    have hm := acceptPcm_push_max s x
    have hp := acceptPcm_push_pcm s x hb
    obtain ⟨l1, l2⟩ := acceptPcm_push_latch s x
    obtain ⟨e1, e2⟩ := ih (acceptPcm_push s x) hb1
    have hl : (acceptPcm_push s x).pcm.length
        = s.pcm.length + 1 - (s.pcm.length + 1 - s.max_samples) := by
      rw [hp]; simp
    rw [List.foldl_cons, e1, e2, l1, l2, hm, hl, List.length_cons]
    by_cases h : s.pcm.length + 1 > s.max_samples
    · have h' : s.pcm.length + (r.length + 1) > s.max_samples := by omega
      cases ho : s.overflow_notified <;> simp [h, h']
    · have z : s.pcm.length + 1 - (s.pcm.length + 1 - s.max_samples) + r.length
          = s.pcm.length + (r.length + 1) := by omega
      rw [z]
      cases ho : s.overflow_notified <;> simp [h]

/-- What an accepted call of `acceptPcm` does to the accounting fields. -/
theorem acceptPcm_effect (p : Nat → Int) (length : Int) (s : NativeWhisper)
    (hl : 0 < length) (hr : s.running = true) (hb : s.pcm.length ≤ s.max_samples) :
    (NativeWhisper.acceptPcm (some p) length s).pcm.length
      = min (s.pcm.length + length.toNat) s.max_samples ∧
    (NativeWhisper.acceptPcm (some p) length s).total_ingested = s.total_ingested + length ∧
    (NativeWhisper.acceptPcm (some p) length s).overflow_notified
      = (s.overflow_notified || decide (s.pcm.length + length.toNat > s.max_samples)) ∧
    (NativeWhisper.acceptPcm (some p) length s).overflow_warnings
      = s.overflow_warnings +
        (if (!s.overflow_notified &&
            decide (s.pcm.length + length.toNat > s.max_samples)) = true then 1 else 0) := by
  rw [acceptPcm_of_running p length s hl hr]
  obtain ⟨e1, _⟩ := foldl_push_pcm ((List.range length.toNat).map p) s hb
  obtain ⟨l1, l2⟩ := foldl_push_latch ((List.range length.toNat).map p) s hb
  simp only [List.length_map, List.length_range] at e1 l1 l2
  refine ⟨?_, rfl, l1, l2⟩
  simp only [e1, List.length_drop, List.length_append, List.length_map, List.length_range]
  omega

theorem tracked_bound (s : NativeWhisper) (h : s.tracked) : s.pcm.length ≤ s.max_samples := by
  obtain ⟨_, _, h3, _⟩ := h
  omega

theorem acceptPcm_tracked (samples : Option (Nat → Int)) (length : Int) (s : NativeWhisper)
    (h : s.tracked) : (NativeWhisper.acceptPcm samples length s).tracked := by
  by_cases hn : samples = none ∨ length ≤ 0 ∨ s.running = false
  · rw [acceptPcm_of_noop samples length s hn]; exact h
  · have h1 : samples ≠ none := fun e => hn (Or.inl e)
    have h2 : 0 < length := by
      by_contra hc
      exact hn (Or.inr (Or.inl (by omega)))
    have h3 : s.running = true := by
      cases hr : s.running
      · exact absurd (Or.inr (Or.inr hr)) hn
      · rfl
    obtain ⟨p, rfl⟩ := Option.ne_none_iff_exists'.1 h1
    obtain ⟨e1, e2, e3, _⟩ := acceptPcm_effect p length s h2 h3 (tracked_bound s h)
    have hfr := acceptPcm_frame (some p) length s
    obtain ⟨t1, t2, t3, t4⟩ := h
    have hc : (NativeWhisper.acceptPcm (some p) length s).last_decode_cursor
        = s.last_decode_cursor := by rw [hfr]
    have hm : (NativeWhisper.acceptPcm (some p) length s).max_samples = s.max_samples := by
      rw [hfr]
    have hn : ((length.toNat : Nat) : Int) = length := Int.toNat_of_nonneg (by omega)
    refine ⟨?_, ?_, ?_, ?_⟩
    · rw [hc]; exact t1
    · rw [hc, e2]; omega
    · rw [e1, e2, hm]; omega
    · rw [e3, e2, hm]
      cases ho : s.overflow_notified
      · have : ¬ (s.max_samples : Int) < s.total_ingested := fun c => by
          have := t4.2 c
          rw [ho] at this; cases this
        simp only [Bool.false_or, decide_eq_true_eq]
        omega
      · have := t4.1 ho
        simp only [Bool.true_or, true_iff]
        omega

theorem stable_tracked : Stable NativeWhisper.tracked where
  wake s h := by
    obtain ⟨t1, t2, t3, t4⟩ := h
    have hl := loop_wake_ledger s
    simp only [NativeWhisper.ledger, NativeWhisper.sizing, Prod.mk.injEq] at hl
    obtain ⟨l1, ⟨_, _, _, l2⟩, l3, l4, _⟩ := hl
    unfold NativeWhisper.tracked
    rw [l1, l2, l3, l4]
    rcases loop_wake_cursor s with e | e <;> rw [e] <;> refine ⟨?_, ?_, t3, t4⟩ <;> omega
  inference engine w s h := by
    obtain ⟨hl, hc, _⟩ := infer_ledger engine w s
    simp only [NativeWhisper.ledger, NativeWhisper.sizing, Prod.mk.injEq] at hl
    obtain ⟨l1, ⟨_, _, _, l2⟩, l3, l4, _⟩ := hl
    unfold NativeWhisper.tracked
    rw [l1, l2, l3, l4, hc]; exact h
  publish f t s h := by
    obtain ⟨hl, hc⟩ := loop_publish_ledger f t s
    simp only [NativeWhisper.ledger, NativeWhisper.sizing, Prod.mk.injEq] at hl
    obtain ⟨l1, ⟨_, _, _, l2⟩, l3, l4, _⟩ := hl
    unfold NativeWhisper.tracked
    rw [l1, l2, l3, l4, hc]; exact h
  finalizeFlag s h := h
  stopFlag s h := h
  pollP s h := by rw [pollPartial_frame]; exact h
  pollF s h := by rw [pollFinal_frame]; exact h

theorem start_tracked (rate : Int) (s : NativeWhisper) (hc : s.ctx = true)
    (hr : s.running = false) : (NativeWhisper.start rate s).2.tracked := by
  rw [start_of_stopped rate s hc hr]
  unfold NativeWhisper.tracked
  simp

end Accounting

section Ingest

open NativeWhisper

theorem stable_total (k : Int) : Stable (fun s => s.total_ingested = k) :=
  stable_of_ledger (fun s => s.total_ingested)
    (fun s t h => by
      simp only [NativeWhisper.ledger, Prod.mk.injEq] at h
      exact h.2.2.1)
    (fun v => v = k)

theorem acceptPcm_total (samples : Option (Nat → Int)) (length : Int) (s : NativeWhisper) :
    (NativeWhisper.acceptPcm samples length s).total_ingested
      = s.total_ingested +
        (if samples.isSome ∧ 0 < length ∧ s.running = true then length else 0) := by
  by_cases hn : samples = none ∨ length ≤ 0 ∨ s.running = false
  · rw [acceptPcm_of_noop samples length s hn]
    have : ¬ (samples.isSome ∧ 0 < length ∧ s.running = true) := by
      rintro ⟨a, b, c⟩
      rcases hn with hn | hn | hn
      · rw [hn] at a; cases a
      · omega
      · rw [hn] at c; cases c
    simp [this]
  · have h1 : samples ≠ none := fun e => hn (Or.inl e)
    have h2 : 0 < length := by
      by_contra hc
      exact hn (Or.inr (Or.inl (by omega)))
    have h3 : s.running = true := by
      cases hr : s.running
      · exact absurd (Or.inr (Or.inr hr)) hn
      · rfl
    obtain ⟨p, rfl⟩ := Option.ne_none_iff_exists'.1 h1
    rw [acceptPcm_of_running p length s h2 h3]
    simp [h2, h3]

theorem acceptedLength_nonneg (σ : Session) (op : Op) : 0 ≤ acceptedLength σ op := by
  cases op <;> simp only [acceptedLength, le_refl]
  split
  · omega
  · exact le_refl _

theorem applyOp_total (engine : Engine) (σ τ : Session) (op : Op)
    (hop : op.isStart = false) (h : applyOp engine σ op = some τ) :
    τ.st.total_ingested = σ.st.total_ingested + acceptedLength σ op := by
  cases op with
  | start rate => simp [Op.isStart] at hop
  | acceptPcm samples length =>
    simp only [applyOp, Option.some.injEq] at h
    subst h
    exact acceptPcm_total samples length σ.st
  | pollPartial =>
    have e := applyOp_stable (stable_total σ.st.total_ingested) engine σ τ _ hop
      (fun _ _ c => by cases c) h rfl
    simpa [acceptedLength] using e
  | pollFinal =>
    have e := applyOp_stable (stable_total σ.st.total_ingested) engine σ τ _ hop
      (fun _ _ c => by cases c) h rfl
    simpa [acceptedLength] using e
  | requestFinalize =>
    have e := applyOp_stable (stable_total σ.st.total_ingested) engine σ τ _ hop
      (fun _ _ c => by cases c) h rfl
    simpa [acceptedLength] using e
  | stopImmediate =>
    have e := applyOp_stable (stable_total σ.st.total_ingested) engine σ τ _ hop
      (fun _ _ c => by cases c) h rfl
    simpa [acceptedLength] using e
  | workerStep =>
    have e := applyOp_stable (stable_total σ.st.total_ingested) engine σ τ _ hop
      (fun _ _ c => by cases c) h rfl
    simpa [acceptedLength] using e

theorem runOps_total_ingested (engine : Engine) (ops : List Op) :
    ∀ σ τ : Session, (∀ op ∈ ops, op.isStart = false) → runOps engine ops σ = some τ →
      τ.st.total_ingested = σ.st.total_ingested + acceptedSum engine ops σ := by
  induction ops with
  | nil =>
    intro σ τ _ h
    simp only [runOps, Option.some.injEq] at h
    subst h
    simp [acceptedSum]
  | cons op ops ih =>
    intro σ τ hops h
    unfold runOps at h
    cases hx : applyOp engine σ op with
    | none => simp [hx] at h
    | some υ =>
      simp only [hx] at h
      have e1 := applyOp_total engine σ υ op (hops op (List.mem_cons_self _ _)) hx
      have e2 := ih υ τ (fun o ho => hops o (List.mem_cons_of_mem _ ho)) h
      simp only [acceptedSum, hx]
      rw [e2, e1]
      omega

theorem post_start_consistent (rate : Int) (s0 : NativeWhisper) (hc : s0.ctx = true)
    (hr : s0.running = false) :
    Session.consistent
      { st := (NativeWhisper.start rate s0).2, worker := WorkerPhase.waiting } = true := by
  rw [start_of_stopped rate s0 hc hr]
  rfl

/-- C17: after a start that resets the session and any events other than a
start (`acceptPcm` calls, worker steps, polls, `requestFinalize`,
`stopImmediate`), the run exists and `0 ≤ last_decode_cursor ≤ total_ingested`,
`total_ingested` is the sum of the lengths of the accepted `acceptPcm` calls of
the run, the buffer size is `min total_ingested max_samples`, and no single
event other than a start lowers `total_ingested`. -/
theorem C17_ingest_accounting (engine : Engine) (rate : Int) (s0 : NativeWhisper)
    (ops : List Op) (hc : s0.ctx = true) (hr : s0.running = false)
    (hops : ∀ op ∈ ops, op.isStart = false) :
    ∃ σ, runOps engine ops
        { st := (NativeWhisper.start rate s0).2, worker := WorkerPhase.waiting } = some σ ∧
      0 ≤ σ.st.last_decode_cursor ∧
      σ.st.last_decode_cursor ≤ σ.st.total_ingested ∧
      σ.st.total_ingested
        = acceptedSum engine ops
            { st := (NativeWhisper.start rate s0).2, worker := WorkerPhase.waiting } ∧
      (σ.st.pcm.length : Int) = min σ.st.total_ingested (σ.st.max_samples : Int) ∧
      (∀ (υ τ : Session) (op : Op), op.isStart = false → applyOp engine υ op = some τ →
        υ.st.total_ingested ≤ τ.st.total_ingested) := by
  obtain ⟨σ, h1, _⟩ := runOps_consistent engine ops _ (post_start_consistent rate s0 hc hr)
  have ht := runOps_stable stable_tracked engine acceptPcm_tracked ops _ σ hops h1
    (start_tracked rate s0 hc hr)
  have hs := runOps_total_ingested engine ops _ σ hops h1
  have h0 : (NativeWhisper.start rate s0).2.total_ingested = 0 := by
    rw [start_of_stopped rate s0 hc hr]
  simp only [h0, zero_add] at hs
  refine ⟨σ, h1, ht.1, ht.2.1, hs, ht.2.2.1, ?_⟩
  intro υ τ op hop h
  rw [applyOp_total engine υ τ op hop h]
  have := acceptedLength_nonneg υ op
  omega

/-- Witness for C17: a fresh session started at 16000 Hz, fed three samples
and finalized. -/
theorem C17_ingest_accounting_witness :
    (NativeWhisper.new true).ctx = true ∧ (NativeWhisper.new true).running = false ∧
    (∀ op ∈ [Op.acceptPcm (some (fun i => (i : Int))) 3, Op.workerStep, Op.requestFinalize],
      op.isStart = false) ∧
    ∃ σ, runOps probeEngine
        [Op.acceptPcm (some (fun i => (i : Int))) 3, Op.workerStep, Op.requestFinalize]
        { st := (NativeWhisper.start 16000 (NativeWhisper.new true)).2,
          worker := WorkerPhase.waiting } = some σ ∧
      σ.st.last_decode_cursor ≤ σ.st.total_ingested :=
  ⟨rfl, rfl, by simp [Op.isStart],
    (C17_ingest_accounting probeEngine 16000 (NativeWhisper.new true)
      [Op.acceptPcm (some (fun i => (i : Int))) 3, Op.workerStep, Op.requestFinalize]
      rfl rfl (by simp [Op.isStart])).imp (fun _ h => ⟨h.1, h.2.2.1⟩)⟩

end Ingest

section Overflow

open NativeWhisper

theorem stable_and {P Q : NativeWhisper → Prop} (hP : Stable P) (hQ : Stable Q) :
    Stable (fun s => P s ∧ Q s) where
  wake s h := ⟨hP.wake s h.1, hQ.wake s h.2⟩
  inference engine w s h := ⟨hP.inference engine w s h.1, hQ.inference engine w s h.2⟩
  publish f t s h := ⟨hP.publish f t s h.1, hQ.publish f t s h.2⟩
  finalizeFlag s h := ⟨hP.finalizeFlag s h.1, hQ.finalizeFlag s h.2⟩
  stopFlag s h := ⟨hP.stopFlag s h.1, hQ.stopFlag s h.2⟩
  pollP s h := ⟨hP.pollP s h.1, hQ.pollP s h.2⟩
  pollF s h := ⟨hP.pollF s h.1, hQ.pollF s h.2⟩

theorem stable_warnings (k : Nat) :
    Stable (fun s => s.overflow_warnings = k + (if s.overflow_notified = true then 1 else 0)) :=
  stable_of_ledger (fun s => (s.overflow_warnings, s.overflow_notified))
    (fun s t h => by
      simp only [NativeWhisper.ledger, Prod.mk.injEq] at h
      simp only [Prod.mk.injEq]
      exact ⟨h.2.2.2.2, h.2.2.2.1⟩)
    (fun v => v.1 = k + (if v.2 = true then 1 else 0))

theorem stable_max_samples (k : Nat) : Stable (fun s => s.max_samples = k) :=
  stable_of_ledger (fun s => s.max_samples)
    (fun s t h => by
      simp only [NativeWhisper.ledger, NativeWhisper.sizing, Prod.mk.injEq] at h
      exact h.2.1.2.2.2)
    (fun v => v = k)

theorem acceptPcm_warnings (k : Nat) (samples : Option (Nat → Int)) (length : Int)
    (s : NativeWhisper)
    (h : s.tracked ∧ s.overflow_warnings = k + (if s.overflow_notified = true then 1 else 0)) :
    (NativeWhisper.acceptPcm samples length s).tracked ∧
    (NativeWhisper.acceptPcm samples length s).overflow_warnings
      = k + (if (NativeWhisper.acceptPcm samples length s).overflow_notified = true
          then 1 else 0) := by
  refine ⟨acceptPcm_tracked samples length s h.1, ?_⟩
  by_cases hn : samples = none ∨ length ≤ 0 ∨ s.running = false
  · rw [acceptPcm_of_noop samples length s hn]; exact h.2
  · have h1 : samples ≠ none := fun e => hn (Or.inl e)
    have h2 : 0 < length := by
      by_contra hc
      exact hn (Or.inr (Or.inl (by omega)))
    have h3 : s.running = true := by
      cases hr : s.running
      · exact absurd (Or.inr (Or.inr hr)) hn
      · rfl
    obtain ⟨p, rfl⟩ := Option.ne_none_iff_exists'.1 h1
    obtain ⟨_, _, e3, e4⟩ := acceptPcm_effect p length s h2 h3 (tracked_bound s h.1)
    rw [e3, e4, h.2]
    cases ho : s.overflow_notified
    · by_cases hd : s.pcm.length + length.toNat > s.max_samples <;> simp [hd]
    · simp

theorem foldl_push_latch_kept (xs : List Int) :
    ∀ s : NativeWhisper, s.overflow_notified = true →
      (xs.foldl acceptPcm_push s).overflow_notified = true := by
  induction xs with
  | nil => intro s h; exact h
  | cons x r ih =>
    intro s h
    rw [List.foldl_cons]
    apply ih
    rw [(acceptPcm_push_latch s x).1, h]
    rfl

theorem acceptPcm_latch_kept (samples : Option (Nat → Int)) (length : Int)
    (s : NativeWhisper) (h : s.overflow_notified = true) :
    (NativeWhisper.acceptPcm samples length s).overflow_notified = true := by
  by_cases hn : samples = none ∨ length ≤ 0 ∨ s.running = false
  · rw [acceptPcm_of_noop samples length s hn]; exact h
  · have h1 : samples ≠ none := fun e => hn (Or.inl e)
    have h2 : 0 < length := by
      by_contra hc
      exact hn (Or.inr (Or.inl (by omega)))
    have h3 : s.running = true := by
      cases hr : s.running
      · exact absurd (Or.inr (Or.inr hr)) hn
      · rfl
    obtain ⟨p, rfl⟩ := Option.ne_none_iff_exists'.1 h1
    rw [acceptPcm_of_running p length s h2 h3]
    exact foldl_push_latch_kept _ s h

/-- C12: after a start that resets the session and any events other than a
start, the number of overflow warnings logged since that start is one if the
overflow latch is set and zero otherwise, so at most one; the latch is set
exactly when more than `max_samples` samples have been ingested; a push that
evicts with the latch clear sets it and logs once, any other push leaves latch
and count alone, and `acceptPcm` never clears the latch.  After a start at
16000 Hz and accepted `acceptPcm` calls totalling 640000 samples, however
split, the buffer holds `max_samples = 480000` samples and exactly one warning
has been logged. -/
theorem C12_overflow_warning_once (engine : Engine) (rate : Int) (s0 : NativeWhisper)
    (ops : List Op) (hc : s0.ctx = true) (hr : s0.running = false)
    (hops : ∀ op ∈ ops, op.isStart = false) :
    ∃ σ, runOps engine ops
        { st := (NativeWhisper.start rate s0).2, worker := WorkerPhase.waiting } = some σ ∧
      σ.st.overflow_warnings
        = s0.overflow_warnings + (if σ.st.overflow_notified = true then 1 else 0) ∧
      σ.st.overflow_warnings ≤ s0.overflow_warnings + 1 ∧
      (σ.st.overflow_notified = true ↔ (σ.st.max_samples : Int) < σ.st.total_ingested) ∧
      (∀ (s : NativeWhisper) (x : Int),
        (acceptPcm_push s x).overflow_notified
          = (s.overflow_notified || decide (s.pcm.length + 1 > s.max_samples)) ∧
        (acceptPcm_push s x).overflow_warnings
          = s.overflow_warnings +
            (if (!s.overflow_notified && decide (s.pcm.length + 1 > s.max_samples)) = true
              then 1 else 0)) ∧
      (∀ (samples : Option (Nat → Int)) (length : Int) (s : NativeWhisper),
        s.overflow_notified = true →
        (NativeWhisper.acceptPcm samples length s).overflow_notified = true) ∧
      (rate = 16000 →
        acceptedSum engine ops
          { st := (NativeWhisper.start rate s0).2, worker := WorkerPhase.waiting } = 640000 →
        σ.st.max_samples = 480000 ∧ σ.st.pcm.length = 480000 ∧
        σ.st.overflow_warnings = s0.overflow_warnings + 1) := by
  obtain ⟨σ, h1, _⟩ := runOps_consistent engine ops _ (post_start_consistent rate s0 hc hr)
  have hinit : (NativeWhisper.start rate s0).2.overflow_warnings
      = s0.overflow_warnings +
        (if (NativeWhisper.start rate s0).2.overflow_notified = true then 1 else 0) := by
    rw [start_of_stopped rate s0 hc hr]; simp
  obtain ⟨ht, hw⟩ := runOps_stable (stable_and stable_tracked (stable_warnings s0.overflow_warnings))
    engine (acceptPcm_warnings s0.overflow_warnings) ops _ σ hops h1
    ⟨start_tracked rate s0 hc hr, hinit⟩
  refine ⟨σ, h1, hw, ?_, ht.2.2.2, acceptPcm_push_latch, acceptPcm_latch_kept, ?_⟩
  · rw [hw]; split <;> omega
  · intro hrate hsum
    subst hrate
    have hs := runOps_total_ingested engine ops _ σ hops h1
    have h0 : (NativeWhisper.start 16000 s0).2.total_ingested = 0 := by
      rw [start_of_stopped 16000 s0 hc hr]
    rw [h0, hsum, zero_add] at hs
    have hm : σ.st.max_samples = 480000 :=
      runOps_stable (stable_max_samples 480000) engine
        (fun samples length s h => by rw [acceptPcm_frame]; exact h) ops _ σ hops h1
        (start_16000 s0 hc hr).2.2.2
    obtain ⟨_, _, t3, t4⟩ := ht
    rw [hs, hm] at t3 t4
    have hl : σ.st.overflow_notified = true := t4.2 (by norm_num)
    refine ⟨hm, ?_, ?_⟩
    · have : (σ.st.pcm.length : Int) = 480000 := by rw [t3]; norm_num
      omega
    · rw [hw, hl]; simp

end Overflow

section OverflowWitness

open NativeWhisper

theorem fortySeconds_sum :
    acceptedSum probeEngine fortySeconds
      { st := (NativeWhisper.start 16000 (NativeWhisper.new true)).2,
        worker := WorkerPhase.waiting } = 640000 := by
  have hr : (NativeWhisper.start 16000 (NativeWhisper.new true)).2.running = true := by
    rw [start_of_stopped 16000 _ rfl rfl]
  have hr2 : (NativeWhisper.acceptPcm (some (fun i => (i : Int))) 400000
      (NativeWhisper.start 16000 (NativeWhisper.new true)).2).running = true := by
    rw [(acceptPcm_flags _ _ _).1, hr]
  simp [fortySeconds, acceptedSum, acceptedLength, applyOp, Session.acceptPcm, hr, hr2]

/-- Witness for C12: forty seconds of audio at 16000 Hz in two calls leave
thirty seconds in the buffer and one warning in the log. -/
theorem C12_overflow_warning_once_witness :
    (NativeWhisper.new true).ctx = true ∧ (NativeWhisper.new true).running = false ∧
    (∀ op ∈ fortySeconds, op.isStart = false) ∧
    ∃ σ, runOps probeEngine fortySeconds
        { st := (NativeWhisper.start 16000 (NativeWhisper.new true)).2,
          worker := WorkerPhase.waiting } = some σ ∧
      σ.st.pcm.length = 480000 ∧ σ.st.overflow_warnings = 0 + 1 :=
  ⟨rfl, rfl, by simp [fortySeconds, Op.isStart],
    (C12_overflow_warning_once probeEngine 16000 (NativeWhisper.new true) fortySeconds
      rfl rfl (by simp [fortySeconds, Op.isStart])).imp
      (fun _ h => ⟨h.1, (h.2.2.2.2.2.2 rfl fortySeconds_sum).2.1,
        (h.2.2.2.2.2.2 rfl fortySeconds_sum).2.2⟩)⟩

end OverflowWitness

section Redundancy

open NativeWhisper

theorem stable_sized : Stable NativeWhisper.sized :=
  stable_of_ledger (fun s => s.sizing)
    (fun s t h => by
      simp only [NativeWhisper.ledger, Prod.mk.injEq] at h
      exact h.2.1)
    (fun v => (v.2.1 : Int) = min_step v.1 ∧ v.2.1 ≤ v.2.2.2)

theorem acceptPcm_sized (samples : Option (Nat → Int)) (length : Int) (s : NativeWhisper)
    (h : s.sized) : (NativeWhisper.acceptPcm samples length s).sized := by
  have e := acceptPcm_sizing samples length s
  simp only [NativeWhisper.sizing, Prod.mk.injEq] at e
  obtain ⟨e1, e2, _, e4⟩ := e
  unfold NativeWhisper.sized
  rw [e1, e2, e4]; exact h

theorem sized_of_rate (r : Int) (h0 : 0 < r) (h1 : r ≤ intMax) :
    ((max (kStepSamples r) (toSizeT (Int.tdiv r 4)) : Nat) : Int) = min_step r ∧
    max (kStepSamples r) (toSizeT (Int.tdiv r 4))
      ≤ max (max (kStepSamples r) (kWindowSamples r)) (kMaxSamples r) := by
  have a := kStepSamples_eq r h0 h1
  have b := quarter_eq r h0 h1
  have c := kMaxSamples_eq r h0 h1
  have d := min_step_eq r h0
  have hq : toSizeT (Int.tdiv r 4) ≤ kStepSamples r := by
    have : (toSizeT (Int.tdiv r 4) : Int) ≤ (kStepSamples r : Int) := by
      rw [a, b]; omega
    exact_mod_cast this
  have hm : kStepSamples r ≤ kMaxSamples r := by
    have : (kStepSamples r : Int) ≤ (kMaxSamples r : Int) := by
      rw [a, c]; omega
    exact_mod_cast this
  rw [max_eq_left hq]
  exact ⟨by rw [a, d], le_trans hm (le_max_right _ _)⟩

theorem start_sized (rate : Int) (s : NativeWhisper) (hmax : rate ≤ intMax)
    (hc : s.ctx = true) (hr : s.running = false) : (NativeWhisper.start rate s).2.sized := by
  rw [start_of_stopped rate s hc hr]
  unfold NativeWhisper.sized
  dsimp only
  by_cases h : rate > 0
  · rw [if_pos h]
    exact sized_of_rate rate h hmax
  · rw [if_neg h]
    exact sized_of_rate kWhisperSampleRate (by decide) (by decide)

theorem buffer_condition_of_step (s : NativeWhisper) (ht : s.tracked) (hs : s.sized)
    (h : min_step s.sample_rate ≤ s.total_ingested - s.last_decode_cursor) :
    s.min_samples_for_decode ≤ s.pcm.length := by
  obtain ⟨t1, _, t3, _⟩ := ht
  obtain ⟨s1, s2⟩ := hs
  have : (s.min_samples_for_decode : Int) ≤ (s.pcm.length : Int) := by
    rw [t3, s1]
    have : (s.min_samples_for_decode : Int) ≤ (s.max_samples : Int) := by exact_mod_cast s2
    rw [s1] at this
    exact le_min (by omega) this
  exact_mod_cast this

/-- C20: after a start at a rate within `int` (a non-positive rate counts as
16000) that resets the session and any events other than a start, the run
exists and the new-audio condition of the decode trigger implies its
buffer-size condition, so `shouldDecodeLocked` holds exactly when the session
is running and `total_ingested - last_decode_cursor` is at least the step; the
decode minimum equals the step. -/
theorem C20_buffer_condition_redundant (engine : Engine) (rate : Int)
    (s0 : NativeWhisper) (ops : List Op) (hmax : rate ≤ intMax) (hc : s0.ctx = true)
    (hr : s0.running = false) (hops : ∀ op ∈ ops, op.isStart = false) :
    ∃ σ, runOps engine ops
        { st := (NativeWhisper.start rate s0).2, worker := WorkerPhase.waiting } = some σ ∧
      σ.st.sample_rate = (if rate > 0 then rate else 16000) ∧
      (σ.st.min_samples_for_decode : Int) = min_step σ.st.sample_rate ∧
      (min_step σ.st.sample_rate ≤ σ.st.total_ingested - σ.st.last_decode_cursor →
        σ.st.min_samples_for_decode ≤ σ.st.pcm.length) ∧
      (shouldDecodeLocked σ.st = true ↔
        (σ.st.running = true ∧
          min_step σ.st.sample_rate ≤ σ.st.total_ingested - σ.st.last_decode_cursor)) := by
  obtain ⟨σ, h1, _⟩ := runOps_consistent engine ops _ (post_start_consistent rate s0 hc hr)
  obtain ⟨ht, hs⟩ := runOps_stable (stable_and stable_tracked stable_sized) engine
    (fun samples length s h =>
      ⟨acceptPcm_tracked samples length s h.1, acceptPcm_sized samples length s h.2⟩)
    ops _ σ hops h1 ⟨start_tracked rate s0 hc hr, start_sized rate s0 hmax hc hr⟩
  have hrate : σ.st.sample_rate = (if rate > 0 then rate else 16000) :=
    runOps_stable
      (stable_of_ledger (fun s => s.sample_rate)
        (fun s t h => by
          simp only [NativeWhisper.ledger, NativeWhisper.sizing, Prod.mk.injEq] at h
          exact h.2.1.1)
        (fun v => v = (if rate > 0 then rate else 16000)))
      engine (fun samples length s h => by rw [acceptPcm_frame]; exact h) ops _ σ hops h1
      (start_sample_rate rate s0 hc hr)
  refine ⟨σ, h1, hrate, hs.1, buffer_condition_of_step σ.st ht hs, ?_⟩
  rw [shouldDecodeLocked_iff]
  constructor
  · rintro ⟨a, _, c⟩; exact ⟨a, c⟩
  · rintro ⟨a, c⟩; exact ⟨a, buffer_condition_of_step σ.st ht hs c, c⟩

/-- Witness for C20: a fresh session started at 16000 Hz, fed three samples
and stepped once. -/
theorem C20_buffer_condition_redundant_witness :
    (16000 : Int) ≤ intMax ∧ (NativeWhisper.new true).ctx = true ∧
    (NativeWhisper.new true).running = false ∧
    (∀ op ∈ [Op.acceptPcm (some (fun i => (i : Int))) 3, Op.workerStep],
      op.isStart = false) ∧
    ∃ σ, runOps probeEngine [Op.acceptPcm (some (fun i => (i : Int))) 3, Op.workerStep]
        { st := (NativeWhisper.start 16000 (NativeWhisper.new true)).2,
          worker := WorkerPhase.waiting } = some σ ∧
      (σ.st.min_samples_for_decode : Int) = min_step σ.st.sample_rate :=
  ⟨by decide, rfl, rfl, by simp [Op.isStart],
    (C20_buffer_condition_redundant probeEngine 16000 (NativeWhisper.new true)
      [Op.acceptPcm (some (fun i => (i : Int))) 3, Op.workerStep]
      (by decide) rfl rfl (by simp [Op.isStart])).imp (fun _ h => ⟨h.1, h.2.2.1⟩)⟩

end Redundancy

section Scenario600ms

open NativeWhisper

theorem settle_of_idle (engine : Engine) (n : Nat) (σ : Session) (h : σ.idle = true) :
    Session.settle engine n σ = some σ := by
  cases n <;> simp [Session.settle, h]

theorem settle_of_busy (engine : Engine) (n : Nat) (σ : Session) (h : σ.idle = false) :
    Session.settle engine (n + 1) σ = Session.settle engine n (Session.workerStep engine σ) := by
  simp [Session.settle, h]

theorem min_step_16000 : min_step 16000 = 8000 := by decide

theorem settled_idle (p0 : Nat) (σ : Session) (h : σ.settled p0) : σ.idle = true := by
  obtain ⟨hw, hr, hs, hf, hrate, hmin, hmax, ht, hle, hd⟩ := h
  have hno : shouldDecodeLocked σ.st = false := by
    cases hx : shouldDecodeLocked σ.st
    · rfl
    · obtain ⟨_, a, b⟩ := (shouldDecodeLocked_iff σ.st).1 hx
      rw [hrate, min_step_16000] at b
      obtain ⟨t1, t2, _, _⟩ := ht
      rcases hd with ⟨d1, d2, _⟩ | ⟨d1, _⟩ <;> omega
  simp [Session.idle, hw, hs, hf, hno]

/-- One accepted call followed by the worker run until idle keeps the scenario
states and adds the accepted length to the ingest counter. -/
theorem settle_after_accept (engine : Engine) (p0 fuel : Nat) (σ : Session)
    (samples : Option (Nat → Int)) (length : Int) (h : σ.settled p0)
    (hroom : σ.st.total_ingested + (if samples.isSome ∧ 0 < length then length else 0) ≤ 9600) :
    ∃ τ, Session.settle engine (fuel + 2) (Session.acceptPcm samples length σ) = some τ ∧
      τ.settled p0 ∧
      τ.st.total_ingested
        = σ.st.total_ingested + (if samples.isSome ∧ 0 < length then length else 0) := by
  obtain ⟨hw, hr, hs, hf, hrate, hmin, hmax, ht, hle, hd⟩ := h
  have hfl := acceptPcm_flags samples length σ.st
  have hfr := acceptPcm_frame samples length σ.st
  have htot := acceptPcm_total samples length σ.st
  have htr := acceptPcm_tracked samples length σ.st ht
  have hn : (if samples.isSome ∧ 0 < length ∧ σ.st.running = true then length else 0)
      = (if samples.isSome ∧ 0 < length then length else 0) := by simp [hr]
  rw [hn] at htot
  have hge : 0 ≤ (if samples.isSome ∧ 0 < length then length else 0) := by
    split
    · omega
    · exact le_refl _
  have hrate' : (NativeWhisper.acceptPcm samples length σ.st).sample_rate = 16000 := by
    rw [hfr]; exact hrate
  have hmin' : (NativeWhisper.acceptPcm samples length σ.st).min_samples_for_decode = 8000 := by
    rw [hfr]; exact hmin
  have hmax' : (NativeWhisper.acceptPcm samples length σ.st).max_samples = 480000 := by
    rw [hfr]; exact hmax
  have hcur' : (NativeWhisper.acceptPcm samples length σ.st).last_decode_cursor
      = σ.st.last_decode_cursor := by rw [hfr]
  have hpass' : (NativeWhisper.acceptPcm samples length σ.st).decode_passes
      = σ.st.decode_passes := by rw [hfr]
  rcases Bool.eq_false_or_eq_true
      (shouldDecodeLocked (NativeWhisper.acceptPcm samples length σ.st)) with hx | hx
  · -- a decode is due: one pass, then idle
    obtain ⟨_, a, b⟩ := (shouldDecodeLocked_iff _).1 hx
    rw [hrate', min_step_16000, hcur', htot] at b
    have hfirst : σ.st.last_decode_cursor = 0 ∧ σ.st.decode_passes = p0 := by
      rcases hd with ⟨_, d2, d3⟩ | ⟨d1, _⟩
      · exact ⟨d2, d3⟩
      · omega
    have hbusy : (Session.acceptPcm samples length σ).idle = false := by
      simp [Session.idle, Session.acceptPcm, hx]
    have hwake := loop_wake_of_due (NativeWhisper.acceptPcm samples length σ.st)
      (by rw [hfl.2.1]; exact hs) (by rw [hfl.2.2]; exact hf) hx
    have hstep1 : Session.workerStep engine (Session.acceptPcm samples length σ)
        = { st := { NativeWhisper.acceptPcm samples length σ.st with
                    last_decode_cursor :=
                      (NativeWhisper.acceptPcm samples length σ.st).total_ingested
                    decode_passes :=
                      (NativeWhisper.acceptPcm samples length σ.st).decode_passes + 1 },
            worker := WorkerPhase.decoding
              (buildWindowLocked (NativeWhisper.acceptPcm samples length σ.st)) false } := by
      simp [Session.workerStep, Session.acceptPcm, hw, hwake]
    rw [settle_of_busy engine (fuel + 1) _ hbusy, hstep1]
    have hbusy2 : Session.idle
        { st := { NativeWhisper.acceptPcm samples length σ.st with
                  last_decode_cursor :=
                    (NativeWhisper.acceptPcm samples length σ.st).total_ingested
                  decode_passes :=
                    (NativeWhisper.acceptPcm samples length σ.st).decode_passes + 1 },
          worker := WorkerPhase.decoding
            (buildWindowLocked (NativeWhisper.acceptPcm samples length σ.st)) false } = false := by
      simp [Session.idle]
    rw [settle_of_busy engine fuel _ hbusy2]
    generalize hs1 : ({ NativeWhisper.acceptPcm samples length σ.st with
        last_decode_cursor := (NativeWhisper.acceptPcm samples length σ.st).total_ingested
        decode_passes := (NativeWhisper.acceptPcm samples length σ.st).decode_passes + 1 }
          : NativeWhisper) = s1
    have f1 : s1.ledger = (NativeWhisper.acceptPcm samples length σ.st).ledger := by
      rw [← hs1]; rfl
    have c1 : s1.last_decode_cursor = σ.st.total_ingested
        + (if samples.isSome ∧ 0 < length then length else 0) := by
      rw [← hs1]; exact htot
    have p1 : s1.decode_passes = p0 + 1 := by
      rw [← hs1]; show _ + 1 = _; rw [hpass', hfirst.2]
    have r1 : s1.running = true ∧ s1.stop_requested = false ∧ s1.finalize_requested = false := by
      rw [← hs1]; exact ⟨hfl.1.trans hr, hfl.2.1.trans hs, hfl.2.2.trans hf⟩
    generalize hw1 : buildWindowLocked (NativeWhisper.acceptPcm samples length σ.st) = w1
    have hp := loop_publish_false_flags (infer engine w1 s1).1 (infer engine w1 s1).2
    have hi := infer_flags engine w1 s1
    obtain ⟨il, ic, _⟩ := infer_ledger engine w1 s1
    obtain ⟨pl, pc⟩ := loop_publish_ledger false (infer engine w1 s1).1 (infer engine w1 s1).2
    have hstep2 : Session.workerStep engine
        { st := s1, worker := WorkerPhase.decoding w1 false }
        = { st := (loop_publish false (infer engine w1 s1).1 (infer engine w1 s1).2).1,
            worker := WorkerPhase.waiting } := by
      simp [Session.workerStep, hp.1]
    rw [hstep2]
    generalize hs2 : (loop_publish false (infer engine w1 s1).1 (infer engine w1 s1).2).1 = s2
      at hp pl pc ⊢
    have l2 : s2.ledger = (NativeWhisper.acceptPcm samples length σ.st).ledger := by
      rw [pl, il, f1]
    have l2' := l2
    simp only [NativeWhisper.ledger, NativeWhisper.sizing, Prod.mk.injEq] at l2'
    obtain ⟨_, ⟨q1, q2, _, q4⟩, q5, _, _⟩ := l2'
    have c2 : s2.last_decode_cursor = σ.st.total_ingested
        + (if samples.isSome ∧ 0 < length then length else 0) := by
      rw [pc, ic, c1]
    have p2 : s2.decode_passes = p0 + 1 := by
      rw [← hs2, loop_publish_decode_passes, infer_decode_passes, p1]
    have t2 : s2.tracked := by
      rw [← hs2]
      refine stable_tracked.publish _ _ _ (stable_tracked.inference engine _ _ ?_)
      rw [← hs1]
      obtain ⟨a1, a2, a3, a4⟩ := htr
      exact ⟨by show (0 : Int) ≤ (NativeWhisper.acceptPcm samples length σ.st).total_ingested
                omega, le_refl _, a3, a4⟩
    have hset : Session.settled p0 { st := s2, worker := WorkerPhase.waiting } := by
      refine ⟨rfl, ?_, ?_, ?_, ?_, ?_, ?_, t2, ?_, Or.inr ⟨?_, p2⟩⟩
      · show s2.running = true
        rw [hp.2.1, hi.1]; exact r1.1
      · show s2.stop_requested = false
        rw [hp.2.2.1, hi.2.1]; exact r1.2.1
      · show s2.finalize_requested = false
        rw [hp.2.2.2, hi.2.2]; exact r1.2.2
      · show s2.sample_rate = 16000
        rw [q1]; exact hrate'
      · show s2.min_samples_for_decode = 8000
        rw [q2]; exact hmin'
      · show s2.max_samples = 480000
        rw [q4]; exact hmax'
      · show s2.total_ingested ≤ 9600
        rw [q5, htot]; exact hroom
      · show 8000 ≤ s2.last_decode_cursor
        rw [c2]; omega
    refine ⟨_, settle_of_idle engine fuel _ (settled_idle p0 _ hset), hset, ?_⟩
    show s2.total_ingested = _
    rw [q5, htot]
  · -- no decode due: already idle
    have hidle : (Session.acceptPcm samples length σ).idle = true := by
      simp [Session.idle, Session.acceptPcm, hw, hfl.2.1, hfl.2.2, hs, hf, hx]
    refine ⟨_, settle_of_idle engine _ _ hidle, ?_, htot⟩
    refine ⟨hw, hfl.1.trans hr, hfl.2.1.trans hs, hfl.2.2.trans hf, hrate', hmin', hmax', htr,
      (le_of_eq htot).trans hroom, ?_⟩
    rcases hd with ⟨d1, d2, d3⟩ | ⟨d1, d3⟩
    · left
      refine ⟨?_, hcur'.trans d2, hpass'.trans d3⟩
      show (NativeWhisper.acceptPcm samples length σ.st).total_ingested < 8000
      by_contra hc
      have hdue : shouldDecodeLocked (NativeWhisper.acceptPcm samples length σ.st) = true := by
        rw [shouldDecodeLocked_iff]
        refine ⟨hfl.1.trans hr, ?_, ?_⟩
        · rw [hmin']
          obtain ⟨_, _, a3, _⟩ := htr
          rw [hmax'] at a3
          omega
        · rw [hrate', min_step_16000, hcur', d2]; omega
      rw [hx] at hdue; cases hdue
    · right
      exact ⟨le_of_le_of_eq d1 hcur'.symm, hpass'.trans d3⟩

end Scenario600ms

section Scenario600msRun

open NativeWhisper

theorem callsTotal_nonneg (calls : List (Option (Nat → Int) × Int)) : 0 ≤ callsTotal calls := by
  induction calls with
  | nil => exact le_refl _
  | cons c rest ih =>
    obtain ⟨samples, length⟩ := c
    simp only [callsTotal]
    split <;> omega

theorem feedAndSettle_settled (engine : Engine) (p0 fuel : Nat)
    (calls : List (Option (Nat → Int) × Int)) :
    ∀ σ : Session, σ.settled p0 → σ.st.total_ingested + callsTotal calls ≤ 9600 →
      ∃ τ, feedAndSettle engine (fuel + 2) calls σ = some τ ∧ τ.settled p0 ∧
        τ.st.total_ingested = σ.st.total_ingested + callsTotal calls := by
  induction calls with
  | nil =>
    intro σ h _
    exact ⟨σ, rfl, h, by simp [callsTotal]⟩
  | cons c rest ih =>
    intro σ h hroom
    obtain ⟨samples, length⟩ := c
    simp only [callsTotal] at hroom
    have hrest := callsTotal_nonneg rest
    obtain ⟨υ, h1, h2, h3⟩ := settle_after_accept engine p0 fuel σ samples length h (by omega)
    obtain ⟨τ, h4, h5, h6⟩ := ih υ h2 (by rw [h3]; omega)
    refine ⟨τ, ?_, h5, ?_⟩
    · simp only [feedAndSettle, h1]
      exact h4
    · rw [h6, h3]
      simp only [callsTotal]
      omega

theorem post_start_settled (s0 : NativeWhisper) (hc : s0.ctx = true) (hr : s0.running = false) :
    Session.settled s0.decode_passes
      { st := (NativeWhisper.start 16000 s0).2, worker := WorkerPhase.waiting } := by
  obtain ⟨a, b, _, d⟩ := start_16000 s0 hc hr
  have ht := start_tracked 16000 s0 hc hr
  refine ⟨rfl, ?_, ?_, ?_, a, b, d, ht, ?_, Or.inl ⟨?_, ?_, ?_⟩⟩ <;>
    simp [start_of_stopped 16000 s0 hc hr]

/-- C14: after a start at 16000 Hz that resets the session, for every list of
`acceptPcm` calls feeding at most 9600 samples, with the worker run until idle
after each call (two steps of fuel or more), the run exists, ends with the
worker idle, and has dispatched one decode pass if at least 8000 samples have
been fed and none otherwise; in particular after any split of 9600 samples
exactly one pass has been dispatched, with the cursor at 8000 or later and
less than a step of new audio left. -/
theorem C14_one_pass_in_600ms (engine : Engine) (s0 : NativeWhisper)
    (calls : List (Option (Nat → Int) × Int)) (fuel : Nat)
    (hc : s0.ctx = true) (hr : s0.running = false) (hfuel : 2 ≤ fuel)
    (hsum : callsTotal calls ≤ 9600) :
    ∃ σ, feedAndSettle engine fuel calls
        { st := (NativeWhisper.start 16000 s0).2, worker := WorkerPhase.waiting } = some σ ∧
      σ.st.total_ingested = callsTotal calls ∧
      σ.idle = true ∧
      σ.st.decode_passes = s0.decode_passes + (if 8000 ≤ callsTotal calls then 1 else 0) ∧
      (callsTotal calls = 9600 →
        σ.st.decode_passes = s0.decode_passes + 1 ∧
        8000 ≤ σ.st.last_decode_cursor ∧
        σ.st.total_ingested - σ.st.last_decode_cursor < min_step σ.st.sample_rate) := by
  obtain ⟨k, rfl⟩ : ∃ k, fuel = k + 2 := ⟨fuel - 2, by omega⟩
  have h0 : (NativeWhisper.start 16000 s0).2.total_ingested = 0 := by
    rw [start_of_stopped 16000 s0 hc hr]
  obtain ⟨σ, h1, h2, h3⟩ := feedAndSettle_settled engine s0.decode_passes k calls _
    (post_start_settled s0 hc hr) (by rw [h0]; omega)
  simp only [h0, zero_add] at h3
  have hidle := settled_idle _ σ h2
  obtain ⟨_, _, _, _, hrate, _, _, ht, _, hd⟩ := h2
  obtain ⟨_, t2, _, _⟩ := ht
  have hpass : σ.st.decode_passes
      = s0.decode_passes + (if 8000 ≤ callsTotal calls then 1 else 0) := by
    rcases hd with ⟨d1, _, d3⟩ | ⟨d1, d3⟩
    · have : ¬ 8000 ≤ callsTotal calls := by omega
      simp [this, d3]
    · have : 8000 ≤ callsTotal calls := by omega
      simp [this, d3]
  refine ⟨σ, h1, h3, hidle, hpass, ?_⟩
  intro h9600
  rw [hrate, min_step_16000]
  rcases hd with ⟨d1, _, _⟩ | ⟨d1, d3⟩
  · omega
  · exact ⟨d3, d1, by omega⟩

/-- Witness for C14: 9600 samples fed as 5000 and then 4600, with three steps
of fuel. -/
theorem C14_one_pass_in_600ms_witness :
    (NativeWhisper.new true).ctx = true ∧ (NativeWhisper.new true).running = false ∧
    2 ≤ 3 ∧
    callsTotal [(some (fun i => (i : Int)), 5000), (some (fun i => (i : Int)), 4600)] ≤ 9600 ∧
    callsTotal [(some (fun i => (i : Int)), 5000), (some (fun i => (i : Int)), 4600)] = 9600 ∧
    ∃ σ, feedAndSettle probeEngine 3
        [(some (fun i => (i : Int)), 5000), (some (fun i => (i : Int)), 4600)]
        { st := (NativeWhisper.start 16000 (NativeWhisper.new true)).2,
          worker := WorkerPhase.waiting } = some σ ∧
      σ.st.decode_passes = 0 + 1 :=
  ⟨rfl, rfl, by decide, by decide, by decide,
    (C14_one_pass_in_600ms probeEngine (NativeWhisper.new true)
      [(some (fun i => (i : Int)), 5000), (some (fun i => (i : Int)), 4600)] 3
      rfl rfl (by decide) (by decide)).imp
      (fun _ h => ⟨h.1, (h.2.2.2.2 (by decide)).1⟩)⟩

end Scenario600msRun

section Trim

theorem findFrom_eq (l : List Char) :
    ∀ i, findFrom (fun c => !isTrimChar c) l i
      = if (l.takeWhile isTrimChar).length < l.length
          then some (i + (l.takeWhile isTrimChar).length) else none := by
  induction l with
  | nil => intro i; simp [findFrom]
  | cons c cs ih =>
    intro i
    by_cases hc : isTrimChar c = true
    · simp only [findFrom, hc, List.takeWhile_cons, Bool.not_true, Bool.false_eq_true,
        if_false, if_true, ih, List.length_cons, Nat.add_lt_add_iff_right]
      split
      · congr 1; omega
      · rfl
    · simp [findFrom, hc, List.takeWhile_cons]

theorem find_first_not_of_eq (s : Text) :
    find_first_not_of s
      = if (s.takeWhile isTrimChar).length < s.length
          then (s.takeWhile isTrimChar).length else npos := by
  unfold find_first_not_of
  rw [findFrom_eq]
  by_cases h : (s.takeWhile isTrimChar).length < s.length <;> simp [h]

theorem find_last_not_of_eq (s : Text) :
    find_last_not_of s
      = if (s.reverse.takeWhile isTrimChar).length < s.length
          then s.length - 1 - (s.reverse.takeWhile isTrimChar).length else npos := by
  unfold find_last_not_of
  rw [findFrom_eq, List.length_reverse]
  by_cases h : (s.reverse.takeWhile isTrimChar).length < s.length <;> simp [h]

theorem dropWhile_eq_drop (p : Char → Bool) (l : List Char) :
    l.dropWhile p = l.drop (l.takeWhile p).length := by
  have h := List.drop_left (l.takeWhile p) (l.dropWhile p)
  rw [List.takeWhile_append_dropWhile] at h
  exact h.symm

theorem rdropWhile_eq_take (p : Char → Bool) (l : List Char) :
    l.rdropWhile p = l.take (l.length - (l.reverse.takeWhile p).length) := by
  unfold List.rdropWhile
  rw [dropWhile_eq_drop, List.reverse_drop, List.reverse_reverse, List.length_reverse]

theorem takeWhile_length_lt (p : Char → Bool) (l : List Char) (h : ¬ ∀ c ∈ l, p c = true) :
    (l.takeWhile p).length < l.length := by
  have hle := (List.takeWhile_prefix p (l := l)).length_le
  rcases Nat.lt_or_ge (l.takeWhile p).length l.length with hlt | hge
  · exact hlt
  · exfalso
    apply h
    have e : l.takeWhile p = l :=
      (List.takeWhile_prefix p (l := l)).eq_of_length (by omega)
    exact List.takeWhile_eq_self_iff.1 e

/-- On texts shorter than `npos`, `trimCopy` is the reference. -/
theorem trimCopy_eq_reference (s : Text) (hlen : s.length < sizeModulus) :
    trimCopy s = trimReference s := by
  unfold trimCopy trimReference
  by_cases hall : ∀ c ∈ s, isTrimChar c = true
  · have e : s.takeWhile isTrimChar = s := List.takeWhile_eq_self_iff.2 hall
    have b : find_first_not_of s = npos := by
      rw [find_first_not_of_eq, e]; simp
    have d : s.dropWhile isTrimChar = [] := List.dropWhile_eq_nil_iff.2 hall
    simp [b, d]
  · have hL := takeWhile_length_lt isTrimChar s hall
    have hd : s.dropWhile isTrimChar ≠ [] := fun e => hall (List.dropWhile_eq_nil_iff.1 e)
    have hdrop := dropWhile_eq_drop isTrimChar s
    have hdlen : (s.dropWhile isTrimChar).length
        = s.length - (s.takeWhile isTrimChar).length := by
      rw [hdrop, List.length_drop]
    -- the trailing blanks of `s` are those of the part after the leading blanks
    have hnot : ¬ ∀ c ∈ (s.dropWhile isTrimChar).reverse, isTrimChar c = true := by
      intro hc
      have h1 := List.head_dropWhile_not isTrimChar s hd
      have h2 := hc ((s.dropWhile isTrimChar).head hd)
        (List.mem_reverse.2 (List.head_mem hd))
      rw [h1] at h2; cases h2
    have hR := takeWhile_length_lt isTrimChar _ hnot
    have hrev : s.reverse.takeWhile isTrimChar
        = (s.dropWhile isTrimChar).reverse.takeWhile isTrimChar := by
      have hs : s.reverse
          = (s.dropWhile isTrimChar).reverse ++ (s.takeWhile isTrimChar).reverse := by
        rw [← List.reverse_append, List.takeWhile_append_dropWhile]
      rw [hs, List.takeWhile_append, if_neg (Nat.ne_of_lt hR)]
    rw [List.length_reverse] at hR
    have b : find_first_not_of s = (s.takeWhile isTrimChar).length := by
      rw [find_first_not_of_eq, if_pos hL]
    have hRs : (s.reverse.takeWhile isTrimChar).length < s.length := by
      rw [hrev]; omega
    have e : find_last_not_of s
        = s.length - 1 - (s.reverse.takeWhile isTrimChar).length := by
      rw [find_last_not_of_eq, if_pos hRs]
    have hb : ¬ (s.takeWhile isTrimChar).length = npos := by
      unfold npos; unfold sizeModulus at hlen ⊢; omega
    have hcount : (s.length - 1 - (s.reverse.takeWhile isTrimChar).length + sizeModulus
          - (s.takeWhile isTrimChar).length + 1) % sizeModulus
        = (s.dropWhile isTrimChar).length
          - ((s.dropWhile isTrimChar).reverse.takeWhile isTrimChar).length := by
      rw [hdlen, hrev]
      rw [hrev] at hRs
      unfold sizeModulus at hlen ⊢
      omega
    simp only [b, e, hb, if_false, substr, hcount]
    rw [rdropWhile_eq_take, ← hdrop]

end Trim
section TrimSpec

theorem isTrimChar_iff (c : Char) :
    isTrimChar c = true ↔
      (c = ' ' ∨ c = Char.ofNat 9 ∨ c = Char.ofNat 10 ∨ c = Char.ofNat 13) := by
  have h : Char.ofNat 32 = ' ' := by decide
  simp only [isTrimChar, Bool.or_eq_true, beq_iff_eq, h]
  tauto

theorem rdropWhile_append_rtakeWhile (p : Char → Bool) (l : List Char) :
    l.rdropWhile p ++ l.rtakeWhile p = l := by
  unfold List.rdropWhile List.rtakeWhile
  rw [← List.reverse_append, List.takeWhile_append_dropWhile, List.reverse_reverse]

theorem trimReference_length_le (s : Text) : (trimReference s).length ≤ s.length :=
  le_trans (List.rdropWhile_prefix isTrimChar _).length_le
    (List.dropWhile_suffix isTrimChar).length_le

theorem trimReference_eq_nil_iff (s : Text) :
    trimReference s = [] ↔ ∀ c ∈ s, isTrimChar c = true := by
  unfold trimReference
  rw [List.rdropWhile_eq_nil_iff]
  constructor
  · intro h
    by_cases hd : s.dropWhile isTrimChar = []
    · exact List.dropWhile_eq_nil_iff.1 hd
    · have h1 := List.head_dropWhile_not isTrimChar s hd
      have h2 := h _ (List.head_mem hd)
      rw [h1] at h2; cases h2
  · intro h
    rw [List.dropWhile_eq_nil_iff.2 h]
    intro x hx
    cases hx

theorem trimReference_ends (s : Text) (h : trimReference s ≠ []) :
    isTrimChar ((trimReference s).head h) = false ∧
    isTrimChar ((trimReference s).getLast h) = false := by
  unfold trimReference at h ⊢
  constructor
  · have hd : s.dropWhile isTrimChar ≠ [] := by
      intro e
      rw [e] at h
      exact h (List.rdropWhile_nil isTrimChar)
    rw [(List.rdropWhile_prefix isTrimChar _).head h]
    exact List.head_dropWhile_not isTrimChar s hd
  · have := List.rdropWhile_last_not isTrimChar _ h
    simpa using this

theorem trimReference_idempotent (s : Text) :
    trimReference (trimReference s) = trimReference s := by
  have hd : (trimReference s).dropWhile isTrimChar = trimReference s := by
    by_cases h : trimReference s = []
    · rw [h]; rfl
    · have h1 := (trimReference_ends s h).1
      obtain ⟨c, rest, e⟩ := List.exists_cons_of_ne_nil h
      simp only [e, List.head_cons] at h1
      rw [e, List.dropWhile_cons_of_neg (by simp [h1])]
  have e : trimReference (trimReference s)
      = ((trimReference s).dropWhile isTrimChar).rdropWhile isTrimChar := rfl
  rw [e, hd]
  unfold trimReference
  exact List.rdropWhile_idempotent isTrimChar _

/-- C19: on every text shorter than `npos`, `trimCopy` removes the leading
and the trailing blanks (space, tab, line feed, carriage return) and nothing
else: the text is its leading blanks, then `trimCopy` of it, then its trailing
blanks; the result is empty exactly when every character is a blank, and
otherwise begins and ends with a character that is not a blank; trimming
twice is trimming once. -/
theorem C19_trimCopy_strips_blanks (s : Text) (hlen : s.length < sizeModulus) :
    trimCopy s = trimReference s ∧
    s = s.takeWhile isTrimChar ++ trimCopy s
          ++ (s.dropWhile isTrimChar).rtakeWhile isTrimChar ∧
    (∀ c ∈ s.takeWhile isTrimChar, isTrimChar c = true) ∧
    (∀ c ∈ (s.dropWhile isTrimChar).rtakeWhile isTrimChar, isTrimChar c = true) ∧
    (trimCopy s = [] ↔ ∀ c ∈ s, isTrimChar c = true) ∧
    (∀ h : trimCopy s ≠ [],
      isTrimChar ((trimCopy s).head h) = false ∧
      isTrimChar ((trimCopy s).getLast h) = false) ∧
    trimCopy (trimCopy s) = trimCopy s ∧
    (∀ c : Char, isTrimChar c = true ↔
      (c = ' ' ∨ c = Char.ofNat 9 ∨ c = Char.ofNat 10 ∨ c = Char.ofNat 13)) := by
  have e := trimCopy_eq_reference s hlen
  have e2 := trimCopy_eq_reference (trimReference s)
    (lt_of_le_of_lt (trimReference_length_le s) hlen)
  refine ⟨e, ?_, fun c hc => List.mem_takeWhile_imp hc,
    fun c hc => List.mem_rtakeWhile_imp hc, ?_, ?_, ?_, isTrimChar_iff⟩
  · rw [e, List.append_assoc]
    unfold trimReference
    rw [rdropWhile_append_rtakeWhile, List.takeWhile_append_dropWhile]
  · rw [e]; exact trimReference_eq_nil_iff s
  · rw [e]; exact trimReference_ends s
  · rw [e, e2]; exact trimReference_idempotent s

/-- Witness for C19: the text `" a b "` keeps its inner blank. -/
theorem C19_trimCopy_strips_blanks_witness :
    [' ', 'a', ' ', 'b', ' '].length < sizeModulus ∧
    trimCopy [' ', 'a', ' ', 'b', ' '] = ['a', ' ', 'b'] ∧
    trimCopy (trimCopy [' ', 'a', ' ', 'b', ' ']) = trimCopy [' ', 'a', ' ', 'b', ' '] :=
  ⟨by decide,
    (C19_trimCopy_strips_blanks [' ', 'a', ' ', 'b', ' '] (by decide)).1.trans (by decide),
    (C19_trimCopy_strips_blanks [' ', 'a', ' ', 'b', ' '] (by decide)).2.2.2.2.2.2.1⟩

end TrimSpec

section ThreadHandle

open NativeWhisper

theorem worker_keeps_ctx (engine : Engine) (f : Bool) (w : List Sample) (s : NativeWhisper) :
    (loop_publish f (infer engine w s).1 (infer engine w s).2).1.ctx = s.ctx := by
  rw [loop_publish_frame]
  show (infer engine w s).2.ctx = s.ctx
  rw [infer_fields]

theorem start_of_unjoined (rate : Int) (t : NativeWhisper) (w : WorkerPhase)
    (hc : t.ctx = true) (hr : t.running = false) (hj : w.joinable = true) :
    Session.start rate { st := t, worker := w } = none := by
  simp [Session.start, hc, hr, hj]

/-- When the locked part of `requestFinalize` has set the flag and the worker
has finished its final pass, but the caller's `join` has not completed yet,
the worker handle is still joinable while `running` is false: a `start`
arriving at that moment reaches the assignment to a joinable `std::thread`
(the `none` outcome).  Calls that run as a whole never meet this state
(`runOps_consistent`). -/
theorem start_before_join_completes (engine : Engine) (rate : Int) (s : NativeWhisper)
    (hc : s.ctx = true) :
    Session.start rate
      (Session.workerStep engine
        (Session.workerStep engine
          { st := { s with finalize_requested := true }, worker := WorkerPhase.waiting }))
      = none := by
  have hw := loop_wake_of_finalize { s with finalize_requested := true } rfl
  have hstep : Session.workerStep engine
      (Session.workerStep engine
        { st := { s with finalize_requested := true }, worker := WorkerPhase.waiting })
      = { st := (loop_publish true
            (infer engine (buildWindowLocked { s with finalize_requested := true })
              { s with finalize_requested := true
                       last_decode_cursor := s.total_ingested
                       decode_passes := s.decode_passes + 1 }).1
            (infer engine (buildWindowLocked { s with finalize_requested := true })
              { s with finalize_requested := true
                       last_decode_cursor := s.total_ingested
                       decode_passes := s.decode_passes + 1 }).2).1
          worker := WorkerPhase.exited } := by
    simp [Session.workerStep, hw, (loop_publish_final _ _).1]
  rw [hstep]
  have h1 := worker_keeps_ctx engine true
    (buildWindowLocked { s with finalize_requested := true })
    { s with finalize_requested := true
             last_decode_cursor := s.total_ingested
             decode_passes := s.decode_passes + 1 }
  have h2 := (loop_publish_final
    (infer engine (buildWindowLocked { s with finalize_requested := true })
      { s with finalize_requested := true
               last_decode_cursor := s.total_ingested
               decode_passes := s.decode_passes + 1 }).1
    (infer engine (buildWindowLocked { s with finalize_requested := true })
      { s with finalize_requested := true
               last_decode_cursor := s.total_ingested
               decode_passes := s.decode_passes + 1 }).2).2.2.2.2.2
  exact start_of_unjoined rate _ _ (h1.trans hc) h2 rfl

end ThreadHandle

section DegenerateRate

open NativeWhisper

/-- At a rate of 1 Hz the step and the decode minimum are both zero, so right
after `start` a decode is already due with nothing fed: a worker that wakes up
before any other call dispatches a pass over the empty window. -/
theorem decode_due_after_start_at_rate_one (s0 : NativeWhisper) (hc : s0.ctx = true)
    (hr : s0.running = false) :
    shouldDecodeLocked (NativeWhisper.start 1 s0).2 = true ∧
    (loop_wake (NativeWhisper.start 1 s0).2).2 = WakeOutcome.dispatch [] false := by
  have hd : shouldDecodeLocked (NativeWhisper.start 1 s0).2 = true := by
    rw [shouldDecodeLocked_iff, start_of_stopped 1 s0 hc hr]
    dsimp only
    exact ⟨rfl, by decide, by decide⟩
  refine ⟨hd, ?_⟩
  rw [loop_wake_of_due _ (by rw [start_of_stopped 1 s0 hc hr])
    (by rw [start_of_stopped 1 s0 hc hr]) hd]
  show WakeOutcome.dispatch (buildWindowLocked (NativeWhisper.start 1 s0).2) false = _
  rw [buildWindowLocked_nil _ (by rw [start_of_stopped 1 s0 hc hr])]

end DegenerateRate

section EmptyFinalizeSchedules

open NativeWhisper

theorem runOps_append (engine : Engine) (ops rest : List Op) :
    ∀ σ : Session, runOps engine (ops ++ rest) σ
      = (runOps engine ops σ).bind (runOps engine rest) := by
  induction ops with
  | nil => intro σ; rfl
  | cons op ops ih =>
    intro σ
    simp only [List.cons_append, runOps]
    cases applyOp engine σ op with
    | none => rfl
    | some τ => exact ih τ

theorem runOps_workerSteps_fixed (engine : Engine) (σ : Session)
    (h : Session.workerStep engine σ = σ) (n : Nat) :
    runOps engine (List.replicate n Op.workerStep) σ = some σ := by
  induction n with
  | zero => rfl
  | succ n ih =>
    simp only [List.replicate_succ, runOps, applyOp, h]
    exact ih

/-- C15, as stated, fails at rate 1: with one wake-up of the worker between
`start` and `requestFinalize` and nothing fed, two decode passes are
dispatched (the engine is still not called, the final text is empty and
`running` is false). -/
theorem C15_two_passes_at_rate_one :
    (runOps probeEngine [Op.start 1, Op.workerStep, Op.requestFinalize]
      (Session.new true)).map
        (fun σ => (σ.st.decode_passes, σ.st.engine_calls, σ.st.final_text, σ.st.running))
      = some (2, 0, [], false) := by
  decide

/-- C15, amended: for every rate of at least 2 (within `int`), `start` on a
stopped session with an engine followed by `requestFinalize` with nothing fed,
with any number `n` of wake-ups of the worker between the two calls, runs
exactly one decode pass, over the empty window, without calling the engine and
with the same final state for every engine: the final text is empty,
`running` is false, the worker is joined, `pollFinal` returns the empty text
once and then nothing, and `pollPartial` returns nothing.  At any rate, rate 1
included, the same holds when the worker does not wake up in between. -/
theorem C15_one_empty_pass (rate : Int) (σ0 : Session) (n : Nat)
    (hc : σ0.st.ctx = true) (hr : σ0.st.running = false)
    (hw : σ0.worker = WorkerPhase.absent) (h2 : 2 ≤ rate) (hmax : rate ≤ intMax) :
    ∃ σ2,
      (∀ engine : Engine,
        runOps engine
          (Op.start rate :: (List.replicate n Op.workerStep ++ [Op.requestFinalize])) σ0
          = some σ2) ∧
      buildWindowLocked (NativeWhisper.start rate σ0.st).2 = [] ∧
      σ2.st.decode_passes = σ0.st.decode_passes + 1 ∧
      σ2.st.engine_calls = σ0.st.engine_calls ∧
      σ2.st.final_text = [] ∧ σ2.st.running = false ∧ σ2.worker = WorkerPhase.absent ∧
      (Session.pollFinal σ2).1 = some [] ∧
      (Session.pollFinal (Session.pollFinal σ2).2).1 = none ∧
      (Session.pollPartial σ2).1 = none ∧
      (∀ r : Int, ∃ σ3,
        (∀ engine : Engine,
          runOps engine [Op.start r, Op.requestFinalize] σ0 = some σ3) ∧
        σ3.st.decode_passes = σ0.st.decode_passes + 1 ∧
        σ3.st.engine_calls = σ0.st.engine_calls ∧
        σ3.st.final_text = [] ∧ σ3.st.running = false ∧
        (Session.pollFinal σ3).1 = some [] ∧ (Session.pollPartial σ3).1 = none) := by
  obtain ⟨σ1, σ2, a1, a2, a3, a4, a5, a6, a7, a8, a9, a10, a11, a12⟩ :=
    finalize_right_after_start probeEngine rate σ0 hc hr hw
  have hσ1 : σ1 = { st := (NativeWhisper.start rate σ0.st).2, worker := WorkerPhase.waiting } := by
    have hstart : Session.start rate σ0 =
        some (true,
          { st := (NativeWhisper.start rate σ0.st).2, worker := WorkerPhase.waiting }) := by
      simp [Session.start, hc, hr, hw, WorkerPhase.joinable]
    rw [hstart] at a1
    simp only [Option.some.injEq, Prod.mk.injEq, true_and] at a1
    exact a1.symm
  refine ⟨σ2, ?_, ?_, a4, a5, a6, a7, a8, a9, a10, a11, ?_⟩
  · intro engine
    obtain ⟨τ1, τ2, b1, _, b3, _, _, _, _, _, _, _, _, b12⟩ :=
      finalize_right_after_start engine rate σ0 hc hr hw
    have e1 : τ1 = σ1 := by
      rw [a1] at b1
      simp only [Option.some.injEq, Prod.mk.injEq, true_and] at b1
      exact b1.symm
    subst e1
    have e2 : τ2 = σ2 := by
      have := (b3 engine).symm.trans (a3 engine)
      exact Option.some.inj this
    subst e2
    have hfix := b12 h2 hmax
    simp only [runOps, applyOp, a1, Option.map_some']
    rw [runOps_append, runOps_workerSteps_fixed engine τ1 hfix n]
    simp only [Option.some_bind, runOps, applyOp, b3 engine]
  · rw [hσ1] at a2; exact a2
  · intro r
    obtain ⟨τ1, τ3, c1, _, c3, c4, c5, c6, c7, _, c9, _, c11, _⟩ :=
      finalize_right_after_start probeEngine r σ0 hc hr hw
    refine ⟨τ3, ?_, c4, c5, c6, c7, c9, c11⟩
    intro engine
    simp only [runOps, applyOp, c1, Option.map_some', c3 engine]

/-- Witness for C15 (amended): a fresh session started at 16000 Hz, three
wake-ups of the worker, then the finalize request. -/
theorem C15_one_empty_pass_witness :
    (Session.new true).st.ctx = true ∧ (Session.new true).st.running = false ∧
    (Session.new true).worker = WorkerPhase.absent ∧ (2 : Int) ≤ 16000 ∧
    (16000 : Int) ≤ intMax ∧
    ∃ σ2,
      runOps probeEngine
        [Op.start 16000, Op.workerStep, Op.workerStep, Op.workerStep, Op.requestFinalize]
        (Session.new true) = some σ2 ∧
      σ2.st.decode_passes = 0 + 1 ∧ σ2.st.final_text = [] :=
  ⟨rfl, rfl, rfl, by decide, by decide,
    (C15_one_empty_pass 16000 (Session.new true) 3 rfl rfl rfl (by decide) (by decide)).imp
      (fun _ h => ⟨h.1 probeEngine, h.2.2.1, h.2.2.2.2.1⟩)⟩

end EmptyFinalizeSchedules

end WhisperBridge
